import Mathlib

/-!
# Tic-Tac-Toe: a shallow embedding of `tic_tac_toe2.c` and `tic_tac_toe.c`

The C `Game` record is embedded as a Lean structure; every C function that
receives a `Game *` and mutates it becomes a function that takes the game
and returns the resulting game next to its result (explicit state passing).
C `char` is `Char`. C `int` is the unbounded `Int`: every integer the program
handles stays within a few thousands of zero, and signed overflow, which C leaves
undefined, is outside the model. The one exception is `g->moves++` in
`place_if_empty`, a function that is handed a game in any state and does not undo
its increment: there the result is reduced to the range of a 32-bit `int`
(`wrapInt`), as the compiled program does. The nested loops `for r` / `for c` are folds over
the list `cells` of the nine cells in row-major order. The recursion of `minimax`
is driven by a fuel argument: `none` means that the fuel ran out before the call
returned. A line of input is a list of characters, and the conversion `%d` of the
library function `sscanf` is `scanInt`.

The file first gives the embedding of the program, then the vocabulary of the
specification (brute-force minimax, lines, well-formed positions), then two
auxiliary searches that decide who can avoid losing (one on the game, one on bit
masks, proved to agree), and then the theorems.
-/

namespace TicTacToe

set_option autoImplicit false

/-! ## Game state -/

/-- One row `board[r]` of the grid: the three cells `board[r][0..2]`. -/
structure Row where
  c0 : Char
  c1 : Char
  c2 : Char
deriving DecidableEq

/-- The grid `char board[N][N]` with `N = 3`, as its three rows. -/
structure Board where
  r0 : Row
  r1 : Row
  r2 : Row
deriving DecidableEq

/-- The C struct `Game`: the grid, whose turn it is, and the number of moves. -/
structure Game where
  board : Board
  current : Char
  moves : Int
deriving DecidableEq

/-- Read `row[c]`. -/
def Row.get (r : Row) (c : Fin 3) : Char :=
  match c.val with
  | 0 => r.c0
  | 1 => r.c1
  | _ => r.c2

/-- Write `row[c] = v`. -/
def Row.set (r : Row) (c : Fin 3) (v : Char) : Row :=
  match c.val with
  | 0 => { r with c0 := v }
  | 1 => { r with c1 := v }
  | _ => { r with c2 := v }

/-- Read `board[r][c]`. -/
def Board.get (b : Board) (r c : Fin 3) : Char :=
  match r.val with
  | 0 => b.r0.get c
  | 1 => b.r1.get c
  | _ => b.r2.get c

/-- Write `board[r][c] = v`. -/
def Board.set (b : Board) (r c : Fin 3) (v : Char) : Board :=
  match r.val with
  | 0 => { b with r0 := b.r0.set c v }
  | 1 => { b with r1 := b.r1.set c v }
  | _ => { b with r2 := b.r2.set c v }

/-- The order in which `for (r = 0; r < N; ++r) for (c = 0; c < N; ++c)` visits
the cells: row-major. -/
def cells : List (Fin 3 × Fin 3) :=
  [(0, 0), (0, 1), (0, 2), (1, 0), (1, 1), (1, 2), (2, 0), (2, 1), (2, 2)]

/-- The board in which every cell is `' '`. -/
def emptyBoard : Board :=
  ⟨⟨' ', ' ', ' '⟩, ⟨' ', ' ', ' '⟩, ⟨' ', ' ', ' '⟩⟩

/-- C `reset_board`: blank grid, `'X'` to move, no move made. -/
def reset_board (_g : Game) : Game :=
  { board := emptyBoard, current := 'X', moves := 0 }

/-- The empty cells of the board, in row-major order. -/
def emptyCells (g : Game) : List (Fin 3 × Fin 3) :=
  cells.filter (fun rc => decide (g.board.get rc.1 rc.2 = ' '))

/-! ## Terminal evaluator -/

/-- The loop `for (i = 0; i < N; ++i)` of `check_status`, over the indices still
to visit: row `i` is tested first, then column `i`; the first completed line
ends the function with its mark. -/
def scanLines (b : Board) : List (Fin 3) → Option Char
  | [] => none
  | i :: rest =>
    if b.get i 0 ≠ ' ' ∧ b.get i 0 = b.get i 1 ∧ b.get i 1 = b.get i 2 then some (b.get i 0)
    else if b.get 0 i ≠ ' ' ∧ b.get 0 i = b.get 1 i ∧ b.get 1 i = b.get 2 i then
      some (b.get 0 i)
    else scanLines b rest

/-- C `check_status`: `'X'`/`'O'` winner, `'D'` draw, `' '` game continues. -/
def check_status (g : Game) : Char :=
  let b := g.board
  match scanLines b [0, 1, 2] with
  | some w => w
  | none =>
    if b.get 1 1 ≠ ' ' ∧ ((b.get 0 0 = b.get 1 1 ∧ b.get 1 1 = b.get 2 2) ∨
                          (b.get 0 2 = b.get 1 1 ∧ b.get 1 1 = b.get 2 0)) then b.get 1 1
    else if g.moves ≥ 9 then 'D'
    else ' '

/-! ## Search engine -/

/-- The statements `g->board[r][c] = mark; g->moves++;` that start a trial. -/
def Game.mark (g : Game) (rc : Fin 3 × Fin 3) (mark : Char) : Game :=
  { g with board := g.board.set rc.1 rc.2 mark, moves := g.moves + 1 }

/-- The statements `g->board[r][c] = ' '; g->moves--;` that undo a trial. -/
def Game.unmark (g : Game) (rc : Fin 3 × Fin 3) : Game :=
  { g with board := g.board.set rc.1 rc.2 ' ', moves := g.moves - 1 }

/-- The double loop of the maximizing branch of `minimax`, over the cells still
to visit. `child g a` is the recursive call `minimax(g, bot, human, depth + 1,
a, beta, 0)` on the game as it stands, returning its value and the game it
leaves behind. -/
def maxLoop (child : Game → Int → Option (Int × Game)) (bot : Char) (beta : Int) :
    List (Fin 3 × Fin 3) → Game → Int → Int → Option (Int × Game)
  | [], g, best, _ => some (best, g)
  | rc :: rest, g, best, alpha =>
    if g.board.get rc.1 rc.2 = ' ' then
      match child (g.mark rc bot) alpha with
      | none => none
      | some (val, g1) =>
        let g2 := g1.unmark rc
        let best := if val > best then val else best
        let alpha := if val > alpha then val else alpha
        if beta ≤ alpha then some (best, g2)
        else maxLoop child bot beta rest g2 best alpha
    else maxLoop child bot beta rest g best alpha

/-- The double loop of the minimizing branch of `minimax`; `child g b` is the
recursive call `minimax(g, bot, human, depth + 1, alpha, b, 1)`. -/
def minLoop (child : Game → Int → Option (Int × Game)) (human : Char) (alpha : Int) :
    List (Fin 3 × Fin 3) → Game → Int → Int → Option (Int × Game)
  | [], g, best, _ => some (best, g)
  | rc :: rest, g, best, beta =>
    if g.board.get rc.1 rc.2 = ' ' then
      match child (g.mark rc human) beta with
      | none => none
      | some (val, g1) =>
        let g2 := g1.unmark rc
        let best := if val < best then val else best
        let beta := if val < beta then val else beta
        if beta ≤ alpha then some (best, g2)
        else minLoop child human alpha rest g2 best beta
    else minLoop child human alpha rest g best beta

/-- C `minimax` with alpha-beta pruning. The first argument is the fuel: the
number of nested calls still allowed. The result is the returned score and the
game as the call leaves it. -/
def minimax : Nat → Game → Char → Char → Int → Int → Int → Int → Option (Int × Game)
  | 0, _, _, _, _, _, _, _ => none
  | fuel + 1, g, bot, human, depth, alpha, beta, maximizing =>
    let status := check_status g
    if status = bot then some (10 - depth, g)
    else if status = human then some (depth - 10, g)
    else if status = 'D' then some (0, g)
    else if maximizing ≠ 0 then
      maxLoop (fun g1 a => minimax fuel g1 bot human (depth + 1) a beta 0) bot beta
        cells g (-1000) alpha
    else
      minLoop (fun g1 b => minimax fuel g1 bot human (depth + 1) alpha b 1) human alpha
        cells g 1000 beta

/-- The double loop of `best_move_minimax`, over the cells still to visit, carrying
`best_val` and `(*best_r, *best_c)`. -/
def bestLoop (fuel : Nat) (bot human : Char) :
    List (Fin 3 × Fin 3) → Game → Int → Int × Int → Option ((Int × Int) × Game)
  | [], g, _, best => some (best, g)
  | rc :: rest, g, best_val, best =>
    if g.board.get rc.1 rc.2 = ' ' then
      match minimax fuel (g.mark rc bot) bot human 0 (-1000) 1000 0 with
      | none => none
      | some (move_val, g1) =>
        let g2 := g1.unmark rc
        if move_val > best_val then
          bestLoop fuel bot human rest g2 move_val ((rc.1.val : Int), (rc.2.val : Int))
        else bestLoop fuel bot human rest g2 best_val best
    else bestLoop fuel bot human rest g best_val best

/-- C `best_move_minimax`: the pair written to `(*best_r, *best_c)` and the game
as the call leaves it. -/
def best_move_minimax (fuel : Nat) (g : Game) (bot human : Char) :
    Option ((Int × Int) × Game) :=
  let seed : Int × Int := if g.board.get 1 1 = ' ' then (1, 1) else (-1, -1)
  bestLoop fuel bot human cells g (-1000) seed

/-! ## Placing marks, the bot, the turn loop -/

/-- The C struct `Mode`. -/
structure Mode where
  vs_bot : Int
  human_symbol : Char
  bot_symbol : Char
  bot_hard : Int

/-- An `int` used as an index of `board`, as a `Fin 3`. It is only applied to
values in `0..2`, on which it is the identity. -/
def toIdx (i : Int) : Fin 3 := ⟨i.toNat % 3, Nat.mod_lt _ (by decide)⟩

/-- The value a 32-bit `int` holds when the arithmetic result is `i`: `i` itself
from `-2147483648` (`INT_MIN`) to `2147483647` (`INT_MAX`), and `i` reduced modulo
`2^32` into that range otherwise. C leaves signed overflow undefined; the reduction
is what the two's-complement machines the program is compiled for do, so that
`INT_MAX + 1` is `INT_MIN`. -/
def wrapInt (i : Int) : Int := (i + 2147483648) % 4294967296 - 2147483648

/-- C `place_if_empty`: the returned flag and the game after the call. The
increment `g->moves++` is on a 32-bit `int`. -/
def place_if_empty (g : Game) (row col : Int) : Int × Game :=
  if row < 0 ∨ row ≥ 3 ∨ col < 0 ∨ col ≥ 3 then (0, g)
  else if g.board.get (toIdx row) (toIdx col) ≠ ' ' then (0, g)
  else (1, { g with board := g.board.set (toIdx row) (toIdx col) g.current,
                    moves := wrapInt (g.moves + 1) })

/-- C `swap_player`. -/
def swap_player (g : Game) : Game :=
  { g with current := if g.current = 'X' then 'O' else 'X' }

/-- C `random_move`; `rnd` is the value returned by `rand()`. -/
def random_move (g : Game) (rnd : Nat) : Int × Int :=
  let empties := emptyCells g
  let k := empties.length
  if k = 0 then (-1, -1)
  else
    match empties.get? (rnd % k) with
    | some rc => ((rc.1.val : Int), (rc.2.val : Int))
    | none => (-1, -1)

/-- C `bot_make_move` (the `printf` left out); `rnd` is the value `rand()` returns
if it is called. `none` means that the search ran out of fuel. -/
def bot_make_move (fuel : Nat) (g : Game) (m : Mode) (rnd : Nat) : Option Game :=
  let found : Option ((Int × Int) × Game) :=
    if m.bot_hard ≠ 0 then best_move_minimax fuel g m.bot_symbol m.human_symbol
    else some (random_move g rnd, g)
  match found with
  | none => none
  | some ((r, c), g1) =>
    if r ≠ -1 then
      some { g1 with board := g1.board.set (toIdx r) (toIdx c) m.bot_symbol,
                     moves := g1.moves + 1 }
    else some g1

/-- The start of a game in `main` of `tic_tac_toe2.c`: `reset_board`, then the bot
moves at once when it plays `'X'`. -/
def startOfGame (fuel : Nat) (m : Mode) (g : Game) (rnds : List Nat) :
    Option (Game × List Nat) :=
  let g0 := reset_board g
  if m.vs_bot ≠ 0 ∧ m.bot_symbol = 'X' then
    match bot_make_move fuel g0 m (rnds.headD 0) with
    | none => none
    | some g1 => some ({ g1 with current := 'O' }, rnds.tail)
  else some ({ g0 with current := 'X' }, rnds)

/-- The turn loop of `main` in `tic_tac_toe2.c`, run for at most `n` iterations.
`typed` are the lines the human types, already through `parse_move`: `none` for a
line that does not parse, `some (row, col)` for the zero-based pair it yields; when
they run out the program exits. `rnds` are the values `rand()` returns. The result
is the game when the loop stops or after `n` iterations. -/
def turnLoop (fuel : Nat) (m : Mode) :
    Nat → Game → List (Option (Int × Int)) → List Nat → Option Game
  | 0, g, _, _ => some g
  | n + 1, g, typed, rnds =>
    let status := check_status g
    if status = 'X' ∨ status = 'O' then some g
    else if status = 'D' then some g
    else if m.vs_bot = 0 ∨ g.current = m.human_symbol then
      match typed with
      | [] => some g
      | none :: rest => turnLoop fuel m n g rest rnds
      | some (row, col) :: rest =>
        match place_if_empty g row col with
        | (ok, g1) =>
          if ok = 0 then turnLoop fuel m n g1 rest rnds
          else turnLoop fuel m n (swap_player g1) rest rnds
    else
      match bot_make_move fuel g m (rnds.headD 0) with
      | none => none
      | some g1 => turnLoop fuel m n (swap_player g1) typed rnds.tail

/-- A whole game of `tic_tac_toe2.c`: the start, then `n` iterations of the loop. -/
def playGame (fuel : Nat) (m : Mode) (g : Game) (n : Nat)
    (typed : List (Option (Int × Int))) (rnds : List Nat) : Option Game :=
  match startOfGame fuel m g rnds with
  | none => none
  | some (g1, rnds1) => turnLoop fuel m n g1 typed rnds1

/-! ## Reading a move, the loop of `tic_tac_toe.c` -/

/-- C `isspace` in the "C" locale: space, and the control characters 9 to 13
(`\t`, `\n`, `\v`, `\f`, `\r`). -/
def isspace (c : Char) : Bool := decide (c = ' ') || (decide (9 ≤ c.toNat) && decide (c.toNat ≤ 13))

/-- Skip leading white space, as the loop at the head of `parse_move` and the
conversion `%d` of `sscanf` both do. -/
def skipSpaces : List Char → List Char
  | [] => []
  | c :: rest => if isspace c then skipSpaces rest else c :: rest

/-- The decimal digits at the head of the text, accumulated onto `acc`; the result
is the number read and the text left. -/
def scanDigits (acc : Nat) : List Char → Nat × List Char
  | [] => (acc, [])
  | c :: rest =>
    if c.isDigit then scanDigits (10 * acc + (c.toNat - 48)) rest else (acc, c :: rest)

/-- The conversion `%d` of `sscanf`: white space is skipped, then an optional sign
and at least one decimal digit are read. `none` is a matching failure or the end
of the input. The value is not reduced to the range of `int`. -/
def scanInt (s : List Char) : Option (Int × List Char) :=
  match skipSpaces s with
  | [] => none
  | c :: rest =>
    if c = '-' then
      match rest with
      | [] => none
      | d :: _ =>
        if d.isDigit then
          match scanDigits 0 rest with
          | (n, left) => some (-(n : Int), left)
        else none
    else if c = '+' then
      match rest with
      | [] => none
      | d :: _ =>
        if d.isDigit then
          match scanDigits 0 rest with
          | (n, left) => some ((n : Int), left)
        else none
    else if c.isDigit then
      match scanDigits 0 (c :: rest) with
      | (n, left) => some ((n : Int), left)
    else none

/-- C `parse_move`: `some (row, col)` when it returns 1 with `*row`, `*col` set,
`none` when it returns 0. The call `sscanf(line, "%d", &n)` is tried first; only if
it fails or `n` is outside `1..9` is `sscanf(line, "%d %d", &r, &c)` tried. -/
def parse_move (line : List Char) : Option (Int × Int) :=
  let line := skipSpaces line
  let single : Option Int :=
    match scanInt line with
    | none => none
    | some (n, _) => if n ≥ 1 ∧ n ≤ 9 then some n else none
  match single with
  | some n => some ((n - 1) / 3, (n - 1) % 3)
  | none =>
    match scanInt line with
    | none => none
    | some (r, left) =>
      match scanInt left with
      | none => none
      | some (c, _) =>
        if r - 1 ≥ 0 ∧ r - 1 < 3 ∧ c - 1 ≥ 0 ∧ c - 1 < 3 then some (r - 1, c - 1) else none

/-- The turn loop of `main` in `tic_tac_toe.c` (two humans at the keyboard), run for
at most `n` iterations. `typed` are the lines typed, already through `parse_move`;
when they run out the program exits. A line that does not parse or that
`place_if_empty` refuses starts the next iteration (`continue`); after a placement
the loop ends (`break`) if `check_status` reports a winner or a draw, and otherwise
the turn passes. The result is the game when the loop stops or after `n` iterations. -/
def plainLoop : Nat → Game → List (Option (Int × Int)) → Game
  | 0, g, _ => g
  | _ + 1, g, [] => g
  | n + 1, g, none :: rest => plainLoop n g rest
  | n + 1, g, some (row, col) :: rest =>
    match place_if_empty g row col with
    | (ok, g1) =>
      if ok = 0 then plainLoop n g1 rest
      else
        let status := check_status g1
        if status = 'X' ∨ status = 'O' then g1
        else if status = 'D' then g1
        else plainLoop n (swap_player g1) rest

/-- A whole game of `tic_tac_toe.c`: `reset_board`, then `n` iterations of the loop. -/
def plainGame (g : Game) (n : Nat) (typed : List (Option (Int × Int))) : Game :=
  plainLoop n (reset_board g) typed

/-! ## Vocabulary of the specification -/

/-- Number of cells of the board that hold `' '`. -/
def emptyCount (g : Game) : Nat :=
  cells.countP (fun rc => decide (g.board.get rc.1 rc.2 = ' '))

/-- Number of cells of the board that hold a mark (anything but `' '`). -/
def countMarks (g : Game) : Nat :=
  cells.countP (fun rc => decide (g.board.get rc.1 rc.2 ≠ ' '))

/-- The eight lines of the grid: 3 rows, 3 columns, 2 diagonals. -/
def lines : List ((Fin 3 × Fin 3) × (Fin 3 × Fin 3) × (Fin 3 × Fin 3)) :=
  [((0, 0), (0, 1), (0, 2)), ((1, 0), (1, 1), (1, 2)), ((2, 0), (2, 1), (2, 2)),
   ((0, 0), (1, 0), (2, 0)), ((0, 1), (1, 1), (2, 1)), ((0, 2), (1, 2), (2, 2)),
   ((0, 0), (1, 1), (2, 2)), ((0, 2), (1, 1), (2, 0))]

/-- The three cells of line `l` hold the mark `p`. -/
def lineOf (g : Game) (l : (Fin 3 × Fin 3) × (Fin 3 × Fin 3) × (Fin 3 × Fin 3)) (p : Char) :
    Prop :=
  g.board.get l.1.1 l.1.2 = p ∧ g.board.get l.2.1.1 l.2.1.2 = p ∧ g.board.get l.2.2.1 l.2.2.2 = p

/-- Line `l` holds three identical marks other than `' '`. -/
def lineComplete (g : Game)
    (l : (Fin 3 × Fin 3) × (Fin 3 × Fin 3) × (Fin 3 × Fin 3)) : Prop :=
  g.board.get l.1.1 l.1.2 ≠ ' ' ∧ lineOf g l (g.board.get l.1.1 l.1.2)

/-- Some line of the grid is completed. -/
def hasLine (g : Game) : Prop := ∃ l ∈ lines, lineComplete g l

/-- Every cell holds one of the three values the `Game` struct documents. -/
def validCells (g : Game) : Prop :=
  ∀ rc : Fin 3 × Fin 3, g.board.get rc.1 rc.2 = 'X' ∨ g.board.get rc.1 rc.2 = 'O' ∨
    g.board.get rc.1 rc.2 = ' '

/-- The standing assumptions on a position handed to the search: the cells hold
`'X'`, `'O'` or `' '`, `moves` counts the marks on the board, and `bot`, `human`
are the two distinct player symbols. -/
structure WF (g : Game) (bot human : Char) : Prop where
  cells : validCells g
  moves : g.moves = (countMarks g : Int)
  syms : (bot = 'X' ∧ human = 'O') ∨ (bot = 'O' ∧ human = 'X')

/-- Position of a cell in the row-major traversal. -/
def cellIndex (rc : Fin 3 × Fin 3) : Nat := 3 * rc.1.val + rc.2.val

/-- The pair written to `(*best_r, *best_c)` for cell `rc`. -/
def cellCoords (rc : Fin 3 × Fin 3) : Int × Int := ((rc.1.val : Int), (rc.2.val : Int))

/-- The loop of `best_move_minimax` started without the centre pre-selection,
that is from `(*best_r, *best_c) = (-1, -1)`. -/
def best_move_unseeded (fuel : Nat) (g : Game) (bot human : Char) :
    Option ((Int × Int) × Game) :=
  bestLoop fuel bot human cells g (-1000) (-1, -1)

/-- Both sides played by `best_move_minimax`, for at most `n` moves: while the game
continues, the side on move (`g.current`) searches with its own symbol as `bot` and
the other symbol as `human`, its mark is placed at the returned cell with `moves`
incremented (as `bot_make_move` does), and the turn passes (`swap_player`).
`none` means that the game was not over after `n` moves. -/
def selfPlay (fuel : Nat) : Nat → Game → Option Game
  | 0, _ => none
  | n + 1, g =>
    if check_status g ≠ ' ' then some g
    else
      match bot_make_move fuel g
          ⟨1, (swap_player g).current, g.current, 1⟩ 0 with
      | none => none
      | some g1 => selfPlay fuel n (swap_player g1)

/-- The invariant of the data model: `moves` is the number of marks on the board. -/
def movesCounted (g : Game) : Prop := g.moves = (countMarks g : Int)

/-- Number of cells of the board that hold `p`. -/
def countOf (g : Game) (p : Char) : Nat :=
  cells.countP (fun rc => decide (g.board.get rc.1 rc.2 = p))

/-- What holds of a game at the head of a turn loop: the board is well formed, it is
the turn of `'X'` or `'O'`, `'X'` has as many marks as `'O'` when `'X'` is to move
and one more when `'O'` is, and the two players do not both have a line. -/
structure Turn (g : Game) : Prop where
  wf : WF g 'X' 'O'
  cur : g.current = 'X' ∨ g.current = 'O'
  diff : (countOf g 'X' : Int) - (countOf g 'O' : Int) = if g.current = 'X' then 0 else 1
  one : ¬ ((∃ l ∈ lines, lineOf g l 'X') ∧ (∃ l ∈ lines, lineOf g l 'O'))

/-! ## Brute-force minimax (the reference the search is compared with) -/

/-- The values of a list of results, when none of them is missing. -/
def allSome : List (Option Int) → Option (List Int)
  | [] => some []
  | none :: _ => none
  | some v :: rest =>
    match allSome rest with
    | none => none
    | some vs => some (v :: vs)

/-- The maximum of a non-empty list of scores. -/
def maxOf : List Int → Option Int
  | [] => none
  | v :: vs =>
    match maxOf vs with
    | none => some v
    | some m => some (max v m)

/-- The minimum of a non-empty list of scores. -/
def minOf : List Int → Option Int
  | [] => none
  | v :: vs =>
    match minOf vs with
    | none => some v
    | some m => some (min v m)

/-- Full-tree minimax without pruning: `10 - depth` if `check_status` is `bot`,
`depth - 10` if it is `human`, `0` if it is `'D'`, otherwise the maximum (when
`maximizing`, placing `bot`) or the minimum (otherwise, placing `human`) over all
empty cells of the value of the child at `depth + 1` with the opposite flag. The
first argument is the fuel. -/
def bruteForce : Nat → Game → Char → Char → Int → Bool → Option Int
  | 0, _, _, _, _, _ => none
  | fuel + 1, g, bot, human, depth, maximizing =>
    let status := check_status g
    if status = bot then some (10 - depth)
    else if status = human then some (depth - 10)
    else if status = 'D' then some 0
    else
      match allSome ((emptyCells g).map fun rc =>
          bruteForce fuel (g.mark rc (if maximizing then bot else human)) bot human
            (depth + 1) (!maximizing)) with
      | none => none
      | some vs => if maximizing then maxOf vs else minOf vs

/-- What a search with window `(alpha, beta)` that returned `r` tells about the
true value `v`: `r` is exact inside the window, an upper bound at or below
`alpha`, a lower bound at or above `beta`. -/
def ABok (alpha beta r v : Int) : Prop :=
  (r ≤ alpha → v ≤ r) ∧ (beta ≤ r → r ≤ v) ∧ (alpha < r → r < beta → v = r)

/-! ## Who can avoid losing: a search on the game and the same search on bit masks -/

/-- Player `me` can avoid losing from `g`, whatever `opp` plays; `myTurn` tells
whether `me` is to move. The first argument is the fuel. -/
def safeFor : Nat → Char → Char → Game → Bool → Bool
  | 0, _, _, _, _ => false
  | fuel + 1, me, opp, g, myTurn =>
    let status := check_status g
    if status = me then true
    else if status = opp then false
    else if status = 'D' then true
    else if myTurn then
      (emptyCells g).any fun rc => safeFor fuel me opp (g.mark rc me) false
    else
      (emptyCells g).all fun rc => safeFor fuel me opp (g.mark rc opp) true

/-- Bit of a cell in a 9-bit mask: cell `(r, c)` is bit `3 r + c`. -/
def cellBit (rc : Fin 3 × Fin 3) : Nat := 2 ^ cellIndex rc

/-- The mask `m` contains one of the eight lines. -/
def lineIn (m : Nat) : Bool :=
  Nat.beq (m &&& 7) 7 || Nat.beq (m &&& 56) 56 || Nat.beq (m &&& 448) 448 ||
  Nat.beq (m &&& 73) 73 || Nat.beq (m &&& 146) 146 || Nat.beq (m &&& 292) 292 ||
  Nat.beq (m &&& 273) 273 || Nat.beq (m &&& 84) 84

/-- The order in which the mask search tries the cells: centre, corners, edges. -/
def searchOrder : List (Fin 3 × Fin 3) :=
  [(1, 1), (0, 0), (0, 2), (2, 0), (2, 2), (0, 1), (1, 0), (1, 2), (2, 1)]

/-- The bits of `searchOrder`. -/
def searchBits : List Nat := [16, 1, 4, 64, 256, 2, 8, 32, 128]

/-- Some free cell (a bit of the list not in `occ`) satisfies `child`. -/
def anyFree (child : Nat → Bool) (occ : Nat) : List Nat → Bool
  | [] => false
  | b :: rest =>
    if Nat.beq (occ &&& b) 0 then (if child b then true else anyFree child occ rest)
    else anyFree child occ rest

/-- Every free cell (a bit of the list not in `occ`) satisfies `child`. -/
def allFree (child : Nat → Bool) (occ : Nat) : List Nat → Bool
  | [] => true
  | b :: rest =>
    if Nat.beq (occ &&& b) 0 then (if child b then allFree child occ rest else false)
    else allFree child occ rest

/-- The search of `safeFor` on bit masks: `me` and `opp` are the masks of the two
players, `k` the number of marks on the board. Only the lines of the player who
moved last are tested. -/
def fastSafe : Nat → Nat → Nat → Nat → Bool → Bool
  | 0, _, _, _, _ => false
  | f + 1, me, opp, k, myTurn =>
    if myTurn then
      if lineIn opp then false
      else if Nat.ble 9 k then true
      else anyFree (fun b => fastSafe f (me ||| b) opp (k + 1) false) (me ||| opp) searchBits
    else
      if lineIn me then true
      else if Nat.ble 9 k then true
      else allFree (fun b => fastSafe f me (opp ||| b) (k + 1) true) (me ||| opp) searchBits

/-- The mask `m` marks exactly the cells of `g` that hold `p`. -/
def Rep (g : Game) (p : Char) (m : Nat) : Prop :=
  m < 512 ∧ ∀ rc : Fin 3 × Fin 3, m.testBit (cellIndex rc) = decide (g.board.get rc.1 rc.2 = p)

/-- Executable check that the game continues at `g`, that `g` is well formed for the
symbols `bot`, `human`, and that `mB`, `mH` are the masks of their marks. -/
def posCheck (g : Game) (bot human : Char) (mB mH : Nat) : Bool :=
  decide (mB < 512) && decide (mH < 512) && decide (g.moves = (countMarks g : Int)) &&
  decide (check_status g = ' ') &&
  decide ((bot = 'X' ∧ human = 'O') ∨ (bot = 'O' ∧ human = 'X')) &&
  cells.all (fun rc =>
    decide (g.board.get rc.1 rc.2 = 'X' ∨ g.board.get rc.1 rc.2 = 'O' ∨
      g.board.get rc.1 rc.2 = ' ') &&
    (mB.testBit (cellIndex rc) == decide (g.board.get rc.1 rc.2 = bot)) &&
    (mH.testBit (cellIndex rc) == decide (g.board.get rc.1 rc.2 = human)))

/-- Executable certificate that `c` is the cell `best_move_minimax` returns at the
drawn position `g`: `human` is safe whatever `bot` plays, `c` keeps `bot` safe, and
every empty cell before `c` does not. -/
def drawCheck (g : Game) (bot human : Char) (mB mH : Nat) (c : Fin 3 × Fin 3) : Bool :=
  posCheck g bot human mB mH && decide (g.board.get c.1 c.2 = ' ') &&
  fastSafe 10 mH mB (countMarks g) false &&
  fastSafe 10 (mB ||| cellBit c) mH (countMarks g + 1) false &&
  cells.all (fun x =>
    !(decide (g.board.get x.1 x.2 = ' ') && decide (cellIndex x < cellIndex c)) ||
    !fastSafe 10 (mB ||| cellBit x) mH (countMarks g + 1) false)

/-! ## Concrete games -/

/-- The game right after `reset_board`. -/
def startGame : Game :=
  { board := emptyBoard, current := 'X', moves := 0 }

/-- The board of the forced-block scenario. -/
def blockGame : Game :=
  { board := ⟨⟨'X', 'X', ' '⟩, ⟨' ', 'O', ' '⟩, ⟨' ', ' ', ' '⟩⟩, current := 'O', moves := 3 }

/-- A board on which `'X'` has completed the top row. -/
def xRowGame : Game :=
  { board := ⟨⟨'X', 'X', 'X'⟩, ⟨'O', 'O', ' '⟩, ⟨' ', ' ', ' '⟩⟩, current := 'O', moves := 5 }

/-- A board on which `'X'`, to move, wins at once at `(0, 2)`. -/
def winGame : Game :=
  { board := ⟨⟨'X', 'X', ' '⟩, ⟨'O', 'O', ' '⟩, ⟨' ', ' ', ' '⟩⟩, current := 'X', moves := 4 }

/-- The positions of the game in which `best_move_minimax` plays both sides. -/
def selfPos : Nat → Game
  | 0 => startGame
  | 1 => ⟨⟨⟨'X', ' ', ' '⟩, ⟨' ', ' ', ' '⟩, ⟨' ', ' ', ' '⟩⟩, 'O', 1⟩
  | 2 => ⟨⟨⟨'X', ' ', ' '⟩, ⟨' ', 'O', ' '⟩, ⟨' ', ' ', ' '⟩⟩, 'X', 2⟩
  | 3 => ⟨⟨⟨'X', 'X', ' '⟩, ⟨' ', 'O', ' '⟩, ⟨' ', ' ', ' '⟩⟩, 'O', 3⟩
  | 4 => ⟨⟨⟨'X', 'X', 'O'⟩, ⟨' ', 'O', ' '⟩, ⟨' ', ' ', ' '⟩⟩, 'X', 4⟩
  | 5 => ⟨⟨⟨'X', 'X', 'O'⟩, ⟨' ', 'O', ' '⟩, ⟨'X', ' ', ' '⟩⟩, 'O', 5⟩
  | 6 => ⟨⟨⟨'X', 'X', 'O'⟩, ⟨'O', 'O', ' '⟩, ⟨'X', ' ', ' '⟩⟩, 'X', 6⟩
  | 7 => ⟨⟨⟨'X', 'X', 'O'⟩, ⟨'O', 'O', 'X'⟩, ⟨'X', ' ', ' '⟩⟩, 'O', 7⟩
  | 8 => ⟨⟨⟨'X', 'X', 'O'⟩, ⟨'O', 'O', 'X'⟩, ⟨'X', 'O', ' '⟩⟩, 'X', 8⟩
  | _ => ⟨⟨⟨'X', 'X', 'O'⟩, ⟨'O', 'O', 'X'⟩, ⟨'X', 'O', 'X'⟩⟩, 'O', 9⟩

/-- The empty board with `moves` at `INT_MAX`, the largest value of an `int`. -/
def maxMovesGame : Game :=
  { board := emptyBoard, current := 'X', moves := 2147483647 }

/-- The empty board with `' '` in the field `current`. -/
def blankTurnGame : Game :=
  { board := emptyBoard, current := ' ', moves := 0 }

/-! ## Reading and writing cells -/

theorem wrapInt_eq (i : Int) (h1 : -2147483648 ≤ i) (h2 : i < 2147483648) : wrapInt i = i := by
  unfold wrapInt
  omega

theorem Row.cell_get_set (r : Row) (c c1 : Fin 3) (v : Char) :
    (r.set c v).get c1 = if c = c1 then v else r.get c1 := by
  fin_cases c <;> fin_cases c1 <;> rfl

theorem Row.cell_set_set (r : Row) (c : Fin 3) (v w : Char) : (r.set c v).set c w = r.set c w := by
  fin_cases c <;> rfl

theorem Row.cell_set_get_self (r : Row) (c : Fin 3) : r.set c (r.get c) = r := by
  fin_cases c <;> rfl

theorem Board.get_set (b : Board) (r c r1 c1 : Fin 3) (v : Char) :
    (b.set r c v).get r1 c1 = if r = r1 ∧ c = c1 then v else b.get r1 c1 := by
  fin_cases r <;> fin_cases r1 <;> simp [Board.get, Board.set, Row.cell_get_set]

theorem Board.set_set (b : Board) (r c : Fin 3) (v w : Char) :
    (b.set r c v).set r c w = b.set r c w := by
  fin_cases r <;> simp [Board.set, Row.cell_set_set]

theorem Board.set_get_self (b : Board) (r c : Fin 3) : b.set r c (b.get r c) = b := by
  fin_cases r <;> simp [Board.set, Board.get, Row.cell_set_get_self]

theorem Game.unmark_mark (g : Game) (rc : Fin 3 × Fin 3) (s : Char)
    (h : g.board.get rc.1 rc.2 = ' ') : (g.mark rc s).unmark rc = g := by
  cases g with
  | mk b cur m =>
    simp only [Game.mark, Game.unmark, Board.set_set]
    simp only at h
    rw [← h, Board.set_get_self]
    simp

/-! ## The search leaves the game as it found it -/

theorem maxLoop_frame (child : Game → Int → Option (Int × Game)) (bot : Char) (beta : Int)
    (hchild : ∀ g1 a r, child g1 a = some r → r.2 = g1) :
    ∀ (l : List (Fin 3 × Fin 3)) (g : Game) (best alpha : Int) (r : Int × Game),
      maxLoop child bot beta l g best alpha = some r → r.2 = g := by
  intro l
  induction l with
  | nil =>
    intro g best alpha r h
    simp only [maxLoop, Option.some.injEq] at h
    rw [← h]
  | cons rc rest ih =>
    intro g best alpha r h
    unfold maxLoop at h
    by_cases hb : g.board.get rc.1 rc.2 = ' '
    · rw [if_pos hb] at h
      cases hc : child (g.mark rc bot) alpha with
      | none => rw [hc] at h; exact absurd h (by simp)
      | some p =>
        obtain ⟨val, g1⟩ := p
        have hg1 : g1 = g.mark rc bot := hchild _ _ _ hc
        rw [hc] at h
        simp only at h
        subst hg1
        rw [Game.unmark_mark g rc bot hb] at h
        by_cases hcut : beta ≤ (if val > alpha then val else alpha)
        · rw [if_pos hcut] at h
          simp only [Option.some.injEq] at h
          rw [← h]
        · rw [if_neg hcut] at h
          exact ih _ _ _ _ h
    · rw [if_neg hb] at h
      exact ih _ _ _ _ h

theorem minLoop_frame (child : Game → Int → Option (Int × Game)) (human : Char) (alpha : Int)
    (hchild : ∀ g1 b r, child g1 b = some r → r.2 = g1) :
    ∀ (l : List (Fin 3 × Fin 3)) (g : Game) (best beta : Int) (r : Int × Game),
      minLoop child human alpha l g best beta = some r → r.2 = g := by
  intro l
  induction l with
  | nil =>
    intro g best beta r h
    simp only [minLoop, Option.some.injEq] at h
    rw [← h]
  | cons rc rest ih =>
    intro g best beta r h
    unfold minLoop at h
    by_cases hb : g.board.get rc.1 rc.2 = ' '
    · rw [if_pos hb] at h
      cases hc : child (g.mark rc human) beta with
      | none => rw [hc] at h; exact absurd h (by simp)
      | some p =>
        obtain ⟨val, g1⟩ := p
        have hg1 : g1 = g.mark rc human := hchild _ _ _ hc
        rw [hc] at h
        simp only at h
        subst hg1
        rw [Game.unmark_mark g rc human hb] at h
        by_cases hcut : (if val < beta then val else beta) ≤ alpha
        · rw [if_pos hcut] at h
          simp only [Option.some.injEq] at h
          rw [← h]
        · rw [if_neg hcut] at h
          exact ih _ _ _ _ h
    · rw [if_neg hb] at h
      exact ih _ _ _ _ h

theorem minimax_frame : ∀ (fuel : Nat) (g : Game) (bot human : Char)
    (depth alpha beta maximizing : Int) (r : Int × Game),
    minimax fuel g bot human depth alpha beta maximizing = some r → r.2 = g := by
  intro fuel
  induction fuel with
  | zero => intro g bot human depth alpha beta maximizing r h; simp [minimax] at h
  | succ n ih =>
    intro g bot human depth alpha beta maximizing r h
    unfold minimax at h
    simp only at h
    split at h
    · simp only [Option.some.injEq] at h; rw [← h]
    · split at h
      · simp only [Option.some.injEq] at h; rw [← h]
      · split at h
        · simp only [Option.some.injEq] at h; rw [← h]
        · split at h
          · exact maxLoop_frame _ bot beta (fun g1 a r1 h1 => ih _ _ _ _ _ _ _ _ h1) _ _ _ _ _ h
          · exact minLoop_frame _ human alpha (fun g1 b r1 h1 => ih _ _ _ _ _ _ _ _ h1) _ _ _ _ _ h

theorem bestLoop_frame (fuel : Nat) (bot human : Char) :
    ∀ (l : List (Fin 3 × Fin 3)) (g : Game) (best_val : Int) (best : Int × Int)
      (r : (Int × Int) × Game),
      bestLoop fuel bot human l g best_val best = some r → r.2 = g := by
  intro l
  induction l with
  | nil =>
    intro g best_val best r h
    simp only [bestLoop, Option.some.injEq] at h
    rw [← h]
  | cons rc rest ih =>
    intro g best_val best r h
    unfold bestLoop at h
    by_cases hb : g.board.get rc.1 rc.2 = ' '
    · rw [if_pos hb] at h
      cases hc : minimax fuel (g.mark rc bot) bot human 0 (-1000) 1000 0 with
      | none => rw [hc] at h; exact absurd h (by simp)
      | some p =>
        obtain ⟨val, g1⟩ := p
        have hg1 : g1 = g.mark rc bot := minimax_frame _ _ _ _ _ _ _ _ _ hc
        rw [hc] at h
        simp only at h
        subst hg1
        rw [Game.unmark_mark g rc bot hb] at h
        split at h
        · exact ih _ _ _ _ h
        · exact ih _ _ _ _ h
    · rw [if_neg hb] at h
      exact ih _ _ _ _ h

/-! ## Counting cells -/

theorem countP_flip {α : Type} [DecidableEq α] (l : List α) (hn : l.Nodup) (a : α) (ha : a ∈ l)
    (p q : α → Bool) (hpq : ∀ x, x ≠ a → p x = q x) (hp : p a = true) (hq : q a = false) :
    l.countP p = l.countP q + 1 := by
  have hperm := List.perm_cons_erase ha
  rw [hperm.countP_eq p, hperm.countP_eq q, List.countP_cons, List.countP_cons]
  simp only [hp, hq, if_true]
  have : (l.erase a).countP p = (l.erase a).countP q := by
    apply List.countP_congr
    intro x hx
    have hne : x ≠ a := ((hn.mem_erase_iff).1 hx).1
    rw [hpq x hne]
  rw [this]
  simp

theorem cells_nodup : cells.Nodup := by decide

theorem mem_cells (rc : Fin 3 × Fin 3) : rc ∈ cells := by
  obtain ⟨r, c⟩ := rc
  fin_cases r <;> fin_cases c <;> simp [cells]

theorem mark_get (g : Game) (rc x : Fin 3 × Fin 3) (s : Char) :
    (g.mark rc s).board.get x.1 x.2 = if rc = x then s else g.board.get x.1 x.2 := by
  simp only [Game.mark, Board.get_set]
  by_cases h : rc = x
  · subst h; simp
  · have : ¬ (rc.1 = x.1 ∧ rc.2 = x.2) := fun hh => h (Prod.ext hh.1 hh.2)
    simp [h, this]

theorem emptyCount_mark (g : Game) (rc : Fin 3 × Fin 3) (s : Char)
    (hb : g.board.get rc.1 rc.2 = ' ') (hs : s ≠ ' ') :
    emptyCount g = emptyCount (g.mark rc s) + 1 := by
  unfold emptyCount
  apply countP_flip cells cells_nodup rc (mem_cells rc)
  · intro x hx
    rw [mark_get, if_neg (Ne.symm hx)]
  · simpa using hb
  · rw [mark_get]; simpa using hs

theorem countMarks_mark (g : Game) (rc : Fin 3 × Fin 3) (s : Char)
    (hb : g.board.get rc.1 rc.2 = ' ') (hs : s ≠ ' ') :
    countMarks (g.mark rc s) = countMarks g + 1 := by
  unfold countMarks
  apply countP_flip cells cells_nodup rc (mem_cells rc)
  · intro x hx
    rw [mark_get, if_neg (Ne.symm hx)]
  · rw [mark_get]; simpa using hs
  · simpa using hb

theorem emptyCount_add_countMarks (g : Game) : emptyCount g + countMarks g = 9 := by
  unfold emptyCount countMarks
  have h := List.length_eq_countP_add_countP (fun rc : Fin 3 × Fin 3 =>
    decide (g.board.get rc.1 rc.2 = ' ')) cells
  have h9 : cells.length = 9 := rfl
  rw [h9] at h
  rw [h]
  congr 1
  apply List.countP_congr
  intro x _
  simp

/-! ## The search returns -/

theorem maxLoop_total (child : Game → Int → Option (Int × Game)) (bot : Char) (beta : Int)
    (g : Game)
    (hchild : ∀ rc a, g.board.get rc.1 rc.2 = ' ' →
      ∃ v, child (g.mark rc bot) a = some (v, g.mark rc bot)) :
    ∀ (l : List (Fin 3 × Fin 3)) (best alpha : Int),
      ∃ v, maxLoop child bot beta l g best alpha = some (v, g) := by
  intro l
  induction l with
  | nil => intro best alpha; exact ⟨best, rfl⟩
  | cons rc rest ih =>
    intro best alpha
    unfold maxLoop
    by_cases hb : g.board.get rc.1 rc.2 = ' '
    · rw [if_pos hb]
      obtain ⟨v, hv⟩ := hchild rc alpha hb
      rw [hv]
      simp only
      rw [Game.unmark_mark g rc bot hb]
      by_cases hcut : beta ≤ (if v > alpha then v else alpha)
      · rw [if_pos hcut]; exact ⟨_, rfl⟩
      · rw [if_neg hcut]; exact ih _ _
    · rw [if_neg hb]; exact ih _ _

theorem minLoop_total (child : Game → Int → Option (Int × Game)) (human : Char) (alpha : Int)
    (g : Game)
    (hchild : ∀ rc b, g.board.get rc.1 rc.2 = ' ' →
      ∃ v, child (g.mark rc human) b = some (v, g.mark rc human)) :
    ∀ (l : List (Fin 3 × Fin 3)) (best beta : Int),
      ∃ v, minLoop child human alpha l g best beta = some (v, g) := by
  intro l
  induction l with
  | nil => intro best beta; exact ⟨best, rfl⟩
  | cons rc rest ih =>
    intro best beta
    unfold minLoop
    by_cases hb : g.board.get rc.1 rc.2 = ' '
    · rw [if_pos hb]
      obtain ⟨v, hv⟩ := hchild rc beta hb
      rw [hv]
      simp only
      rw [Game.unmark_mark g rc human hb]
      by_cases hcut : (if v < beta then v else beta) ≤ alpha
      · rw [if_pos hcut]; exact ⟨_, rfl⟩
      · rw [if_neg hcut]; exact ih _ _
    · rw [if_neg hb]; exact ih _ _

theorem minimax_total : ∀ (fuel : Nat) (g : Game) (bot human : Char)
    (depth alpha beta maximizing : Int), bot ≠ ' ' → human ≠ ' ' → emptyCount g < fuel →
    ∃ v, minimax fuel g bot human depth alpha beta maximizing = some (v, g) := by
  intro fuel
  induction fuel with
  | zero => intro g bot human depth alpha beta maximizing _ _ h; exact absurd h (Nat.not_lt_zero _)
  | succ n ih =>
    intro g bot human depth alpha beta maximizing hbot hhum hfuel
    unfold minimax
    simp only
    by_cases h1 : check_status g = bot
    · rw [if_pos h1]; exact ⟨_, rfl⟩
    · rw [if_neg h1]
      by_cases h2 : check_status g = human
      · rw [if_pos h2]; exact ⟨_, rfl⟩
      · rw [if_neg h2]
        by_cases h3 : check_status g = 'D'
        · rw [if_pos h3]; exact ⟨_, rfl⟩
        · rw [if_neg h3]
          by_cases h4 : maximizing ≠ 0
          · rw [if_pos h4]
            apply maxLoop_total
            intro rc a hb
            apply ih _ _ _ _ _ _ _ hbot hhum
            have := emptyCount_mark g rc bot hb hbot
            omega
          · rw [if_neg h4]
            apply minLoop_total
            intro rc b hb
            apply ih _ _ _ _ _ _ _ hbot hhum
            have := emptyCount_mark g rc human hb hhum
            omega

theorem emptyCount_le (g : Game) : emptyCount g ≤ 9 := by
  have := emptyCount_add_countMarks g
  omega

theorem bestLoop_total (fuel : Nat) (bot human : Char) (g : Game)
    (hbot : bot ≠ ' ') (hhum : human ≠ ' ') (hfuel : emptyCount g ≤ fuel) :
    ∀ (l : List (Fin 3 × Fin 3)) (best_val : Int) (best : Int × Int),
      ∃ rc, bestLoop fuel bot human l g best_val best = some (rc, g) := by
  intro l
  induction l with
  | nil => intro best_val best; exact ⟨best, rfl⟩
  | cons rc rest ih =>
    intro best_val best
    unfold bestLoop
    by_cases hb : g.board.get rc.1 rc.2 = ' '
    · rw [if_pos hb]
      have hc := emptyCount_mark g rc bot hb hbot
      obtain ⟨v, hv⟩ := minimax_total fuel (g.mark rc bot) bot human 0 (-1000) 1000 0
        hbot hhum (by omega)
      rw [hv]
      simp only
      rw [Game.unmark_mark g rc bot hb]
      by_cases hgt : v > best_val
      · rw [if_pos hgt]; exact ih _ _
      · rw [if_neg hgt]; exact ih _ _
    · rw [if_neg hb]; exact ih _ _

/-! ## The terminal evaluator -/

theorem get_mk (a0 a1 a2 b0 b1 b2 c0 c1 c2 : Char) :
    let b : Board := ⟨⟨a0, a1, a2⟩, ⟨b0, b1, b2⟩, ⟨c0, c1, c2⟩⟩
    b.get 0 0 = a0 ∧ b.get 0 1 = a1 ∧ b.get 0 2 = a2 ∧
    b.get 1 0 = b0 ∧ b.get 1 1 = b1 ∧ b.get 1 2 = b2 ∧
    b.get 2 0 = c0 ∧ b.get 2 1 = c1 ∧ b.get 2 2 = c2 :=
  ⟨rfl, rfl, rfl, rfl, rfl, rfl, rfl, rfl, rfl⟩

theorem check_status_mk (a0 a1 a2 b0 b1 b2 c0 c1 c2 cur : Char) (m : Int) :
    check_status ⟨⟨⟨a0, a1, a2⟩, ⟨b0, b1, b2⟩, ⟨c0, c1, c2⟩⟩, cur, m⟩ =
      if a0 ≠ ' ' ∧ a0 = a1 ∧ a1 = a2 then a0
      else if a0 ≠ ' ' ∧ a0 = b0 ∧ b0 = c0 then a0
      else if b0 ≠ ' ' ∧ b0 = b1 ∧ b1 = b2 then b0
      else if a1 ≠ ' ' ∧ a1 = b1 ∧ b1 = c1 then a1
      else if c0 ≠ ' ' ∧ c0 = c1 ∧ c1 = c2 then c0
      else if a2 ≠ ' ' ∧ a2 = b2 ∧ b2 = c2 then a2
      else if b1 ≠ ' ' ∧ ((a0 = b1 ∧ b1 = c2) ∨ (a2 = b1 ∧ b1 = c0)) then b1
      else if m ≥ 9 then 'D' else ' ' := by
  obtain ⟨h00, h01, h02, h10, h11, h12, h20, h21, h22⟩ := get_mk a0 a1 a2 b0 b1 b2 c0 c1 c2
  simp only [check_status, scanLines, h00, h01, h02, h10, h11, h12, h20, h21, h22]
  by_cases p1 : a0 ≠ ' ' ∧ a0 = a1 ∧ a1 = a2
  · rw [if_pos p1, if_pos p1]
  rw [if_neg p1, if_neg p1]
  by_cases p2 : a0 ≠ ' ' ∧ a0 = b0 ∧ b0 = c0
  · rw [if_pos p2, if_pos p2]
  rw [if_neg p2, if_neg p2]
  by_cases p3 : b0 ≠ ' ' ∧ b0 = b1 ∧ b1 = b2
  · rw [if_pos p3, if_pos p3]
  rw [if_neg p3, if_neg p3]
  by_cases p4 : a1 ≠ ' ' ∧ a1 = b1 ∧ b1 = c1
  · rw [if_pos p4, if_pos p4]
  rw [if_neg p4, if_neg p4]
  by_cases p5 : c0 ≠ ' ' ∧ c0 = c1 ∧ c1 = c2
  · rw [if_pos p5, if_pos p5]
  rw [if_neg p5, if_neg p5]
  by_cases p6 : a2 ≠ ' ' ∧ a2 = b2 ∧ b2 = c2
  · rw [if_pos p6, if_pos p6]
  rw [if_neg p6, if_neg p6]

theorem lineComplete_mk (a0 a1 a2 b0 b1 b2 c0 c1 c2 cur : Char) (m : Int) :
    let g : Game := ⟨⟨⟨a0, a1, a2⟩, ⟨b0, b1, b2⟩, ⟨c0, c1, c2⟩⟩, cur, m⟩
    (lineComplete g ((0, 0), (0, 1), (0, 2)) ↔ (a0 ≠ ' ' ∧ a0 = a1 ∧ a1 = a2)) ∧
    (lineComplete g ((1, 0), (1, 1), (1, 2)) ↔ (b0 ≠ ' ' ∧ b0 = b1 ∧ b1 = b2)) ∧
    (lineComplete g ((2, 0), (2, 1), (2, 2)) ↔ (c0 ≠ ' ' ∧ c0 = c1 ∧ c1 = c2)) ∧
    (lineComplete g ((0, 0), (1, 0), (2, 0)) ↔ (a0 ≠ ' ' ∧ a0 = b0 ∧ b0 = c0)) ∧
    (lineComplete g ((0, 1), (1, 1), (2, 1)) ↔ (a1 ≠ ' ' ∧ a1 = b1 ∧ b1 = c1)) ∧
    (lineComplete g ((0, 2), (1, 2), (2, 2)) ↔ (a2 ≠ ' ' ∧ a2 = b2 ∧ b2 = c2)) ∧
    (lineComplete g ((0, 0), (1, 1), (2, 2)) ↔ (b1 ≠ ' ' ∧ a0 = b1 ∧ b1 = c2)) ∧
    (lineComplete g ((0, 2), (1, 1), (2, 0)) ↔ (b1 ≠ ' ' ∧ a2 = b1 ∧ b1 = c0)) := by
  obtain ⟨h00, h01, h02, h10, h11, h12, h20, h21, h22⟩ := get_mk a0 a1 a2 b0 b1 b2 c0 c1 c2
  simp only [lineComplete, lineOf, h00, h01, h02, h10, h11, h12, h20, h21, h22]
  refine ⟨?_, ?_, ?_, ?_, ?_, ?_, ?_, ?_⟩ <;> constructor <;> rintro ⟨h1, h2, h3⟩ <;>
    simp_all

theorem check_status_cases (g : Game) :
    (∃ l ∈ lines, lineComplete g l ∧ check_status g = g.board.get l.1.1 l.1.2) ∨
    (¬ hasLine g ∧ check_status g = if g.moves ≥ 9 then 'D' else ' ') := by
  obtain ⟨⟨⟨a0, a1, a2⟩, ⟨b0, b1, b2⟩, ⟨c0, c1, c2⟩⟩, cur, m⟩ := g
  obtain ⟨l1, l2, l3, l4, l5, l6, l7, l8⟩ := lineComplete_mk a0 a1 a2 b0 b1 b2 c0 c1 c2 cur m
  obtain ⟨h00, h01, h02, h10, h11, h12, h20, h21, h22⟩ := get_mk a0 a1 a2 b0 b1 b2 c0 c1 c2
  rw [check_status_mk]
  by_cases p1 : a0 ≠ ' ' ∧ a0 = a1 ∧ a1 = a2
  · rw [if_pos p1]
    exact Or.inl ⟨((0, 0), (0, 1), (0, 2)), by simp [lines], l1.2 p1, h00.symm⟩
  rw [if_neg p1]
  by_cases p2 : a0 ≠ ' ' ∧ a0 = b0 ∧ b0 = c0
  · rw [if_pos p2]
    exact Or.inl ⟨((0, 0), (1, 0), (2, 0)), by simp [lines], l4.2 p2, h00.symm⟩
  rw [if_neg p2]
  by_cases p3 : b0 ≠ ' ' ∧ b0 = b1 ∧ b1 = b2
  · rw [if_pos p3]
    exact Or.inl ⟨((1, 0), (1, 1), (1, 2)), by simp [lines], l2.2 p3, h10.symm⟩
  rw [if_neg p3]
  by_cases p4 : a1 ≠ ' ' ∧ a1 = b1 ∧ b1 = c1
  · rw [if_pos p4]
    exact Or.inl ⟨((0, 1), (1, 1), (2, 1)), by simp [lines], l5.2 p4, h01.symm⟩
  rw [if_neg p4]
  by_cases p5 : c0 ≠ ' ' ∧ c0 = c1 ∧ c1 = c2
  · rw [if_pos p5]
    exact Or.inl ⟨((2, 0), (2, 1), (2, 2)), by simp [lines], l3.2 p5, h20.symm⟩
  rw [if_neg p5]
  by_cases p6 : a2 ≠ ' ' ∧ a2 = b2 ∧ b2 = c2
  · rw [if_pos p6]
    exact Or.inl ⟨((0, 2), (1, 2), (2, 2)), by simp [lines], l6.2 p6, h02.symm⟩
  rw [if_neg p6]
  by_cases p7 : b1 ≠ ' ' ∧ a0 = b1 ∧ b1 = c2
  · rw [if_pos ⟨p7.1, Or.inl p7.2⟩]
    refine Or.inl ⟨((0, 0), (1, 1), (2, 2)), by simp [lines], l7.2 p7, ?_⟩
    show b1 = a0
    exact p7.2.1.symm
  by_cases p8 : b1 ≠ ' ' ∧ a2 = b1 ∧ b1 = c0
  · rw [if_pos ⟨p8.1, Or.inr p8.2⟩]
    refine Or.inl ⟨((0, 2), (1, 1), (2, 0)), by simp [lines], l8.2 p8, ?_⟩
    show b1 = a2
    exact p8.2.1.symm
  have p78 : ¬ (b1 ≠ ' ' ∧ ((a0 = b1 ∧ b1 = c2) ∨ (a2 = b1 ∧ b1 = c0))) := by
    rintro ⟨hne, h | h⟩
    · exact p7 ⟨hne, h⟩
    · exact p8 ⟨hne, h⟩
  rw [if_neg p78]
  refine Or.inr ⟨?_, rfl⟩
  rintro ⟨l, hl, hc⟩
  simp only [lines, List.mem_cons, List.mem_singleton, List.not_mem_nil, or_false] at hl
  rcases hl with rfl | rfl | rfl | rfl | rfl | rfl | rfl | rfl
  · exact p1 (l1.1 hc)
  · exact p3 (l2.1 hc)
  · exact p5 (l3.1 hc)
  · exact p2 (l4.1 hc)
  · exact p4 (l5.1 hc)
  · exact p6 (l6.1 hc)
  · exact p7 (l7.1 hc)
  · exact p8 (l8.1 hc)

theorem check_status_noLine (g : Game) (h : ¬ hasLine g) :
    check_status g = if g.moves ≥ 9 then 'D' else ' ' := by
  rcases check_status_cases g with ⟨l, hl, hc, _⟩ | ⟨_, h2⟩
  · exact absurd ⟨l, hl, hc⟩ h
  · exact h2

theorem check_status_hasLine (g : Game) (h : hasLine g) :
    ∃ l ∈ lines, lineComplete g l ∧ check_status g = g.board.get l.1.1 l.1.2 := by
  rcases check_status_cases g with h1 | ⟨h1, _⟩
  · exact h1
  · exact absurd h h1

/-! ## Well-formed positions -/

theorem WF.bot_ne {g : Game} {bot human : Char} (h : WF g bot human) : bot ≠ ' ' := by
  rcases h.syms with ⟨rfl, _⟩ | ⟨rfl, _⟩ <;> decide

theorem WF.human_ne {g : Game} {bot human : Char} (h : WF g bot human) : human ≠ ' ' := by
  rcases h.syms with ⟨_, rfl⟩ | ⟨_, rfl⟩ <;> decide

theorem WF.ne {g : Game} {bot human : Char} (h : WF g bot human) : bot ≠ human := by
  rcases h.syms with ⟨rfl, rfl⟩ | ⟨rfl, rfl⟩ <;> decide

theorem WF.bot_ne_D {g : Game} {bot human : Char} (h : WF g bot human) : bot ≠ 'D' := by
  rcases h.syms with ⟨rfl, _⟩ | ⟨rfl, _⟩ <;> decide

theorem WF.human_ne_D {g : Game} {bot human : Char} (h : WF g bot human) : human ≠ 'D' := by
  rcases h.syms with ⟨_, rfl⟩ | ⟨_, rfl⟩ <;> decide

theorem WF.player {g : Game} {bot human : Char} (h : WF g bot human) (p : Char) (hp : p = 'X' ∨ p = 'O') :
    p = bot ∨ p = human := by
  rcases h.syms with ⟨rfl, rfl⟩ | ⟨rfl, rfl⟩
  · exact hp
  · exact hp.symm

theorem WF.swap {g : Game} {bot human : Char} (h : WF g bot human) : WF g human bot :=
  ⟨h.cells, h.moves, h.syms.symm.imp (fun x => ⟨x.2, x.1⟩) (fun x => ⟨x.2, x.1⟩)⟩

theorem WF.mark_bot {g : Game} {bot human : Char} (h : WF g bot human) (rc : Fin 3 × Fin 3)
    (hb : g.board.get rc.1 rc.2 = ' ') : WF (g.mark rc bot) bot human := by
  refine ⟨?_, ?_, h.syms⟩
  · intro x
    rw [mark_get]
    by_cases hx : rc = x
    · rw [if_pos hx]
      rcases h.syms with ⟨rfl, _⟩ | ⟨rfl, _⟩ <;> simp
    · rw [if_neg hx]; exact h.cells x
  · rw [countMarks_mark g rc bot hb h.bot_ne]
    simp only [Game.mark, h.moves]
    push_cast
    rfl

theorem WF.mark_human {g : Game} {bot human : Char} (h : WF g bot human) (rc : Fin 3 × Fin 3)
    (hb : g.board.get rc.1 rc.2 = ' ') : WF (g.mark rc human) bot human :=
  (h.swap.mark_bot rc hb).swap

theorem lineComplete_player {g : Game} (hc : validCells g)
    (l : (Fin 3 × Fin 3) × (Fin 3 × Fin 3) × (Fin 3 × Fin 3)) (hl : lineComplete g l) :
    g.board.get l.1.1 l.1.2 = 'X' ∨ g.board.get l.1.1 l.1.2 = 'O' := by
  rcases hc l.1 with h | h | h
  · exact Or.inl h
  · exact Or.inr h
  · exact absurd h hl.1

theorem exists_blank_of_moves_lt (g : Game) (hm : g.moves = (countMarks g : Int))
    (hlt : g.moves < 9) : ∃ rc : Fin 3 × Fin 3, g.board.get rc.1 rc.2 = ' ' := by
  have h9 := emptyCount_add_countMarks g
  have hpos : 0 < emptyCount g := by omega
  unfold emptyCount at hpos
  rw [List.countP_pos_iff] at hpos
  obtain ⟨rc, _, hrc⟩ := hpos
  exact ⟨rc, by simpa using hrc⟩

theorem WF.nonterminal {g : Game} {bot human : Char} (h : WF g bot human) (h1 : check_status g ≠ bot)
    (h2 : check_status g ≠ human) (h3 : check_status g ≠ 'D') :
    check_status g = ' ' ∧ ¬ hasLine g ∧ g.moves < 9 ∧
      ∃ rc : Fin 3 × Fin 3, g.board.get rc.1 rc.2 = ' ' := by
  rcases check_status_cases g with ⟨l, _, hc, he⟩ | ⟨hn, he⟩
  · rcases h.player _ (lineComplete_player h.cells l hc) with hp | hp
    · exact absurd (he.trans hp) h1
    · exact absurd (he.trans hp) h2
  · by_cases hm : g.moves ≥ 9
    · rw [if_pos hm] at he; exact absurd he h3
    · rw [if_neg hm] at he
      exact ⟨he, hn, by omega, exists_blank_of_moves_lt g h.moves (by omega)⟩

/-! ## Maxima and minima of lists -/

theorem allSome_map {α : Type} (f : α → Option Int) (tv : α → Int) (l : List α)
    (h : ∀ x ∈ l, f x = some (tv x)) : allSome (l.map f) = some (l.map tv) := by
  induction l with
  | nil => rfl
  | cons a rest ih =>
    have ha := h a (List.mem_cons_self _ _)
    have hr := ih (fun x hx => h x (List.mem_cons_of_mem _ hx))
    simp only [List.map_cons, ha, allSome, hr]

theorem maxOf_spec : ∀ (vs : List Int), vs ≠ [] →
    ∃ m, maxOf vs = some m ∧ m ∈ vs ∧ ∀ v ∈ vs, v ≤ m := by
  intro vs
  induction vs with
  | nil => intro h; exact absurd rfl h
  | cons v rest ih =>
    intro _
    by_cases hr : rest = []
    · subst hr
      exact ⟨v, rfl, by simp, by simp⟩
    · obtain ⟨m, hm, hmem, hle⟩ := ih hr
      refine ⟨max v m, by simp [maxOf, hm], ?_, ?_⟩
      · rcases max_choice v m with h | h
        · rw [h]; exact List.mem_cons_self _ _
        · rw [h]; exact List.mem_cons_of_mem _ hmem
      · intro x hx
        rcases List.mem_cons.1 hx with rfl | hx
        · exact le_max_left _ _
        · exact le_trans (hle x hx) (le_max_right _ _)

theorem minOf_spec : ∀ (vs : List Int), vs ≠ [] →
    ∃ m, minOf vs = some m ∧ m ∈ vs ∧ ∀ v ∈ vs, m ≤ v := by
  intro vs
  induction vs with
  | nil => intro h; exact absurd rfl h
  | cons v rest ih =>
    intro _
    by_cases hr : rest = []
    · subst hr
      exact ⟨v, rfl, by simp, by simp⟩
    · obtain ⟨m, hm, hmem, hle⟩ := ih hr
      refine ⟨min v m, by simp [minOf, hm], ?_, ?_⟩
      · rcases min_choice v m with h | h
        · rw [h]; exact List.mem_cons_self _ _
        · rw [h]; exact List.mem_cons_of_mem _ hmem
      · intro x hx
        rcases List.mem_cons.1 hx with rfl | hx
        · exact min_le_left _ _
        · exact le_trans (min_le_right _ _) (hle x hx)

theorem mem_emptyCells (g : Game) (rc : Fin 3 × Fin 3) :
    rc ∈ emptyCells g ↔ g.board.get rc.1 rc.2 = ' ' := by
  simp [emptyCells, mem_cells]

/-! ## Alpha-beta pruning against brute force -/

theorem maxLoop_ab (child : Game → Int → Option (Int × Game)) (tv : Fin 3 × Fin 3 → Int)
    (g : Game) (bot : Char) (beta : Int)
    (hchild : ∀ rc a, g.board.get rc.1 rc.2 = ' ' → -1000 ≤ a → a < beta →
      ∃ r, child (g.mark rc bot) a = some (r, g.mark rc bot) ∧ ABok a beta r (tv rc)) :
    ∀ (l : List (Fin 3 × Fin 3)) (best alpha : Int), best ≤ alpha → -1000 ≤ alpha →
      alpha < beta →
      ∃ r, maxLoop child bot beta l g best alpha = some (r, g) ∧ best ≤ r ∧
        (r ≤ alpha → ∀ rc ∈ l, g.board.get rc.1 rc.2 = ' ' → tv rc ≤ r) ∧
        (beta ≤ r → ∃ rc ∈ l, g.board.get rc.1 rc.2 = ' ' ∧ r ≤ tv rc) ∧
        (alpha < r → r < beta →
          (∀ rc ∈ l, g.board.get rc.1 rc.2 = ' ' → tv rc ≤ r) ∧
          ∃ rc ∈ l, g.board.get rc.1 rc.2 = ' ' ∧ tv rc = r) := by
  intro l
  induction l with
  | nil =>
    intro best alpha h1 _ h3
    refine ⟨best, rfl, le_refl _, ?_, ?_, ?_⟩
    · intro _ rc hrc; exact absurd hrc (List.not_mem_nil _)
    · intro h; omega
    · intro h; omega
  | cons rc rest ih =>
    intro best alpha h1 h2 h3
    unfold maxLoop
    by_cases hb : g.board.get rc.1 rc.2 = ' '
    · rw [if_pos hb]
      obtain ⟨r1, hr1, hab1, hab2, hab3⟩ := hchild rc alpha hb h2 h3
      rw [hr1]
      simp only
      rw [Game.unmark_mark g rc bot hb]
      by_cases hcut : beta ≤ (if r1 > alpha then r1 else alpha)
      · rw [if_pos hcut]
        have hr1b : beta ≤ r1 := by
          by_cases hh : r1 > alpha
          · rw [if_pos hh] at hcut; exact hcut
          · rw [if_neg hh] at hcut; omega
        have hbest : (if r1 > best then r1 else best) = r1 := by
          rw [if_pos (by omega)]
        rw [hbest]
        refine ⟨r1, rfl, by omega, ?_, ?_, ?_⟩
        · intro h; omega
        · intro _
          exact ⟨rc, List.mem_cons_self _ _, hb, hab2 hr1b⟩
        · intro _ h; omega
      · rw [if_neg hcut]
        have hA : (if r1 > alpha then r1 else alpha) = max alpha r1 := by
          by_cases hh : r1 > alpha
          · rw [if_pos hh, max_eq_right (by omega)]
          · rw [if_neg hh, max_eq_left (by omega)]
        have hB : (if r1 > best then r1 else best) = max best r1 := by
          by_cases hh : r1 > best
          · rw [if_pos hh, max_eq_right (by omega)]
          · rw [if_neg hh, max_eq_left (by omega)]
        rw [hA] at hcut ⊢
        rw [hB]
        have hcut2 : max alpha r1 < beta := by omega
        have hr1lt : r1 < beta := lt_of_le_of_lt (le_max_right _ _) hcut2
        obtain ⟨r, hr, hbr, p1, p2, p3⟩ := ih (max best r1) (max alpha r1)
          (max_le_max h1 (le_refl _)) (le_trans h2 (le_max_left _ _)) hcut2
        have hbest_le : best ≤ r := le_trans (le_max_left _ _) hbr
        have hr1_le : r1 ≤ r := le_trans (le_max_right _ _) hbr
        refine ⟨r, hr, hbest_le, ?_, ?_, ?_⟩
        · intro hra x hx hxb
          rcases List.mem_cons.1 hx with rfl | hx
          · have := hab1 (by omega)
            omega
          · exact p1 (le_trans hra (le_max_left _ _)) x hx hxb
        · intro hbr2
          obtain ⟨x, hx, hxb, hxv⟩ := p2 hbr2
          exact ⟨x, List.mem_cons_of_mem _ hx, hxb, hxv⟩
        · intro hra hrb
          by_cases hcase : max alpha r1 < r
          · obtain ⟨q1, x, hx, hxb, hxv⟩ := p3 hcase hrb
            refine ⟨?_, x, List.mem_cons_of_mem _ hx, hxb, hxv⟩
            intro y hy hyb
            rcases List.mem_cons.1 hy with rfl | hy
            · have hr1r : r1 < r := lt_of_le_of_lt (le_max_right _ _) hcase
              by_cases hh : r1 ≤ alpha
              · have := hab1 hh; omega
              · have := hab3 (by omega) hr1lt; omega
            · exact q1 y hy hyb
          · have hle : r ≤ max alpha r1 := by omega
            have hreq : r = r1 := by
              rcases max_choice alpha r1 with hm | hm
              · rw [hm] at hle; omega
              · rw [hm] at hle; omega
            have hv1 : tv rc = r1 := hab3 (by omega) hr1lt
            refine ⟨?_, rc, List.mem_cons_self _ _, hb, by omega⟩
            intro y hy hyb
            rcases List.mem_cons.1 hy with rfl | hy
            · omega
            · exact p1 hle y hy hyb
    · rw [if_neg hb]
      obtain ⟨r, hr, hbr, p1, p2, p3⟩ := ih best alpha h1 h2 h3
      refine ⟨r, hr, hbr, ?_, ?_, ?_⟩
      · intro hra x hx hxb
        rcases List.mem_cons.1 hx with rfl | hx
        · exact absurd hxb hb
        · exact p1 hra x hx hxb
      · intro hbr2
        obtain ⟨x, hx, hxb, hxv⟩ := p2 hbr2
        exact ⟨x, List.mem_cons_of_mem _ hx, hxb, hxv⟩
      · intro hra hrb
        obtain ⟨q1, x, hx, hxb, hxv⟩ := p3 hra hrb
        refine ⟨?_, x, List.mem_cons_of_mem _ hx, hxb, hxv⟩
        intro y hy hyb
        rcases List.mem_cons.1 hy with rfl | hy
        · exact absurd hyb hb
        · exact q1 y hy hyb

theorem minLoop_ab (child : Game → Int → Option (Int × Game)) (tv : Fin 3 × Fin 3 → Int)
    (g : Game) (human : Char) (alpha : Int)
    (hchild : ∀ rc b, g.board.get rc.1 rc.2 = ' ' → b ≤ 1000 → alpha < b →
      ∃ r, child (g.mark rc human) b = some (r, g.mark rc human) ∧ ABok alpha b r (tv rc)) :
    ∀ (l : List (Fin 3 × Fin 3)) (best beta : Int), beta ≤ best → beta ≤ 1000 →
      alpha < beta →
      ∃ r, minLoop child human alpha l g best beta = some (r, g) ∧ r ≤ best ∧
        (beta ≤ r → ∀ rc ∈ l, g.board.get rc.1 rc.2 = ' ' → r ≤ tv rc) ∧
        (r ≤ alpha → ∃ rc ∈ l, g.board.get rc.1 rc.2 = ' ' ∧ tv rc ≤ r) ∧
        (alpha < r → r < beta →
          (∀ rc ∈ l, g.board.get rc.1 rc.2 = ' ' → r ≤ tv rc) ∧
          ∃ rc ∈ l, g.board.get rc.1 rc.2 = ' ' ∧ tv rc = r) := by
  intro l
  induction l with
  | nil =>
    intro best beta h1 _ h3
    refine ⟨best, rfl, le_refl _, ?_, ?_, ?_⟩
    · intro _ rc hrc; exact absurd hrc (List.not_mem_nil _)
    · intro h; omega
    · intro _ h; omega
  | cons rc rest ih =>
    intro best beta h1 h2 h3
    unfold minLoop
    by_cases hb : g.board.get rc.1 rc.2 = ' '
    · rw [if_pos hb]
      obtain ⟨r1, hr1, hab1, hab2, hab3⟩ := hchild rc beta hb h2 h3
      rw [hr1]
      simp only
      rw [Game.unmark_mark g rc human hb]
      by_cases hcut : (if r1 < beta then r1 else beta) ≤ alpha
      · rw [if_pos hcut]
        have hr1a : r1 ≤ alpha := by
          by_cases hh : r1 < beta
          · rw [if_pos hh] at hcut; exact hcut
          · rw [if_neg hh] at hcut; omega
        have hbest : (if r1 < best then r1 else best) = r1 := by
          rw [if_pos (by omega)]
        rw [hbest]
        refine ⟨r1, rfl, by omega, ?_, ?_, ?_⟩
        · intro h; omega
        · intro _
          exact ⟨rc, List.mem_cons_self _ _, hb, hab1 hr1a⟩
        · intro h; omega
      · rw [if_neg hcut]
        have hA : (if r1 < beta then r1 else beta) = min beta r1 := by
          by_cases hh : r1 < beta
          · rw [if_pos hh, min_eq_right (by omega)]
          · rw [if_neg hh, min_eq_left (by omega)]
        have hB : (if r1 < best then r1 else best) = min best r1 := by
          by_cases hh : r1 < best
          · rw [if_pos hh, min_eq_right (by omega)]
          · rw [if_neg hh, min_eq_left (by omega)]
        rw [hA] at hcut ⊢
        rw [hB]
        have hcut2 : alpha < min beta r1 := by omega
        have hr1gt : alpha < r1 := lt_of_lt_of_le hcut2 (min_le_right _ _)
        obtain ⟨r, hr, hbr, p1, p2, p3⟩ := ih (min best r1) (min beta r1)
          (min_le_min h1 (le_refl _)) (le_trans (min_le_left _ _) h2) hcut2
        have hbest_le : r ≤ best := le_trans hbr (min_le_left _ _)
        have hr1_le : r ≤ r1 := le_trans hbr (min_le_right _ _)
        refine ⟨r, hr, hbest_le, ?_, ?_, ?_⟩
        · intro hrb x hx hxb
          rcases List.mem_cons.1 hx with rfl | hx
          · have := hab2 (by omega)
            omega
          · exact p1 (le_trans (min_le_left _ _) hrb) x hx hxb
        · intro hra
          obtain ⟨x, hx, hxb, hxv⟩ := p2 hra
          exact ⟨x, List.mem_cons_of_mem _ hx, hxb, hxv⟩
        · intro hra hrb
          by_cases hcase : r < min beta r1
          · obtain ⟨q1, x, hx, hxb, hxv⟩ := p3 hra hcase
            refine ⟨?_, x, List.mem_cons_of_mem _ hx, hxb, hxv⟩
            intro y hy hyb
            rcases List.mem_cons.1 hy with rfl | hy
            · have hr1r : r < r1 := lt_of_lt_of_le hcase (min_le_right _ _)
              by_cases hh : beta ≤ r1
              · have := hab2 hh; omega
              · have := hab3 hr1gt (by omega); omega
            · exact q1 y hy hyb
          · have hle : min beta r1 ≤ r := by omega
            have hreq : r = r1 := by
              rcases min_choice beta r1 with hm | hm
              · rw [hm] at hle; omega
              · rw [hm] at hle; omega
            have hv1 : tv rc = r1 := hab3 hr1gt (by omega)
            refine ⟨?_, rc, List.mem_cons_self _ _, hb, by omega⟩
            intro y hy hyb
            rcases List.mem_cons.1 hy with rfl | hy
            · omega
            · exact p1 hle y hy hyb
    · rw [if_neg hb]
      obtain ⟨r, hr, hbr, p1, p2, p3⟩ := ih best beta h1 h2 h3
      refine ⟨r, hr, hbr, ?_, ?_, ?_⟩
      · intro hra x hx hxb
        rcases List.mem_cons.1 hx with rfl | hx
        · exact absurd hxb hb
        · exact p1 hra x hx hxb
      · intro hbr2
        obtain ⟨x, hx, hxb, hxv⟩ := p2 hbr2
        exact ⟨x, List.mem_cons_of_mem _ hx, hxb, hxv⟩
      · intro hra hrb
        obtain ⟨q1, x, hx, hxb, hxv⟩ := p3 hra hrb
        refine ⟨?_, x, List.mem_cons_of_mem _ hx, hxb, hxv⟩
        intro y hy hyb
        rcases List.mem_cons.1 hy with rfl | hy
        · exact absurd hyb hb
        · exact q1 y hy hyb

theorem ABok_refl (a b v : Int) : ABok a b v v :=
  ⟨fun _ => le_refl _, fun _ => le_refl _, fun _ _ => rfl⟩

theorem emptyCells_ne_nil (g : Game) (h : ∃ rc : Fin 3 × Fin 3, g.board.get rc.1 rc.2 = ' ') :
    emptyCells g ≠ [] := by
  obtain ⟨rc, hrc⟩ := h
  exact List.ne_nil_of_mem ((mem_emptyCells g rc).2 hrc)

theorem minimax_ab : ∀ (fuel : Nat) (g : Game) (bot human : Char)
    (depth alpha beta maximizing : Int), WF g bot human → emptyCount g < fuel →
    -1000 ≤ alpha → alpha < beta → beta ≤ 1000 →
    ∃ r v, minimax fuel g bot human depth alpha beta maximizing = some (r, g) ∧
      bruteForce fuel g bot human depth (decide (maximizing ≠ 0)) = some v ∧
      ABok alpha beta r v := by
  intro fuel
  induction fuel with
  | zero => intro g _ _ _ _ _ _ _ h; exact absurd h (Nat.not_lt_zero _)
  | succ n ih =>
    intro g bot human depth alpha beta maximizing hwf hfuel ha hab hb
    unfold minimax bruteForce
    simp only
    by_cases h1 : check_status g = bot
    · rw [if_pos h1, if_pos h1]; exact ⟨_, _, rfl, rfl, ABok_refl _ _ _⟩
    rw [if_neg h1, if_neg h1]
    by_cases h2 : check_status g = human
    · rw [if_pos h2, if_pos h2]; exact ⟨_, _, rfl, rfl, ABok_refl _ _ _⟩
    rw [if_neg h2, if_neg h2]
    by_cases h3 : check_status g = 'D'
    · rw [if_pos h3, if_pos h3]; exact ⟨_, _, rfl, rfl, ABok_refl _ _ _⟩
    rw [if_neg h3, if_neg h3]
    obtain ⟨_, _, _, hblank⟩ := hwf.nonterminal h1 h2 h3
    have hne := emptyCells_ne_nil g hblank
    by_cases h4 : maximizing ≠ 0
    · rw [if_pos h4]
      have hdec : decide (maximizing ≠ 0) = true := by simpa using h4
      rw [hdec]
      simp only [if_true, Bool.not_true]
      have hkid : ∀ rc : Fin 3 × Fin 3, g.board.get rc.1 rc.2 = ' ' →
          ∃ v, bruteForce n (g.mark rc bot) bot human (depth + 1) false = some v ∧
            ∀ a, -1000 ≤ a → a < beta →
              ∃ r, minimax n (g.mark rc bot) bot human (depth + 1) a beta 0 =
                some (r, g.mark rc bot) ∧ ABok a beta r v := by
        intro rc hrc
        have hc := emptyCount_mark g rc bot hrc hwf.bot_ne
        obtain ⟨r0, v, _, hv, _⟩ := ih (g.mark rc bot) bot human (depth + 1) alpha beta 0
          (hwf.mark_bot rc hrc) (by omega) ha hab hb
        have hv0 : bruteForce n (g.mark rc bot) bot human (depth + 1) false = some v := by
          simpa using hv
        refine ⟨v, hv0, ?_⟩
        intro a ha1 ha2
        obtain ⟨r, v1, hr, hv1, hok⟩ := ih (g.mark rc bot) bot human (depth + 1) a beta 0
          (hwf.mark_bot rc hrc) (by omega) ha1 ha2 hb
        have hv2 : bruteForce n (g.mark rc bot) bot human (depth + 1) false = some v1 := by
          simpa using hv1
        rw [hv0] at hv2
        have : v = v1 := Option.some.inj hv2
        subst this
        exact ⟨r, hr, hok⟩
      let tv : Fin 3 × Fin 3 → Int := fun rc =>
        (bruteForce n (g.mark rc bot) bot human (depth + 1) false).getD 0
      have htv : ∀ rc : Fin 3 × Fin 3, g.board.get rc.1 rc.2 = ' ' →
          bruteForce n (g.mark rc bot) bot human (depth + 1) false = some (tv rc) := by
        intro rc hrc
        obtain ⟨v, hv, _⟩ := hkid rc hrc
        simp only [tv, hv, Option.getD_some]
      obtain ⟨r, hr, _, p1, p2, p3⟩ := maxLoop_ab
        (fun g1 a => minimax n g1 bot human (depth + 1) a beta 0) tv g bot beta
        (by
          intro rc a hrc ha1 ha2
          obtain ⟨v, hv, hall⟩ := hkid rc hrc
          obtain ⟨r, hr, hok⟩ := hall a ha1 ha2
          have : tv rc = v := by simp only [tv, hv, Option.getD_some]
          rw [this]
          exact ⟨r, hr, hok⟩)
        cells (-1000) alpha ha ha hab
      rw [allSome_map _ tv (emptyCells g)
        (fun rc hrc => htv rc ((mem_emptyCells g rc).1 hrc))]
      simp only
      obtain ⟨m, hm, hmem, hle⟩ := maxOf_spec ((emptyCells g).map tv) (by simpa using hne)
      refine ⟨r, m, hr, hm, ?_, ?_, ?_⟩
      · intro hra
        obtain ⟨rc, hrc, rfl⟩ := List.mem_map.1 hmem
        exact p1 hra rc (mem_cells rc) ((mem_emptyCells g rc).1 hrc)
      · intro hrb
        obtain ⟨rc, _, hrc, hv⟩ := p2 hrb
        exact le_trans hv (hle _ (List.mem_map.2 ⟨rc, (mem_emptyCells g rc).2 hrc, rfl⟩))
      · intro hra hrb
        obtain ⟨q1, rc, _, hrc, hv⟩ := p3 hra hrb
        apply le_antisymm
        · obtain ⟨x, hx, rfl⟩ := List.mem_map.1 hmem
          exact q1 x (mem_cells x) ((mem_emptyCells g x).1 hx)
        · rw [← hv]
          exact hle _ (List.mem_map.2 ⟨rc, (mem_emptyCells g rc).2 hrc, rfl⟩)
    · rw [if_neg h4]
      have hdec : decide (maximizing ≠ 0) = false := by simpa using h4
      rw [hdec]
      simp only [Bool.false_eq_true, if_false, Bool.not_false]
      have hkid : ∀ rc : Fin 3 × Fin 3, g.board.get rc.1 rc.2 = ' ' →
          ∃ v, bruteForce n (g.mark rc human) bot human (depth + 1) true = some v ∧
            ∀ b, b ≤ 1000 → alpha < b →
              ∃ r, minimax n (g.mark rc human) bot human (depth + 1) alpha b 1 =
                some (r, g.mark rc human) ∧ ABok alpha b r v := by
        intro rc hrc
        have hc := emptyCount_mark g rc human hrc hwf.human_ne
        obtain ⟨r0, v, _, hv, _⟩ := ih (g.mark rc human) bot human (depth + 1) alpha beta 1
          (hwf.mark_human rc hrc) (by omega) ha hab hb
        have hv0 : bruteForce n (g.mark rc human) bot human (depth + 1) true = some v := by
          simpa using hv
        refine ⟨v, hv0, ?_⟩
        intro b hb1 hb2
        obtain ⟨r, v1, hr, hv1, hok⟩ := ih (g.mark rc human) bot human (depth + 1) alpha b 1
          (hwf.mark_human rc hrc) (by omega) ha hb2 hb1
        have hv2 : bruteForce n (g.mark rc human) bot human (depth + 1) true = some v1 := by
          simpa using hv1
        rw [hv0] at hv2
        have : v = v1 := Option.some.inj hv2
        subst this
        exact ⟨r, hr, hok⟩
      let tv : Fin 3 × Fin 3 → Int := fun rc =>
        (bruteForce n (g.mark rc human) bot human (depth + 1) true).getD 0
      have htv : ∀ rc : Fin 3 × Fin 3, g.board.get rc.1 rc.2 = ' ' →
          bruteForce n (g.mark rc human) bot human (depth + 1) true = some (tv rc) := by
        intro rc hrc
        obtain ⟨v, hv, _⟩ := hkid rc hrc
        simp only [tv, hv, Option.getD_some]
      obtain ⟨r, hr, _, p1, p2, p3⟩ := minLoop_ab
        (fun g1 b => minimax n g1 bot human (depth + 1) alpha b 1) tv g human alpha
        (by
          intro rc b hrc hb1 hb2
          obtain ⟨v, hv, hall⟩ := hkid rc hrc
          obtain ⟨r, hr, hok⟩ := hall b hb1 hb2
          have : tv rc = v := by simp only [tv, hv, Option.getD_some]
          rw [this]
          exact ⟨r, hr, hok⟩)
        cells 1000 beta hb hb hab
      rw [allSome_map _ tv (emptyCells g)
        (fun rc hrc => htv rc ((mem_emptyCells g rc).1 hrc))]
      simp only
      obtain ⟨m, hm, hmem, hle⟩ := minOf_spec ((emptyCells g).map tv) (by simpa using hne)
      refine ⟨r, m, hr, hm, ?_, ?_, ?_⟩
      · intro hra
        obtain ⟨rc, _, hrc, hv⟩ := p2 hra
        exact le_trans (hle _ (List.mem_map.2 ⟨rc, (mem_emptyCells g rc).2 hrc, rfl⟩)) hv
      · intro hrb
        obtain ⟨rc, hrc, rfl⟩ := List.mem_map.1 hmem
        exact p1 hrb rc (mem_cells rc) ((mem_emptyCells g rc).1 hrc)
      · intro hra hrb
        obtain ⟨q1, rc, _, hrc, hv⟩ := p3 hra hrb
        apply le_antisymm
        · rw [← hv]
          exact hle _ (List.mem_map.2 ⟨rc, (mem_emptyCells g rc).2 hrc, rfl⟩)
        · obtain ⟨x, hx, rfl⟩ := List.mem_map.1 hmem
          exact q1 x (mem_cells x) ((mem_emptyCells g x).1 hx)

theorem allSome_eq_some {α : Type} (f : α → Option Int) :
    ∀ (l : List α) (vs : List Int), allSome (l.map f) = some vs →
      (∀ x ∈ l, f x = some ((f x).getD 0)) ∧ vs = l.map (fun x => (f x).getD 0) := by
  intro l
  induction l with
  | nil =>
    intro vs h
    simp only [List.map_nil, allSome, Option.some.injEq] at h
    subst h
    exact ⟨fun x hx => absurd hx (List.not_mem_nil _), rfl⟩
  | cons a rest ih =>
    intro vs h
    simp only [List.map_cons] at h
    cases hfa : f a with
    | none => rw [hfa] at h; simp [allSome] at h
    | some v =>
      rw [hfa] at h
      cases hr : allSome (rest.map f) with
      | none => simp [allSome, hr] at h
      | some ws =>
        simp only [allSome, hr, Option.some.injEq] at h
        obtain ⟨h1, h2⟩ := ih ws hr
        subst h
        refine ⟨?_, ?_⟩
        · intro x hx
          rcases List.mem_cons.1 hx with rfl | hx
          · rw [hfa]; rfl
          · exact h1 x hx
        · simp only [List.map_cons, hfa, Option.getD_some, h2]

theorem maxOf_some (vs : List Int) (m : Int) (h : maxOf vs = some m) :
    m ∈ vs ∧ ∀ v ∈ vs, v ≤ m := by
  have hne : vs ≠ [] := by
    rintro rfl
    simp [maxOf] at h
  obtain ⟨m1, hm1, h1, h2⟩ := maxOf_spec vs hne
  rw [h] at hm1
  cases hm1
  exact ⟨h1, h2⟩

theorem minOf_some (vs : List Int) (m : Int) (h : minOf vs = some m) :
    m ∈ vs ∧ ∀ v ∈ vs, m ≤ v := by
  have hne : vs ≠ [] := by
    rintro rfl
    simp [minOf] at h
  obtain ⟨m1, hm1, h1, h2⟩ := minOf_spec vs hne
  rw [h] at hm1
  cases hm1
  exact ⟨h1, h2⟩

theorem bruteForce_node (n : Nat) (g : Game) (bot human : Char) (depth : Int) (mx : Bool)
    (v : Int) (h1 : check_status g ≠ bot) (h2 : check_status g ≠ human)
    (h3 : check_status g ≠ 'D')
    (h : bruteForce (n + 1) g bot human depth mx = some v) :
    ∃ tv : Fin 3 × Fin 3 → Int,
      (∀ rc : Fin 3 × Fin 3, g.board.get rc.1 rc.2 = ' ' →
        bruteForce n (g.mark rc (if mx then bot else human)) bot human (depth + 1) (!mx) =
          some (tv rc)) ∧
      (∃ rc : Fin 3 × Fin 3, g.board.get rc.1 rc.2 = ' ' ∧ tv rc = v) ∧
      (∀ rc : Fin 3 × Fin 3, g.board.get rc.1 rc.2 = ' ' →
        if mx then tv rc ≤ v else v ≤ tv rc) := by
  unfold bruteForce at h
  simp only at h
  rw [if_neg h1, if_neg h2, if_neg h3] at h
  cases hall : allSome ((emptyCells g).map fun rc =>
      bruteForce n (g.mark rc (if mx then bot else human)) bot human (depth + 1) (!mx)) with
  | none => rw [hall] at h; simp at h
  | some vs =>
    rw [hall] at h
    simp only at h
    obtain ⟨hf, hvs⟩ := allSome_eq_some _ _ _ hall
    refine ⟨fun rc => (bruteForce n (g.mark rc (if mx then bot else human)) bot human
      (depth + 1) (!mx)).getD 0, ?_, ?_, ?_⟩
    · intro rc hrc
      exact hf rc ((mem_emptyCells g rc).2 hrc)
    · cases mx with
      | true =>
        simp only [if_true] at h
        obtain ⟨hm, _⟩ := maxOf_some vs v h
        rw [hvs] at hm
        obtain ⟨rc, hrc, hv⟩ := List.mem_map.1 hm
        exact ⟨rc, (mem_emptyCells g rc).1 hrc, hv⟩
      | false =>
        simp only [Bool.false_eq_true, if_false] at h
        obtain ⟨hm, _⟩ := minOf_some vs v h
        rw [hvs] at hm
        obtain ⟨rc, hrc, hv⟩ := List.mem_map.1 hm
        exact ⟨rc, (mem_emptyCells g rc).1 hrc, hv⟩
    · intro rc hrc
      have hmem : (bruteForce n (g.mark rc (if mx then bot else human)) bot human
          (depth + 1) (!mx)).getD 0 ∈ vs := by
        rw [hvs]
        exact List.mem_map.2 ⟨rc, (mem_emptyCells g rc).2 hrc, rfl⟩
      cases mx with
      | true =>
        simp only [if_true] at h ⊢
        exact (maxOf_some vs v h).2 _ hmem
      | false =>
        simp only [Bool.false_eq_true, if_false] at h ⊢
        exact (minOf_some vs v h).2 _ hmem

/-! ## Bounds on the scores -/

theorem WF.mark_sym {g : Game} {bot human : Char} (h : WF g bot human) (mx : Bool) (rc : Fin 3 × Fin 3)
    (hb : g.board.get rc.1 rc.2 = ' ') :
    WF (g.mark rc (if mx then bot else human)) bot human := by
  cases mx with
  | true => simpa using h.mark_bot rc hb
  | false => simpa using h.mark_human rc hb

theorem emptyCount_mark_sym {g : Game} {bot human : Char} (h : WF g bot human) (mx : Bool) (rc : Fin 3 × Fin 3)
    (hb : g.board.get rc.1 rc.2 = ' ') :
    emptyCount g = emptyCount (g.mark rc (if mx then bot else human)) + 1 := by
  cases mx with
  | true => simpa using emptyCount_mark g rc bot hb h.bot_ne
  | false => simpa using emptyCount_mark g rc human hb h.human_ne

theorem bruteForce_bounds : ∀ (fuel : Nat) (g : Game) (bot human : Char) (depth : Int)
    (mx : Bool) (v : Int), WF g bot human → bruteForce fuel g bot human depth mx = some v →
    0 ≤ depth → depth + emptyCount g ≤ 20 → -10 ≤ v ∧ v ≤ 10 := by
  intro fuel
  induction fuel with
  | zero => intro g bot human depth mx v _ h; simp [bruteForce] at h
  | succ n ih =>
    intro g bot human depth mx v hwf h hd he
    by_cases h1 : check_status g = bot
    · simp only [bruteForce, if_pos h1, Option.some.injEq] at h; omega
    by_cases h2 : check_status g = human
    · simp only [bruteForce, if_neg h1, if_pos h2, Option.some.injEq] at h; omega
    by_cases h3 : check_status g = 'D'
    · simp only [bruteForce, if_neg h1, if_neg h2, if_pos h3, Option.some.injEq] at h; omega
    obtain ⟨tv, hkid, ⟨rc, hrc, hv⟩, _⟩ := bruteForce_node n g bot human depth mx v h1 h2 h3 h
    have hc := emptyCount_mark_sym hwf mx rc hrc
    have := ih _ _ _ _ _ _ (hwf.mark_sym mx rc hrc) (hkid rc hrc) (by omega) (by omega)
    omega

theorem bruteForce_le : ∀ (fuel : Nat) (g : Game) (bot human : Char) (depth : Int)
    (mx : Bool) (v : Int), WF g bot human → bruteForce fuel g bot human depth mx = some v →
    0 ≤ depth → depth + emptyCount g ≤ 10 → v ≤ 10 - depth := by
  intro fuel
  induction fuel with
  | zero => intro g bot human depth mx v _ h; simp [bruteForce] at h
  | succ n ih =>
    intro g bot human depth mx v hwf h hd he
    by_cases h1 : check_status g = bot
    · simp only [bruteForce, if_pos h1, Option.some.injEq] at h; omega
    by_cases h2 : check_status g = human
    · simp only [bruteForce, if_neg h1, if_pos h2, Option.some.injEq] at h; omega
    by_cases h3 : check_status g = 'D'
    · simp only [bruteForce, if_neg h1, if_neg h2, if_pos h3, Option.some.injEq] at h; omega
    obtain ⟨tv, hkid, ⟨rc, hrc, hv⟩, _⟩ := bruteForce_node n g bot human depth mx v h1 h2 h3 h
    have hc := emptyCount_mark_sym hwf mx rc hrc
    have := ih _ _ _ _ _ _ (hwf.mark_sym mx rc hrc) (hkid rc hrc) (by omega) (by omega)
    omega

theorem bruteForce_le_of_not_won (fuel : Nat) (g : Game) (bot human : Char) (depth : Int)
    (mx : Bool) (v : Int) (hwf : WF g bot human)
    (h : bruteForce fuel g bot human depth mx = some v)
    (hd : 0 ≤ depth) (he : depth + emptyCount g ≤ 9) (h1 : check_status g ≠ bot) :
    v ≤ 9 - depth := by
  cases fuel with
  | zero => simp [bruteForce] at h
  | succ n =>
    by_cases h2 : check_status g = human
    · simp only [bruteForce, if_neg h1, if_pos h2, Option.some.injEq] at h; omega
    by_cases h3 : check_status g = 'D'
    · simp only [bruteForce, if_neg h1, if_neg h2, if_pos h3, Option.some.injEq] at h; omega
    obtain ⟨tv, hkid, ⟨rc, hrc, hv⟩, _⟩ := bruteForce_node n g bot human depth mx v h1 h2 h3 h
    have hc := emptyCount_mark_sym hwf mx rc hrc
    have := bruteForce_le n _ _ _ _ _ _ (hwf.mark_sym mx rc hrc) (hkid rc hrc) (by omega)
      (by omega)
    omega

/-- With the full window the search returns the brute-force value. -/
theorem minimax_full_window (fuel : Nat) (g : Game) (bot human : Char)
    (depth maximizing : Int) (hwf : WF g bot human) (hfuel : emptyCount g < fuel)
    (hd0 : 0 ≤ depth) (hd : depth + emptyCount g ≤ 20) :
    ∃ v, minimax fuel g bot human depth (-1000) 1000 maximizing = some (v, g) ∧
      bruteForce fuel g bot human depth (decide (maximizing ≠ 0)) = some v ∧
      -10 ≤ v ∧ v ≤ 10 := by
  obtain ⟨r, v, hr, hv, h1, h2, h3⟩ := minimax_ab fuel g bot human depth (-1000) 1000
    maximizing hwf hfuel (le_refl _) (by norm_num) (le_refl _)
  obtain ⟨hlo, hhi⟩ := bruteForce_bounds fuel g bot human depth _ v hwf hv hd0 hd
  have hrv : r = v := by
    by_cases ha : r ≤ -1000
    · have := h1 ha; omega
    · by_cases hb : 1000 ≤ r
      · have := h2 hb; omega
      · exact (h3 (by omega) (by omega)).symm
  subst hrv
  exact ⟨r, hr, hv, hlo, hhi⟩

/-! ## The cell chosen by `best_move_minimax` -/

theorem cells_sorted : cells.Pairwise (fun a b => cellIndex a < cellIndex b) := by decide

theorem bestLoop_pick (fuel : Nat) (bot human : Char) (g : Game) (val : Fin 3 × Fin 3 → Int)
    (hval : ∀ rc : Fin 3 × Fin 3, g.board.get rc.1 rc.2 = ' ' →
      minimax fuel (g.mark rc bot) bot human 0 (-1000) 1000 0 = some (val rc, g.mark rc bot)) :
    ∀ (l : List (Fin 3 × Fin 3)) (bv : Int) (best : Int × Int),
      ∃ res, bestLoop fuel bot human l g bv best = some (res, g) ∧
        ((res = best ∧ ∀ rc ∈ l, g.board.get rc.1 rc.2 = ' ' → val rc ≤ bv) ∨
         (∃ l1 rc l2, l = l1 ++ rc :: l2 ∧ g.board.get rc.1 rc.2 = ' ' ∧
            res = cellCoords rc ∧ bv < val rc ∧
            (∀ x ∈ l1, g.board.get x.1 x.2 = ' ' → val x < val rc) ∧
            (∀ x ∈ l2, g.board.get x.1 x.2 = ' ' → val x ≤ val rc))) := by
  intro l
  induction l with
  | nil =>
    intro bv best
    exact ⟨best, rfl, Or.inl ⟨rfl, fun rc hrc => absurd hrc (List.not_mem_nil _)⟩⟩
  | cons rc rest ih =>
    intro bv best
    unfold bestLoop
    by_cases hb : g.board.get rc.1 rc.2 = ' '
    · rw [if_pos hb, hval rc hb]
      simp only
      rw [Game.unmark_mark g rc bot hb]
      by_cases hgt : val rc > bv
      · rw [if_pos hgt]
        obtain ⟨res, hres, hcase⟩ := ih (val rc) ((rc.1.val : Int), (rc.2.val : Int))
        refine ⟨res, hres, Or.inr ?_⟩
        rcases hcase with ⟨h1, h2⟩ | ⟨l1, x, l2, hl, hxb, hx, hxv, hl1, hl2⟩
        · exact ⟨[], rc, rest, rfl, hb, h1, hgt,
            fun y hy => absurd hy (List.not_mem_nil _), h2⟩
        · refine ⟨rc :: l1, x, l2, by rw [hl]; rfl, hxb, hx, by omega, ?_, hl2⟩
          intro y hy hyb
          rcases List.mem_cons.1 hy with rfl | hy
          · exact hxv
          · exact hl1 y hy hyb
      · rw [if_neg hgt]
        obtain ⟨res, hres, hcase⟩ := ih bv best
        refine ⟨res, hres, ?_⟩
        rcases hcase with ⟨h1, h2⟩ | ⟨l1, x, l2, hl, hxb, hx, hxv, hl1, hl2⟩
        · left
          refine ⟨h1, ?_⟩
          intro y hy hyb
          rcases List.mem_cons.1 hy with rfl | hy
          · omega
          · exact h2 y hy hyb
        · right
          refine ⟨rc :: l1, x, l2, by rw [hl]; rfl, hxb, hx, hxv, ?_, hl2⟩
          intro y hy hyb
          rcases List.mem_cons.1 hy with rfl | hy
          · omega
          · exact hl1 y hy hyb
    · rw [if_neg hb]
      obtain ⟨res, hres, hcase⟩ := ih bv best
      refine ⟨res, hres, ?_⟩
      rcases hcase with ⟨h1, h2⟩ | ⟨l1, x, l2, hl, hxb, hx, hxv, hl1, hl2⟩
      · left
        refine ⟨h1, ?_⟩
        intro y hy hyb
        rcases List.mem_cons.1 hy with rfl | hy
        · exact absurd hyb hb
        · exact h2 y hy hyb
      · right
        refine ⟨rc :: l1, x, l2, by rw [hl]; rfl, hxb, hx, hxv, ?_, hl2⟩
        intro y hy hyb
        rcases List.mem_cons.1 hy with rfl | hy
        · exact absurd hyb hb
        · exact hl1 y hy hyb

theorem bestLoop_seed (fuel : Nat) (bot human : Char) (g : Game) (val : Fin 3 × Fin 3 → Int)
    (hval : ∀ rc : Fin 3 × Fin 3, g.board.get rc.1 rc.2 = ' ' →
      minimax fuel (g.mark rc bot) bot human 0 (-1000) 1000 0 = some (val rc, g.mark rc bot)) :
    ∀ (l : List (Fin 3 × Fin 3)) (bv : Int) (best best1 : Int × Int),
      (∃ rc ∈ l, g.board.get rc.1 rc.2 = ' ' ∧ bv < val rc) →
      bestLoop fuel bot human l g bv best = bestLoop fuel bot human l g bv best1 := by
  intro l
  induction l with
  | nil => intro bv best best1 h; obtain ⟨rc, hrc, _⟩ := h; exact absurd hrc (List.not_mem_nil _)
  | cons rc rest ih =>
    intro bv best best1 h
    by_cases hb : g.board.get rc.1 rc.2 = ' '
    · simp only [bestLoop, if_pos hb, hval rc hb, Game.unmark_mark g rc bot hb]
      by_cases hgt : val rc > bv
      · simp only [if_pos hgt]
      · simp only [if_neg hgt]
        apply ih
        obtain ⟨x, hx, hxb, hxv⟩ := h
        rcases List.mem_cons.1 hx with rfl | hx
        · omega
        · exact ⟨x, hx, hxb, hxv⟩
    · simp only [bestLoop, if_neg hb]
      apply ih
      obtain ⟨x, hx, hxb, hxv⟩ := h
      rcases List.mem_cons.1 hx with rfl | hx
      · exact absurd hxb hb
      · exact ⟨x, hx, hxb, hxv⟩

/-- The value `best_move_minimax` gives to the move at `rc`: the result of
`minimax` on the game with `bot` placed there, at depth 0 with the full window,
`human` to move. It is the brute-force value and lies in `[-10, 10]`. -/
theorem move_value (fuel : Nat) (g : Game) (bot human : Char) (hwf : WF g bot human)
    (hfuel : emptyCount g ≤ fuel) (rc : Fin 3 × Fin 3) (hb : g.board.get rc.1 rc.2 = ' ') :
    ∃ v, minimax fuel (g.mark rc bot) bot human 0 (-1000) 1000 0 =
        some (v, g.mark rc bot) ∧
      bruteForce fuel (g.mark rc bot) bot human 0 false = some v ∧ -10 ≤ v ∧ v ≤ 10 := by
  have hc := emptyCount_mark g rc bot hb hwf.bot_ne
  have he := emptyCount_le g
  obtain ⟨v, h1, h2, h3⟩ := minimax_full_window fuel (g.mark rc bot) bot human 0 0
    (hwf.mark_bot rc hb) (by omega) (le_refl _) (by omega)
  exact ⟨v, h1, by simpa using h2, h3⟩

/-- Characterisation of the cell chosen by `best_move_minimax`. -/
theorem best_move_spec (fuel : Nat) (g : Game) (bot human : Char) (hwf : WF g bot human)
    (hfuel : emptyCount g ≤ fuel)
    (hblank : ∃ rc : Fin 3 × Fin 3, g.board.get rc.1 rc.2 = ' ') :
    ∃ (rc : Fin 3 × Fin 3) (val : Fin 3 × Fin 3 → Int),
      best_move_minimax fuel g bot human = some (cellCoords rc, g) ∧
      best_move_unseeded fuel g bot human = some (cellCoords rc, g) ∧
      g.board.get rc.1 rc.2 = ' ' ∧
      (∀ x : Fin 3 × Fin 3, g.board.get x.1 x.2 = ' ' →
        minimax fuel (g.mark x bot) bot human 0 (-1000) 1000 0 = some (val x, g.mark x bot) ∧
        bruteForce fuel (g.mark x bot) bot human 0 false = some (val x) ∧
        val x ≤ val rc ∧ (cellIndex x < cellIndex rc → val x < val rc)) := by
  let val : Fin 3 × Fin 3 → Int := fun x =>
    (bruteForce fuel (g.mark x bot) bot human 0 false).getD 0
  have hval : ∀ x : Fin 3 × Fin 3, g.board.get x.1 x.2 = ' ' →
      minimax fuel (g.mark x bot) bot human 0 (-1000) 1000 0 = some (val x, g.mark x bot) ∧
      bruteForce fuel (g.mark x bot) bot human 0 false = some (val x) ∧
      -10 ≤ val x ∧ val x ≤ 10 := by
    intro x hx
    obtain ⟨v, h1, h2, h3⟩ := move_value fuel g bot human hwf hfuel x hx
    have : val x = v := by simp only [val, h2, Option.getD_some]
    rw [this]
    exact ⟨h1, h2, h3⟩
  obtain ⟨rc0, hrc0⟩ := hblank
  have hex : ∃ rc ∈ cells, g.board.get rc.1 rc.2 = ' ' ∧ -1000 < val rc :=
    ⟨rc0, mem_cells rc0, hrc0, by have := (hval rc0 hrc0).2.2.1; omega⟩
  have hseed : best_move_minimax fuel g bot human = best_move_unseeded fuel g bot human :=
    bestLoop_seed fuel bot human g val (fun x hx => (hval x hx).1) cells (-1000) _ _ hex
  obtain ⟨res, hres, hcase⟩ := bestLoop_pick fuel bot human g val
    (fun x hx => (hval x hx).1) cells (-1000) (-1, -1)
  rcases hcase with ⟨_, h2⟩ | ⟨l1, rc, l2, hl, hrcb, hrc, _, hl1, hl2⟩
  · have := h2 rc0 (mem_cells rc0) hrc0
    have := (hval rc0 hrc0).2.2.1
    omega
  · have hun : best_move_unseeded fuel g bot human = some (cellCoords rc, g) := by
      rw [← hrc]; exact hres
    refine ⟨rc, val, by rw [hseed]; exact hun, hun, hrcb, ?_⟩
    intro x hx
    refine ⟨(hval x hx).1, (hval x hx).2.1, ?_, ?_⟩
    · have hmem : x ∈ l1 ++ rc :: l2 := by rw [← hl]; exact mem_cells x
      rcases List.mem_append.1 hmem with h | h
      · exact le_of_lt (hl1 x h hx)
      · rcases List.mem_cons.1 h with rfl | h
        · exact le_refl _
        · exact hl2 x h hx
    · intro hlt
      have hmem : x ∈ l1 ++ rc :: l2 := by rw [← hl]; exact mem_cells x
      have hsorted := cells_sorted
      rw [hl, List.pairwise_append] at hsorted
      obtain ⟨_, hs2, _⟩ := hsorted
      rcases List.mem_append.1 hmem with h | h
      · exact hl1 x h hx
      · rcases List.mem_cons.1 h with rfl | h
        · exact absurd hlt (lt_irrefl _)
        · have := (List.pairwise_cons.1 hs2).1 x h
          omega

theorem minimax_won (fuel : Nat) (g : Game) (bot human : Char) (depth alpha beta mx : Int)
    (h : check_status g = bot) :
    minimax (fuel + 1) g bot human depth alpha beta mx = some (10 - depth, g) := by
  unfold minimax
  simp only [if_pos h]

theorem best_move_wins (fuel : Nat) (g : Game) (bot human : Char) (hwf : WF g bot human)
    (hfuel : emptyCount g ≤ fuel)
    (hwin : ∃ rc : Fin 3 × Fin 3, g.board.get rc.1 rc.2 = ' ' ∧
      check_status (g.mark rc bot) = bot) :
    ∃ rc : Fin 3 × Fin 3, best_move_minimax fuel g bot human = some (cellCoords rc, g) ∧
      g.board.get rc.1 rc.2 = ' ' ∧ check_status (g.mark rc bot) = bot := by
  obtain ⟨w, hwb, hw⟩ := hwin
  obtain ⟨rc, val, hbest, _, hrcb, hall⟩ := best_move_spec fuel g bot human hwf hfuel ⟨w, hwb⟩
  refine ⟨rc, hbest, hrcb, ?_⟩
  by_contra hne
  have hcw := emptyCount_mark g w bot hwb hwf.bot_ne
  obtain ⟨n, rfl⟩ : ∃ n, fuel = n + 1 := ⟨fuel - 1, by omega⟩
  have h10 : val w = 10 := by
    have h1 := (hall w hwb).1
    rw [minimax_won n _ bot human 0 (-1000) 1000 0 hw] at h1
    have := (Prod.mk.inj (Option.some.inj h1)).1
    omega
  have hle := (hall w hwb).2.2.1
  have hc := emptyCount_mark g rc bot hrcb hwf.bot_ne
  have he := emptyCount_le g
  have := bruteForce_le_of_not_won (n + 1) (g.mark rc bot) bot human 0 false (val rc)
    (hwf.mark_bot rc hrcb) (hall rc hrcb).2.1 (le_refl _) (by omega) hne
  omega

/-! ## The sign of the value: who can avoid losing -/

theorem safeFor_bot_iff : ∀ (fuel : Nat) (g : Game) (bot human : Char) (depth : Int)
    (mx : Bool) (v : Int), WF g bot human → bruteForce fuel g bot human depth mx = some v →
    0 ≤ depth → depth + emptyCount g ≤ 9 →
    (0 ≤ v ↔ safeFor fuel bot human g mx = true) := by
  intro fuel
  induction fuel with
  | zero => intro g bot human depth mx v _ h; simp [bruteForce] at h
  | succ n ih =>
    intro g bot human depth mx v hwf h hd he
    unfold safeFor
    simp only
    by_cases h1 : check_status g = bot
    · simp only [bruteForce, if_pos h1, Option.some.injEq] at h
      simp only [if_pos h1, iff_true]; omega
    have h1' : check_status g ≠ bot := h1
    by_cases h2 : check_status g = human
    · simp only [bruteForce, if_neg h1, if_pos h2, Option.some.injEq] at h
      simp only [if_neg h1, if_pos h2, Bool.false_eq_true, iff_false]; omega
    by_cases h3 : check_status g = 'D'
    · simp only [bruteForce, if_neg h1, if_neg h2, if_pos h3, Option.some.injEq] at h
      simp only [if_neg h1, if_neg h2, if_pos h3, iff_true]; omega
    rw [if_neg h1, if_neg h2, if_neg h3]
    obtain ⟨tv, hkid, ⟨rc, hrc, hv⟩, hall⟩ :=
      bruteForce_node n g bot human depth mx v h1 h2 h3 h
    have hIH : ∀ x : Fin 3 × Fin 3, g.board.get x.1 x.2 = ' ' →
        (0 ≤ tv x ↔
          safeFor n bot human (g.mark x (if mx then bot else human)) (!mx) = true) := by
      intro x hx
      have hc := emptyCount_mark_sym hwf mx x hx
      exact ih _ _ _ _ _ _ (hwf.mark_sym mx x hx) (hkid x hx) (by omega) (by omega)
    cases mx with
    | true =>
      simp only [if_true, Bool.not_true] at hIH hall ⊢
      rw [List.any_eq_true]
      constructor
      · intro hv0
        exact ⟨rc, (mem_emptyCells g rc).2 hrc, (hIH rc hrc).1 (by omega)⟩
      · rintro ⟨x, hx, hs⟩
        have hxb := (mem_emptyCells g x).1 hx
        have := (hIH x hxb).2 hs
        have := hall x hxb
        omega
    | false =>
      simp only [Bool.false_eq_true, if_false, Bool.not_false] at hIH hall ⊢
      rw [List.all_eq_true]
      constructor
      · intro hv0 x hx
        have hxb := (mem_emptyCells g x).1 hx
        have := hall x hxb
        exact (hIH x hxb).1 (by omega)
      · intro hs
        have := (hIH rc hrc).2 (hs rc ((mem_emptyCells g rc).2 hrc))
        omega

theorem safeFor_human_iff : ∀ (fuel : Nat) (g : Game) (bot human : Char) (depth : Int)
    (mx : Bool) (v : Int), WF g bot human → bruteForce fuel g bot human depth mx = some v →
    0 ≤ depth → depth + emptyCount g ≤ 9 →
    (v ≤ 0 ↔ safeFor fuel human bot g (!mx) = true) := by
  intro fuel
  induction fuel with
  | zero => intro g bot human depth mx v _ h; simp [bruteForce] at h
  | succ n ih =>
    intro g bot human depth mx v hwf h hd he
    unfold safeFor
    simp only
    by_cases h2 : check_status g = human
    · have h1 : check_status g ≠ bot := fun hh => hwf.ne (hh.symm.trans h2)
      simp only [bruteForce, if_neg h1, if_pos h2, Option.some.injEq] at h
      simp only [if_pos h2, iff_true]; omega
    by_cases h1 : check_status g = bot
    · simp only [bruteForce, if_pos h1, Option.some.injEq] at h
      simp only [if_neg h2, if_pos h1, Bool.false_eq_true, iff_false]; omega
    by_cases h3 : check_status g = 'D'
    · simp only [bruteForce, if_neg h1, if_neg h2, if_pos h3, Option.some.injEq] at h
      simp only [if_neg h1, if_neg h2, if_pos h3, iff_true]; omega
    rw [if_neg h2, if_neg h1, if_neg h3]
    obtain ⟨tv, hkid, ⟨rc, hrc, hv⟩, hall⟩ :=
      bruteForce_node n g bot human depth mx v h1 h2 h3 h
    have hIH : ∀ x : Fin 3 × Fin 3, g.board.get x.1 x.2 = ' ' →
        (tv x ≤ 0 ↔
          safeFor n human bot (g.mark x (if mx then bot else human)) (!(!mx)) = true) := by
      intro x hx
      have hc := emptyCount_mark_sym hwf mx x hx
      exact ih _ _ _ _ _ _ (hwf.mark_sym mx x hx) (hkid x hx) (by omega) (by omega)
    cases mx with
    | true =>
      simp only [if_true, Bool.not_true, Bool.not_false, Bool.false_eq_true, if_false]
        at hIH hall ⊢
      rw [List.all_eq_true]
      constructor
      · intro hv0 x hx
        have hxb := (mem_emptyCells g x).1 hx
        have := hall x hxb
        exact (hIH x hxb).1 (by omega)
      · intro hs
        have := (hIH rc hrc).2 (hs rc ((mem_emptyCells g rc).2 hrc))
        omega
    | false =>
      simp only [Bool.false_eq_true, if_false, Bool.not_false, Bool.not_true, if_true]
        at hIH hall ⊢
      rw [List.any_eq_true]
      constructor
      · intro hv0
        exact ⟨rc, (mem_emptyCells g rc).2 hrc, (hIH rc hrc).1 (by omega)⟩
      · rintro ⟨x, hx, hs⟩
        have hxb := (mem_emptyCells g x).1 hx
        have := (hIH x hxb).2 hs
        have := hall x hxb
        omega

/-! ## The search on bit masks agrees with the search on the game -/

set_option maxRecDepth 100000 in
theorem lineIn_testBit : ∀ m < 512, lineIn m =
    (m.testBit 0 && m.testBit 1 && m.testBit 2 || m.testBit 3 && m.testBit 4 && m.testBit 5 ||
     m.testBit 6 && m.testBit 7 && m.testBit 8 || m.testBit 0 && m.testBit 3 && m.testBit 6 ||
     m.testBit 1 && m.testBit 4 && m.testBit 7 || m.testBit 2 && m.testBit 5 && m.testBit 8 ||
     m.testBit 0 && m.testBit 4 && m.testBit 8 || m.testBit 2 && m.testBit 4 && m.testBit 6) := by
  decide!

set_option maxRecDepth 100000 in
theorem land_bit_testBit : ∀ m < 512, ∀ i < 9,
    Nat.beq (m &&& 2 ^ i) 0 = !m.testBit i := by
  decide!

theorem searchBits_eq : searchBits = searchOrder.map cellBit := by decide

theorem mem_searchOrder (rc : Fin 3 × Fin 3) : rc ∈ searchOrder := by
  obtain ⟨r, c⟩ := rc
  fin_cases r <;> fin_cases c <;> simp [searchOrder]

theorem cellIndex_lt (rc : Fin 3 × Fin 3) : cellIndex rc < 9 := by
  unfold cellIndex
  have := rc.1.isLt
  have := rc.2.isLt
  omega

theorem cellIndex_inj (a b : Fin 3 × Fin 3) (h : cellIndex a = cellIndex b) : a = b := by
  unfold cellIndex at h
  have := a.1.isLt
  have := a.2.isLt
  have := b.1.isLt
  have := b.2.isLt
  apply Prod.ext <;> apply Fin.ext <;> omega

theorem Rep.lineIn_iff {g : Game} {p : Char} {m : Nat} (h : Rep g p m) :
    lineIn m = true ↔ ∃ l ∈ lines, lineOf g l p := by
  rw [lineIn_testBit m h.1]
  have t00 : m.testBit 0 = decide (g.board.get 0 0 = p) := h.2 (0, 0)
  have t01 : m.testBit 1 = decide (g.board.get 0 1 = p) := h.2 (0, 1)
  have t02 : m.testBit 2 = decide (g.board.get 0 2 = p) := h.2 (0, 2)
  have t10 : m.testBit 3 = decide (g.board.get 1 0 = p) := h.2 (1, 0)
  have t11 : m.testBit 4 = decide (g.board.get 1 1 = p) := h.2 (1, 1)
  have t12 : m.testBit 5 = decide (g.board.get 1 2 = p) := h.2 (1, 2)
  have t20 : m.testBit 6 = decide (g.board.get 2 0 = p) := h.2 (2, 0)
  have t21 : m.testBit 7 = decide (g.board.get 2 1 = p) := h.2 (2, 1)
  have t22 : m.testBit 8 = decide (g.board.get 2 2 = p) := h.2 (2, 2)
  rw [t00, t01, t02, t10, t11, t12, t20, t21, t22]
  simp only [lines, lineOf, List.mem_cons, List.mem_singleton, List.not_mem_nil, or_false,
    exists_eq_or_imp, exists_eq_left, Bool.or_eq_true, Bool.and_eq_true, decide_eq_true_eq,
    or_assoc, and_assoc]

theorem Rep.free_iff {g : Game} {p : Char} {m : Nat} (h : Rep g p m) (rc : Fin 3 × Fin 3) :
    m.testBit (cellIndex rc) = false ↔ g.board.get rc.1 rc.2 ≠ p := by
  rw [h.2 rc]
  simp

theorem Rep.mark_self {g : Game} {p : Char} {m : Nat} (h : Rep g p m) (rc : Fin 3 × Fin 3) :
    Rep (g.mark rc p) p (m ||| cellBit rc) := by
  refine ⟨?_, ?_⟩
  · apply @Nat.or_lt_two_pow m (cellBit rc) 9 h.1
    exact Nat.pow_lt_pow_right (by norm_num) (cellIndex_lt rc)
  · intro x
    rw [Nat.testBit_or, h.2 x, mark_get, cellBit, Nat.testBit_two_pow]
    by_cases hx : rc = x
    · subst hx; simp
    · have : cellIndex rc ≠ cellIndex x := fun hh => hx (cellIndex_inj _ _ hh)
      simp [hx, this]

theorem Rep.mark_other {g : Game} {p q : Char} {m : Nat} (h : Rep g q m)
    (rc : Fin 3 × Fin 3) (hpq : p ≠ q) (hb : g.board.get rc.1 rc.2 ≠ q) :
    Rep (g.mark rc p) q m := by
  refine ⟨h.1, ?_⟩
  intro x
  rw [h.2 x, mark_get]
  by_cases hx : rc = x
  · subst hx; simp [hpq, hb]
  · simp [hx]

theorem anyFree_eq_true (child : Nat → Bool) (occ : Nat) :
    ∀ l : List Nat, anyFree child occ l = true ↔
      ∃ b ∈ l, Nat.beq (occ &&& b) 0 = true ∧ child b = true := by
  intro l
  induction l with
  | nil => simp [anyFree]
  | cons b rest ih =>
    unfold anyFree
    by_cases h1 : Nat.beq (occ &&& b) 0 = true
    · rw [if_pos h1]
      by_cases h2 : child b = true
      · rw [if_pos h2]
        simp only [true_iff]
        exact ⟨b, List.mem_cons_self _ _, h1, h2⟩
      · rw [if_neg h2, ih]
        constructor
        · rintro ⟨x, hx, hx1, hx2⟩
          exact ⟨x, List.mem_cons_of_mem _ hx, hx1, hx2⟩
        · rintro ⟨x, hx, hx1, hx2⟩
          rcases List.mem_cons.1 hx with rfl | hx
          · exact absurd hx2 h2
          · exact ⟨x, hx, hx1, hx2⟩
    · rw [if_neg h1, ih]
      constructor
      · rintro ⟨x, hx, hx1, hx2⟩
        exact ⟨x, List.mem_cons_of_mem _ hx, hx1, hx2⟩
      · rintro ⟨x, hx, hx1, hx2⟩
        rcases List.mem_cons.1 hx with rfl | hx
        · exact absurd hx1 h1
        · exact ⟨x, hx, hx1, hx2⟩

theorem allFree_eq_true (child : Nat → Bool) (occ : Nat) :
    ∀ l : List Nat, allFree child occ l = true ↔
      ∀ b ∈ l, Nat.beq (occ &&& b) 0 = true → child b = true := by
  intro l
  induction l with
  | nil => simp [allFree]
  | cons b rest ih =>
    unfold allFree
    by_cases h1 : Nat.beq (occ &&& b) 0 = true
    · rw [if_pos h1]
      by_cases h2 : child b = true
      · rw [if_pos h2, ih]
        constructor
        · intro h x hx hx1
          rcases List.mem_cons.1 hx with rfl | hx
          · exact h2
          · exact h x hx hx1
        · intro h x hx hx1
          exact h x (List.mem_cons_of_mem _ hx) hx1
      · rw [if_neg h2]
        simp only [Bool.false_eq_true, false_iff]
        intro h
        exact h2 (h b (List.mem_cons_self _ _) h1)
    · rw [if_neg h1, ih]
      constructor
      · intro h x hx hx1
        rcases List.mem_cons.1 hx with rfl | hx
        · exact absurd hx1 h1
        · exact h x hx hx1
      · intro h x hx hx1
        exact h x (List.mem_cons_of_mem _ hx) hx1

/-- A cell is free in the union of the two masks exactly when it is blank. -/
theorem free_iff_blank {g : Game} {me opp : Char} {M O : Nat} (hwf : WF g me opp)
    (hM : Rep g me M) (hO : Rep g opp O) (rc : Fin 3 × Fin 3) :
    Nat.beq ((M ||| O) &&& cellBit rc) 0 = true ↔ g.board.get rc.1 rc.2 = ' ' := by
  have hlt : M ||| O < 512 := @Nat.or_lt_two_pow M O 9 hM.1 hO.1
  rw [cellBit, land_bit_testBit _ hlt _ (cellIndex_lt rc), Nat.testBit_or, hM.2 rc, hO.2 rc]
  have hv := hwf.cells rc
  have hme := hwf.bot_ne
  have hopp := hwf.human_ne
  simp only [Bool.not_eq_true', Bool.or_eq_false_iff, decide_eq_false_iff_not]
  constructor
  · rintro ⟨h1, h2⟩
    rcases hv with h | h | h
    · rcases hwf.player 'X' (Or.inl rfl) with hp | hp
      · exact absurd (h.trans hp) h1
      · exact absurd (h.trans hp) h2
    · rcases hwf.player 'O' (Or.inr rfl) with hp | hp
      · exact absurd (h.trans hp) h1
      · exact absurd (h.trans hp) h2
    · exact h
  · intro h
    rw [h]
    exact ⟨fun hh => hme hh.symm, fun hh => hopp hh.symm⟩

theorem lineOf_complete {g : Game} {p : Char}
    {l : (Fin 3 × Fin 3) × (Fin 3 × Fin 3) × (Fin 3 × Fin 3)} (h : lineOf g l p)
    (hp : p ≠ ' ') : lineComplete g l := by
  refine ⟨by rw [h.1]; exact hp, ?_⟩
  rw [h.1]
  exact h

theorem status_of_line {g : Game} {me opp : Char} (hwf : WF g me opp)
    (h1 : ∃ l ∈ lines, lineOf g l opp) (h2 : ¬ ∃ l ∈ lines, lineOf g l me) :
    check_status g = opp := by
  obtain ⟨l, hl, hlo⟩ := h1
  obtain ⟨l1, hl1, hc, hs⟩ := check_status_hasLine g ⟨l, hl, lineOf_complete hlo hwf.human_ne⟩
  rcases hwf.player _ (lineComplete_player hwf.cells l1 hc) with hp | hp
  · exfalso
    apply h2
    refine ⟨l1, hl1, ?_⟩
    have := hc.2
    rw [hp] at this
    exact this
  · rw [hs, hp]

theorem no_line {g : Game} {me opp : Char} (hwf : WF g me opp)
    (h1 : ¬ ∃ l ∈ lines, lineOf g l opp) (h2 : ¬ ∃ l ∈ lines, lineOf g l me) :
    ¬ hasLine g := by
  rintro ⟨l, hl, hc⟩
  rcases hwf.player _ (lineComplete_player hwf.cells l hc) with hp | hp
  · apply h2
    refine ⟨l, hl, ?_⟩
    have := hc.2
    rw [hp] at this
    exact this
  · apply h1
    refine ⟨l, hl, ?_⟩
    have := hc.2
    rw [hp] at this
    exact this

theorem lineOf_mark_other {g : Game} {p q : Char} (rc : Fin 3 × Fin 3) (hpq : p ≠ q)
    {l : (Fin 3 × Fin 3) × (Fin 3 × Fin 3) × (Fin 3 × Fin 3)}
    (h : lineOf (g.mark rc p) l q) : lineOf g l q := by
  have key : ∀ x : Fin 3 × Fin 3, (g.mark rc p).board.get x.1 x.2 = q →
      g.board.get x.1 x.2 = q := by
    intro x hx
    rw [mark_get] at hx
    by_cases hh : rc = x
    · rw [if_pos hh] at hx; exact absurd hx hpq
    · rw [if_neg hh] at hx; exact hx
  exact ⟨key _ h.1, key _ h.2.1, key _ h.2.2⟩

theorem fastSafe_eq : ∀ (f : Nat) (g : Game) (me opp : Char) (M O : Nat) (myTurn : Bool),
    WF g me opp → Rep g me M → Rep g opp O →
    (if myTurn then ¬ ∃ l ∈ lines, lineOf g l me else ¬ ∃ l ∈ lines, lineOf g l opp) →
    fastSafe f M O (countMarks g) myTurn = safeFor f me opp g myTurn := by
  intro f
  induction f with
  | zero => intro g me opp M O myTurn _ _ _ _; rfl
  | succ n ih =>
    intro g me opp M O myTurn hwf hM hO hinv
    have hmeopp : me ≠ opp := hwf.ne
    have hble : Nat.ble 9 (countMarks g) = true ↔ g.moves ≥ 9 := by
      rw [Nat.ble_eq, hwf.moves]; omega
    have hsp_me : (' ' : Char) ≠ me := fun h => hwf.bot_ne h.symm
    have hsp_opp : (' ' : Char) ≠ opp := fun h => hwf.human_ne h.symm
    have hD_me : ('D' : Char) ≠ me := fun h => hwf.bot_ne_D h.symm
    have hD_opp : ('D' : Char) ≠ opp := fun h => hwf.human_ne_D h.symm
    cases myTurn with
    | true =>
      simp only [if_true] at hinv
      unfold fastSafe safeFor
      simp only [if_true]
      by_cases hline : lineIn O = true
      · rw [if_pos hline]
        have hs := status_of_line hwf (hO.lineIn_iff.1 hline) hinv
        rw [hs, if_neg (Ne.symm hmeopp), if_pos rfl]
      · rw [if_neg hline]
        have hnl : ¬ ∃ l ∈ lines, lineOf g l opp := fun h => hline (hO.lineIn_iff.2 h)
        have hs := check_status_noLine g (no_line hwf hnl hinv)
        by_cases hfull : g.moves ≥ 9
        · rw [if_pos (hble.2 hfull)]
          rw [if_pos hfull] at hs
          rw [hs, if_neg hD_me, if_neg hD_opp, if_pos rfl]
        · rw [if_neg (fun h => hfull (hble.1 h))]
          rw [if_neg hfull] at hs
          rw [hs, if_neg hsp_me, if_neg hsp_opp, if_neg (by decide)]
          rw [Bool.eq_iff_iff, anyFree_eq_true, List.any_eq_true, searchBits_eq]
          constructor
          · rintro ⟨b, hb, hfree, hchild⟩
            obtain ⟨rc, _, rfl⟩ := List.mem_map.1 hb
            have hblank := (free_iff_blank hwf hM hO rc).1 hfree
            refine ⟨rc, (mem_emptyCells g rc).2 hblank, ?_⟩
            have hcm := countMarks_mark g rc me hblank hwf.bot_ne
            have := ih (g.mark rc me) me opp (M ||| cellBit rc) O false
              (hwf.mark_bot rc hblank) (hM.mark_self rc)
              (hO.mark_other rc hmeopp (by rw [hblank]; exact hsp_opp))
              (by
                simp only [Bool.false_eq_true, if_false]
                rintro ⟨l, hl, hlo⟩
                exact hnl ⟨l, hl, lineOf_mark_other rc hmeopp hlo⟩)
            rw [hcm] at this
            rw [← this]
            exact hchild
          · rintro ⟨rc, hrc, hchild⟩
            have hblank := (mem_emptyCells g rc).1 hrc
            refine ⟨cellBit rc, List.mem_map.2 ⟨rc, mem_searchOrder rc, rfl⟩,
              (free_iff_blank hwf hM hO rc).2 hblank, ?_⟩
            have hcm := countMarks_mark g rc me hblank hwf.bot_ne
            have := ih (g.mark rc me) me opp (M ||| cellBit rc) O false
              (hwf.mark_bot rc hblank) (hM.mark_self rc)
              (hO.mark_other rc hmeopp (by rw [hblank]; exact hsp_opp))
              (by
                simp only [Bool.false_eq_true, if_false]
                rintro ⟨l, hl, hlo⟩
                exact hnl ⟨l, hl, lineOf_mark_other rc hmeopp hlo⟩)
            rw [hcm] at this
            rw [this]
            exact hchild
    | false =>
      simp only [Bool.false_eq_true, if_false] at hinv
      unfold fastSafe safeFor
      simp only [Bool.false_eq_true, if_false]
      by_cases hline : lineIn M = true
      · rw [if_pos hline]
        have hs := status_of_line hwf.swap (hM.lineIn_iff.1 hline) hinv
        rw [hs, if_pos rfl]
      · rw [if_neg hline]
        have hnl : ¬ ∃ l ∈ lines, lineOf g l me := fun h => hline (hM.lineIn_iff.2 h)
        have hs := check_status_noLine g (no_line hwf hinv hnl)
        by_cases hfull : g.moves ≥ 9
        · rw [if_pos (hble.2 hfull)]
          rw [if_pos hfull] at hs
          rw [hs, if_neg hD_me, if_neg hD_opp, if_pos rfl]
        · rw [if_neg (fun h => hfull (hble.1 h))]
          rw [if_neg hfull] at hs
          rw [hs, if_neg hsp_me, if_neg hsp_opp, if_neg (by decide)]
          rw [Bool.eq_iff_iff, allFree_eq_true, List.all_eq_true, searchBits_eq]
          have hkid : ∀ rc : Fin 3 × Fin 3, g.board.get rc.1 rc.2 = ' ' →
              fastSafe n M (O ||| cellBit rc) (countMarks g + 1) true =
                safeFor n me opp (g.mark rc opp) true := by
            intro rc hblank
            have hcm := countMarks_mark g rc opp hblank hwf.human_ne
            have := ih (g.mark rc opp) me opp M (O ||| cellBit rc) true
              (hwf.mark_human rc hblank)
              (hM.mark_other rc (Ne.symm hmeopp) (by rw [hblank]; exact hsp_me))
              (hO.mark_self rc)
              (by
                simp only [if_true]
                rintro ⟨l, hl, hlo⟩
                exact hnl ⟨l, hl, lineOf_mark_other rc (Ne.symm hmeopp) hlo⟩)
            rw [hcm] at this
            exact this
          constructor
          · intro h rc hrc
            have hblank := (mem_emptyCells g rc).1 hrc
            rw [← hkid rc hblank]
            exact h (cellBit rc) (List.mem_map.2 ⟨rc, mem_searchOrder rc, rfl⟩)
              ((free_iff_blank hwf hM hO rc).2 hblank)
          · intro h b hb hfree
            obtain ⟨rc, _, rfl⟩ := List.mem_map.1 hb
            have hblank := (free_iff_blank hwf hM hO rc).1 hfree
            rw [hkid rc hblank]
            exact h rc ((mem_emptyCells g rc).2 hblank)

/-! ## Consequences for the choice of the move -/

theorem safeFor_mono : ∀ (n : Nat) (me opp : Char) (g : Game) (t : Bool),
    safeFor n me opp g t = true → safeFor (n + 1) me opp g t = true := by
  intro n
  induction n with
  | zero => intro me opp g t h; simp [safeFor] at h
  | succ n ih =>
    intro me opp g t h
    unfold safeFor at h ⊢
    simp only at h ⊢
    by_cases h1 : check_status g = me
    · rw [if_pos h1]
    rw [if_neg h1] at h ⊢
    by_cases h2 : check_status g = opp
    · rw [if_pos h2] at h; exact absurd h (by simp)
    rw [if_neg h2] at h ⊢
    by_cases h3 : check_status g = 'D'
    · rw [if_pos h3]
    rw [if_neg h3] at h ⊢
    cases t with
    | true =>
      simp only [if_true] at h ⊢
      rw [List.any_eq_true] at h ⊢
      obtain ⟨x, hx, hs⟩ := h
      exact ⟨x, hx, ih _ _ _ _ hs⟩
    | false =>
      simp only [Bool.false_eq_true, if_false] at h ⊢
      rw [List.all_eq_true] at h ⊢
      intro x hx
      exact ih _ _ _ _ (h x hx)

theorem safeFor_mono_le (n m : Nat) (hnm : n ≤ m) (me opp : Char) (g : Game) (t : Bool)
    (h : safeFor n me opp g t = true) : safeFor m me opp g t = true := by
  induction hnm with
  | refl => exact h
  | step _ ih => exact safeFor_mono _ _ _ _ _ ih

/-- When the game continues and `opp` is to move, `me` stays safe after every reply. -/
theorem safeFor_all (n : Nat) (me opp : Char) (g : Game) (hme : me ≠ ' ') (hopp : opp ≠ ' ')
    (hs : check_status g = ' ') (h : safeFor (n + 1) me opp g false = true)
    (rc : Fin 3 × Fin 3) (hb : g.board.get rc.1 rc.2 = ' ') :
    safeFor n me opp (g.mark rc opp) true = true := by
  unfold safeFor at h
  simp only [hs, if_neg (Ne.symm hme), if_neg (Ne.symm hopp), Bool.false_eq_true, if_false] at h
  rw [if_neg (by decide), List.all_eq_true] at h
  exact h rc ((mem_emptyCells g rc).2 hb)

/-- When the game continues and `me` is to move, some move keeps `me` safe. -/
theorem safeFor_any (n : Nat) (me opp : Char) (g : Game) (hme : me ≠ ' ') (hopp : opp ≠ ' ')
    (hs : check_status g = ' ') (h : safeFor (n + 1) me opp g true = true) :
    ∃ rc : Fin 3 × Fin 3, g.board.get rc.1 rc.2 = ' ' ∧
      safeFor n me opp (g.mark rc me) false = true := by
  unfold safeFor at h
  simp only [hs, if_neg (Ne.symm hme), if_neg (Ne.symm hopp), if_true] at h
  rw [if_neg (by decide), List.any_eq_true] at h
  obtain ⟨rc, hrc, hsafe⟩ := h
  exact ⟨rc, (mem_emptyCells g rc).1 hrc, hsafe⟩

theorem safeFor_status (n : Nat) (me opp : Char) (g : Game) (t : Bool) (hne : me ≠ opp)
    (h : safeFor n me opp g t = true) : check_status g ≠ opp := by
  cases n with
  | zero => simp [safeFor] at h
  | succ n =>
    intro hs
    unfold safeFor at h
    simp only [hs, if_neg (Ne.symm hne), if_true] at h
    exact absurd h (by simp)

/-- A move that keeps `bot` safe has a non-negative value; so the move chosen by
`best_move_minimax` keeps `bot` safe whenever some move does. -/
theorem best_move_safe (fuel : Nat) (g : Game) (bot human : Char) (hwf : WF g bot human)
    (hfuel : emptyCount g ≤ fuel) (hs : check_status g = ' ')
    (h : safeFor (fuel + 1) bot human g true = true) :
    ∃ rc : Fin 3 × Fin 3, best_move_minimax fuel g bot human = some (cellCoords rc, g) ∧
      g.board.get rc.1 rc.2 = ' ' ∧ safeFor fuel bot human (g.mark rc bot) false = true := by
  obtain ⟨w, hwb, hw⟩ := safeFor_any fuel bot human g hwf.bot_ne hwf.human_ne hs h
  obtain ⟨rc, val, hbest, _, hrcb, hall⟩ := best_move_spec fuel g bot human hwf hfuel ⟨w, hwb⟩
  refine ⟨rc, hbest, hrcb, ?_⟩
  have he := emptyCount_le g
  have hcw := emptyCount_mark g w bot hwb hwf.bot_ne
  have hcr := emptyCount_mark g rc bot hrcb hwf.bot_ne
  have h0 : 0 ≤ val w := (safeFor_bot_iff fuel (g.mark w bot) bot human 0 false (val w)
    (hwf.mark_bot w hwb) (hall w hwb).2.1 (le_refl _) (by omega)).2 hw
  have hle := (hall w hwb).2.2.1
  exact (safeFor_bot_iff fuel (g.mark rc bot) bot human 0 false (val rc)
    (hwf.mark_bot rc hrcb) (hall rc hrcb).2.1 (le_refl _) (by omega)).1 (by omega)

/-- The choice of `best_move_minimax` in a drawn position: when `human` is safe
whatever `bot` plays, the cell `c` keeps `bot` safe and every empty cell before `c`
loses, `c` is the cell returned and its value is 0. -/
theorem best_move_draw (fuel : Nat) (g : Game) (bot human : Char) (c : Fin 3 × Fin 3)
    (hwf : WF g bot human) (hfuel : emptyCount g ≤ fuel) (hs : check_status g = ' ')
    (hc : g.board.get c.1 c.2 = ' ')
    (h1 : safeFor (fuel + 1) human bot g false = true)
    (h2 : safeFor fuel bot human (g.mark c bot) false = true)
    (h3 : ∀ x : Fin 3 × Fin 3, g.board.get x.1 x.2 = ' ' → cellIndex x < cellIndex c →
      safeFor fuel bot human (g.mark x bot) false = false) :
    best_move_minimax fuel g bot human = some (cellCoords c, g) ∧
      minimax fuel (g.mark c bot) bot human 0 (-1000) 1000 0 = some (0, g.mark c bot) := by
  obtain ⟨rc, val, hbest, _, hrcb, hall⟩ := best_move_spec fuel g bot human hwf hfuel ⟨c, hc⟩
  have he := emptyCount_le g
  have hle0 : ∀ x : Fin 3 × Fin 3, g.board.get x.1 x.2 = ' ' → val x ≤ 0 := by
    intro x hx
    have hcx := emptyCount_mark g x bot hx hwf.bot_ne
    exact (safeFor_human_iff fuel (g.mark x bot) bot human 0 false (val x)
      (hwf.mark_bot x hx) (hall x hx).2.1 (le_refl _) (by omega)).2
      (safeFor_all fuel human bot g hwf.human_ne hwf.bot_ne hs h1 x hx)
  have hiff : ∀ x : Fin 3 × Fin 3, g.board.get x.1 x.2 = ' ' →
      (0 ≤ val x ↔ safeFor fuel bot human (g.mark x bot) false = true) := by
    intro x hx
    have hcx := emptyCount_mark g x bot hx hwf.bot_ne
    exact safeFor_bot_iff fuel (g.mark x bot) bot human 0 false (val x)
      (hwf.mark_bot x hx) (hall x hx).2.1 (le_refl _) (by omega)
  have hc0 : val c = 0 := le_antisymm (hle0 c hc) ((hiff c hc).2 h2)
  have hrc0 : val rc = 0 := le_antisymm (hle0 rc hrcb) (by have := (hall c hc).2.2.1; omega)
  have heq : rc = c := by
    apply cellIndex_inj
    rcases Nat.lt_trichotomy (cellIndex rc) (cellIndex c) with hlt | heq | hgt
    · have hf := h3 rc hrcb hlt
      have := (hiff rc hrcb).1 (by omega)
      rw [hf] at this
      exact absurd this (by simp)
    · exact heq
    · have := (hall c hc).2.2.2 hgt
      omega
  subst heq
  refine ⟨hbest, ?_⟩
  have := (hall rc hc).1
  rw [hc0] at this
  exact this

/-! ## More fuel does not change a result -/

theorem maxLoop_mono (child child1 : Game → Int → Option (Int × Game)) (bot : Char)
    (beta : Int) (hchild : ∀ g a r, child g a = some r → child1 g a = some r) :
    ∀ (l : List (Fin 3 × Fin 3)) (g : Game) (best alpha : Int) (r : Int × Game),
      maxLoop child bot beta l g best alpha = some r →
      maxLoop child1 bot beta l g best alpha = some r := by
  intro l
  induction l with
  | nil => intro g best alpha r h; exact h
  | cons rc rest ih =>
    intro g best alpha r h
    unfold maxLoop at h ⊢
    by_cases hb : g.board.get rc.1 rc.2 = ' '
    · rw [if_pos hb] at h ⊢
      cases hc : child (g.mark rc bot) alpha with
      | none => rw [hc] at h; exact absurd h (by simp)
      | some p =>
        rw [hc] at h
        rw [hchild _ _ _ hc]
        simp only at h ⊢
        by_cases hcut : beta ≤ (if p.1 > alpha then p.1 else alpha)
        · rw [if_pos hcut] at h ⊢; exact h
        · rw [if_neg hcut] at h ⊢; exact ih _ _ _ _ h
    · rw [if_neg hb] at h ⊢
      exact ih _ _ _ _ h

theorem minLoop_mono (child child1 : Game → Int → Option (Int × Game)) (human : Char)
    (alpha : Int) (hchild : ∀ g b r, child g b = some r → child1 g b = some r) :
    ∀ (l : List (Fin 3 × Fin 3)) (g : Game) (best beta : Int) (r : Int × Game),
      minLoop child human alpha l g best beta = some r →
      minLoop child1 human alpha l g best beta = some r := by
  intro l
  induction l with
  | nil => intro g best beta r h; exact h
  | cons rc rest ih =>
    intro g best beta r h
    unfold minLoop at h ⊢
    by_cases hb : g.board.get rc.1 rc.2 = ' '
    · rw [if_pos hb] at h ⊢
      cases hc : child (g.mark rc human) beta with
      | none => rw [hc] at h; exact absurd h (by simp)
      | some p =>
        rw [hc] at h
        rw [hchild _ _ _ hc]
        simp only at h ⊢
        by_cases hcut : (if p.1 < beta then p.1 else beta) ≤ alpha
        · rw [if_pos hcut] at h ⊢; exact h
        · rw [if_neg hcut] at h ⊢; exact ih _ _ _ _ h
    · rw [if_neg hb] at h ⊢
      exact ih _ _ _ _ h

theorem minimax_mono : ∀ (n : Nat) (g : Game) (bot human : Char)
    (depth alpha beta maximizing : Int) (r : Int × Game),
    minimax n g bot human depth alpha beta maximizing = some r →
    minimax (n + 1) g bot human depth alpha beta maximizing = some r := by
  intro n
  induction n with
  | zero => intro g bot human depth alpha beta maximizing r h; simp [minimax] at h
  | succ n ih =>
    intro g bot human depth alpha beta maximizing r h
    unfold minimax at h ⊢
    simp only at h ⊢
    by_cases h1 : check_status g = bot
    · rw [if_pos h1] at h ⊢; exact h
    rw [if_neg h1] at h ⊢
    by_cases h2 : check_status g = human
    · rw [if_pos h2] at h ⊢; exact h
    rw [if_neg h2] at h ⊢
    by_cases h3 : check_status g = 'D'
    · rw [if_pos h3] at h ⊢; exact h
    rw [if_neg h3] at h ⊢
    by_cases h4 : maximizing ≠ 0
    · rw [if_pos h4] at h ⊢
      exact maxLoop_mono _ _ bot beta (fun g1 a r1 hr => ih _ _ _ _ _ _ _ _ hr) _ _ _ _ _ h
    · rw [if_neg h4] at h ⊢
      exact minLoop_mono _ _ human alpha (fun g1 b r1 hr => ih _ _ _ _ _ _ _ _ hr) _ _ _ _ _ h

theorem minimax_mono_le (n m : Nat) (hnm : n ≤ m) (g : Game) (bot human : Char)
    (depth alpha beta maximizing : Int) (r : Int × Game)
    (h : minimax n g bot human depth alpha beta maximizing = some r) :
    minimax m g bot human depth alpha beta maximizing = some r := by
  induction hnm with
  | refl => exact h
  | step _ ih => exact minimax_mono _ _ _ _ _ _ _ _ _ ih

theorem bestLoop_mono (n m : Nat) (hnm : n ≤ m) (bot human : Char) :
    ∀ (l : List (Fin 3 × Fin 3)) (g : Game) (bv : Int) (best : Int × Int)
      (r : (Int × Int) × Game),
      bestLoop n bot human l g bv best = some r → bestLoop m bot human l g bv best = some r := by
  intro l
  induction l with
  | nil => intro g bv best r h; exact h
  | cons rc rest ih =>
    intro g bv best r h
    unfold bestLoop at h ⊢
    by_cases hb : g.board.get rc.1 rc.2 = ' '
    · rw [if_pos hb] at h ⊢
      cases hc : minimax n (g.mark rc bot) bot human 0 (-1000) 1000 0 with
      | none => rw [hc] at h; exact absurd h (by simp)
      | some p =>
        rw [hc] at h
        rw [minimax_mono_le n m hnm _ _ _ _ _ _ _ _ hc]
        simp only at h ⊢
        by_cases hgt : p.1 > bv
        · rw [if_pos hgt] at h ⊢; exact ih _ _ _ _ h
        · rw [if_neg hgt] at h ⊢; exact ih _ _ _ _ h
    · rw [if_neg hb] at h ⊢
      exact ih _ _ _ _ h

theorem best_move_mono (n m : Nat) (hnm : n ≤ m) (g : Game) (bot human : Char)
    (r : (Int × Int) × Game) (h : best_move_minimax n g bot human = some r) :
    best_move_minimax m g bot human = some r :=
  bestLoop_mono n m hnm bot human _ _ _ _ _ h

/-! ## Certificates checked by evaluation -/

theorem drawCheck_of {g : Game} {bot human : Char} {mB mH : Nat} {c : Fin 3 × Fin 3}
    (h1 : posCheck g bot human mB mH = true) (h2 : g.board.get c.1 c.2 = ' ')
    (h3 : fastSafe 10 mH mB (countMarks g) false = true)
    (h4 : fastSafe 10 (mB ||| cellBit c) mH (countMarks g + 1) false = true)
    (h5 : cells.all (fun x =>
      !(decide (g.board.get x.1 x.2 = ' ') && decide (cellIndex x < cellIndex c)) ||
      !fastSafe 10 (mB ||| cellBit x) mH (countMarks g + 1) false) = true) :
    drawCheck g bot human mB mH c = true := by
  unfold drawCheck
  rw [h1, h3, h4, h5]
  simp [h2]

theorem posCheck_sound {g : Game} {bot human : Char} {mB mH : Nat}
    (h : posCheck g bot human mB mH = true) :
    WF g bot human ∧ Rep g bot mB ∧ Rep g human mH ∧ check_status g = ' ' := by
  unfold posCheck at h
  simp only [Bool.and_eq_true, decide_eq_true_eq, List.all_eq_true, beq_iff_eq] at h
  obtain ⟨⟨⟨⟨⟨h1, h2⟩, h3⟩, h4⟩, h5⟩, h6⟩ := h
  refine ⟨⟨fun rc => (h6 rc (mem_cells rc)).1.1, h3, h5⟩, ⟨h1, fun rc => ?_⟩,
    ⟨h2, fun rc => ?_⟩, h4⟩
  · exact (h6 rc (mem_cells rc)).1.2
  · exact (h6 rc (mem_cells rc)).2

theorem no_lines_of_status {g : Game} (hs : check_status g = ' ') (p : Char) (hp : p ≠ ' ') :
    ¬ ∃ l ∈ lines, lineOf g l p := by
  rintro ⟨l, hl, hlo⟩
  obtain ⟨l1, _, hc, he⟩ := check_status_hasLine g ⟨l, hl, lineOf_complete hlo hp⟩
  exact hc.1 (he.symm.trans hs)

theorem safeFor_eq_fast {g : Game} {me opp : Char} {M O : Nat} (hwf : WF g me opp)
    (hM : Rep g me M) (hO : Rep g opp O) (hs : check_status g = ' ') (f : Nat) (t : Bool) :
    safeFor f me opp g t = fastSafe f M O (countMarks g) t := by
  symm
  apply fastSafe_eq f g me opp M O t hwf hM hO
  cases t with
  | true => simpa using no_lines_of_status hs me hwf.bot_ne
  | false => simpa using no_lines_of_status hs opp hwf.human_ne

theorem safeFor_child_eq_fast {g : Game} {me opp : Char} {M O : Nat} (hwf : WF g me opp)
    (hM : Rep g me M) (hO : Rep g opp O) (hs : check_status g = ' ') (f : Nat)
    (x : Fin 3 × Fin 3) (hx : g.board.get x.1 x.2 = ' ') :
    safeFor f me opp (g.mark x me) false =
      fastSafe f (M ||| cellBit x) O (countMarks g + 1) false := by
  have hcm := countMarks_mark g x me hx hwf.bot_ne
  have hsp : (' ' : Char) ≠ opp := fun h => hwf.human_ne h.symm
  rw [← hcm]
  symm
  apply fastSafe_eq f (g.mark x me) me opp _ O false (hwf.mark_bot x hx) (hM.mark_self x)
    (hO.mark_other x hwf.ne (by rw [hx]; exact hsp))
  simp only [Bool.false_eq_true, if_false]
  rintro ⟨l, hl, hlo⟩
  exact no_lines_of_status hs opp hwf.human_ne ⟨l, hl, lineOf_mark_other x hwf.ne hlo⟩

theorem best_move_of_drawCheck {g : Game} {bot human : Char} {mB mH : Nat}
    {c : Fin 3 × Fin 3} (h : drawCheck g bot human mB mH c = true) (fuel : Nat)
    (hfuel : 10 ≤ fuel) :
    best_move_minimax fuel g bot human = some (cellCoords c, g) ∧
      minimax fuel (g.mark c bot) bot human 0 (-1000) 1000 0 = some (0, g.mark c bot) := by
  unfold drawCheck at h
  simp only [Bool.and_eq_true, decide_eq_true_eq, List.all_eq_true, Bool.or_eq_true,
    Bool.not_eq_true', Bool.and_eq_false_iff, decide_eq_false_iff_not] at h
  obtain ⟨⟨⟨⟨hpos, hc⟩, e1⟩, e2⟩, e3⟩ := h
  obtain ⟨hwf, hB, hH, hs⟩ := posCheck_sound hpos
  have he := emptyCount_le g
  have h1 : safeFor (10 + 1) human bot g false = true := by
    apply safeFor_mono
    rw [safeFor_eq_fast hwf.swap hH hB hs]
    exact e1
  have h2 : safeFor 10 bot human (g.mark c bot) false = true := by
    rw [safeFor_child_eq_fast hwf hB hH hs 10 c hc]
    exact e2
  have h3 : ∀ x : Fin 3 × Fin 3, g.board.get x.1 x.2 = ' ' → cellIndex x < cellIndex c →
      safeFor 10 bot human (g.mark x bot) false = false := by
    intro x hx hlt
    rw [safeFor_child_eq_fast hwf hB hH hs 10 x hx]
    rcases e3 x (mem_cells x) with (h | h) | h
    · exact absurd hx h
    · exact absurd hlt h
    · exact h
  obtain ⟨r1, r2⟩ := best_move_draw 10 g bot human c hwf (by omega) hs hc h1 h2 h3
  exact ⟨best_move_mono 10 fuel hfuel _ _ _ _ r1, minimax_mono_le 10 fuel hfuel _ _ _ _ _ _ _ _ r2⟩

/-! ## The turn loop against the unbeatable bot -/

theorem toIdx_coe (i : Fin 3) : toIdx (i.val : Int) = i := by
  apply Fin.ext
  simp only [toIdx, Int.toNat_ofNat]
  exact Nat.mod_eq_of_lt i.isLt

theorem bot_make_move_hard (fuel : Nat) (g : Game) (m : Mode) (rnd : Nat)
    (c : Fin 3 × Fin 3) (hhard : m.bot_hard ≠ 0)
    (h : best_move_minimax fuel g m.bot_symbol m.human_symbol = some (cellCoords c, g)) :
    bot_make_move fuel g m rnd = some (g.mark c m.bot_symbol) := by
  unfold bot_make_move
  simp only [if_pos hhard, h, cellCoords]
  have hne : ((c.1.val : Nat) : Int) ≠ -1 := by omega
  rw [if_pos hne, toIdx_coe, toIdx_coe]
  rfl

theorem check_status_current (g : Game) (c : Char) :
    check_status { g with current := c } = check_status g := rfl

theorem mark_current (g : Game) (c : Char) (rc : Fin 3 × Fin 3) (s : Char) :
    ({ g with current := c } : Game).mark rc s = { g.mark rc s with current := c } := rfl

theorem safeFor_current : ∀ (n : Nat) (me opp : Char) (g : Game) (c : Char) (t : Bool),
    safeFor n me opp { g with current := c } t = safeFor n me opp g t := by
  intro n
  induction n with
  | zero => intro me opp g c t; rfl
  | succ n ih =>
    intro me opp g c t
    unfold safeFor
    simp only [check_status_current, mark_current, ih]
    rfl

theorem WF_current {g : Game} {bot human : Char} (h : WF g bot human) (c : Char) :
    WF { g with current := c } bot human :=
  ⟨h.cells, h.moves, h.syms⟩

/-- One iteration of the turn loop. -/
theorem turnLoop_succ (fuel : Nat) (m : Mode) (n : Nat) (g : Game)
    (typed : List (Option (Int × Int))) (rnds : List Nat) :
    turnLoop fuel m (n + 1) g typed rnds =
      if check_status g = 'X' ∨ check_status g = 'O' then some g
      else if check_status g = 'D' then some g
      else if m.vs_bot = 0 ∨ g.current = m.human_symbol then
        match typed with
        | [] => some g
        | none :: rest => turnLoop fuel m n g rest rnds
        | some (row, col) :: rest =>
          match place_if_empty g row col with
          | (ok, g1) =>
            if ok = 0 then turnLoop fuel m n g1 rest rnds
            else turnLoop fuel m n (swap_player g1) rest rnds
      else
        match bot_make_move fuel g m (rnds.headD 0) with
        | none => none
        | some g1 => turnLoop fuel m n (swap_player g1) typed rnds.tail :=
  rfl

/-- The invariant of the turn loop against the hard bot: the position is well formed,
it is the turn of one of the two players, and the bot can avoid losing from it. -/
theorem turnLoop_safe (F : Nat) (bot human : Char) (hF : 9 ≤ F) :
    ∀ (n : Nat) (g : Game) (typed : List (Option (Int × Int))) (rnds : List Nat),
      WF g bot human →
      ((g.current = bot ∧ safeFor (F + 1) bot human g true = true) ∨
        (g.current = human ∧ safeFor (F + 1) bot human g false = true)) →
      ∃ g1, turnLoop F ⟨1, human, bot, 1⟩ n g typed rnds = some g1 ∧
        check_status g1 ≠ human := by
  intro n
  induction n with
  | zero =>
    intro g typed rnds hwf hinv
    refine ⟨g, rfl, ?_⟩
    rcases hinv with ⟨_, h⟩ | ⟨_, h⟩ <;> exact safeFor_status _ _ _ _ _ hwf.ne h
  | succ n ih =>
    intro g typed rnds hwf hinv
    have hstat : check_status g ≠ human := by
      rcases hinv with ⟨_, h⟩ | ⟨_, h⟩ <;> exact safeFor_status _ _ _ _ _ hwf.ne h
    have he := emptyCount_le g
    rw [turnLoop_succ]
    simp only
    by_cases h1 : check_status g = 'X' ∨ check_status g = 'O'
    · rw [if_pos h1]; exact ⟨g, rfl, hstat⟩
    rw [if_neg h1]
    by_cases h2 : check_status g = 'D'
    · rw [if_pos h2]; exact ⟨g, rfl, hstat⟩
    rw [if_neg h2]
    have hnb : check_status g ≠ bot := by
      intro hh
      rcases hwf.syms with ⟨rfl, _⟩ | ⟨rfl, _⟩
      · exact h1 (Or.inl hh)
      · exact h1 (Or.inr hh)
    obtain ⟨hs, _, _, _⟩ := hwf.nonterminal hnb hstat h2
    by_cases h3 : (1 : Int) = 0 ∨ g.current = human
    · rw [if_pos h3]
      have hcur : g.current = human := by
        rcases h3 with h | h
        · exact absurd h (by norm_num)
        · exact h
      have hsafe : safeFor (F + 1) bot human g false = true := by
        rcases hinv with ⟨hc, _⟩ | ⟨_, h⟩
        · exact absurd (hc.symm.trans hcur) hwf.ne
        · exact h
      cases typed with
      | nil => exact ⟨g, rfl, hstat⟩
      | cons line rest =>
        cases line with
        | none => exact ih g rest rnds hwf hinv
        | some p =>
          obtain ⟨row, col⟩ := p
          simp only
          unfold place_if_empty
          by_cases hr : row < 0 ∨ row ≥ 3 ∨ col < 0 ∨ col ≥ 3
          · rw [if_pos hr]
            simp only [if_true]
            exact ih g rest rnds hwf hinv
          · rw [if_neg hr]
            by_cases hocc : g.board.get (toIdx row) (toIdx col) ≠ ' '
            · rw [if_pos hocc]
              simp only [if_true]
              exact ih g rest rnds hwf hinv
            · rw [if_neg hocc]
              simp only [one_ne_zero, if_false]
              have hblank : g.board.get (toIdx row, toIdx col).1 (toIdx row, toIdx col).2 = ' ' :=
                not_not.1 hocc
              have hw : wrapInt (g.moves + 1) = g.moves + 1 := by
                have hm := hwf.moves
                have hc := emptyCount_add_countMarks g
                exact wrapInt_eq _ (by omega) (by omega)
              have hg1 : (⟨g.board.set (toIdx row) (toIdx col) g.current, g.current,
                  wrapInt (g.moves + 1)⟩ : Game) = g.mark (toIdx row, toIdx col) g.current := by
                rw [hw]
                rfl
              rw [hg1, hcur]
              apply ih _ rest rnds (WF_current (hwf.mark_human _ hblank) _)
              left
              refine ⟨?_, ?_⟩
              · show (if (g.mark (toIdx row, toIdx col) human).current = 'X' then 'O' else 'X')
                  = bot
                have : (g.mark (toIdx row, toIdx col) human).current = human := hcur
                rw [this]
                rcases hwf.syms with ⟨rfl, rfl⟩ | ⟨rfl, rfl⟩ <;> decide
              · rw [safeFor_current]
                apply safeFor_mono
                exact safeFor_all F bot human g hwf.bot_ne hwf.human_ne hs hsafe _ hblank
    · rw [if_neg h3]
      have hcur : g.current = bot := by
        rcases hinv with ⟨hc, _⟩ | ⟨hc, _⟩
        · exact hc
        · exact absurd (Or.inr hc) h3
      have hsafe : safeFor (F + 1) bot human g true = true := by
        rcases hinv with ⟨_, h⟩ | ⟨hc, _⟩
        · exact h
        · exact absurd (Or.inr hc) h3
      obtain ⟨rc, hbest, hrcb, hnext⟩ := best_move_safe F g bot human hwf (by omega) hs hsafe
      rw [bot_make_move_hard F g ⟨1, human, bot, 1⟩ (rnds.headD 0) rc (by norm_num) hbest]
      simp only
      apply ih _ typed rnds.tail (WF_current (hwf.mark_bot _ hrcb) _)
      right
      refine ⟨?_, ?_⟩
      · show (if (g.mark rc bot).current = 'X' then 'O' else 'X') = human
        have : (g.mark rc bot).current = bot := hcur
        rw [this]
        rcases hwf.syms with ⟨rfl, rfl⟩ | ⟨rfl, rfl⟩ <;> decide
      · rw [safeFor_current]
        exact safeFor_mono _ _ _ _ _ hnext

/-! ## Concrete positions -/

set_option maxRecDepth 1000000 in
theorem start_posCheck : posCheck startGame 'X' 'O' 0 0 = true := by decide!

set_option maxRecDepth 1000000 in
theorem first_safe : fastSafe 10 0 0 (countMarks startGame) true = true := by decide!

set_option maxRecDepth 1000000 in
theorem second_safe : fastSafe 10 0 0 (countMarks startGame) false = true := by decide!

theorem start_safe_first : safeFor 10 'X' 'O' startGame true = true := by
  obtain ⟨hwf, hB, hH, hs⟩ := posCheck_sound start_posCheck
  rw [safeFor_eq_fast hwf hB hH hs]
  exact first_safe

theorem start_safe_second : safeFor 10 'O' 'X' startGame false = true := by
  obtain ⟨hwf, hB, hH, hs⟩ := posCheck_sound start_posCheck
  rw [safeFor_eq_fast hwf.swap hH hB hs]
  exact second_safe

set_option maxRecDepth 1000000 in
theorem start_corner_safe :
    fastSafe 10 (0 ||| cellBit (0, 0)) 0 (countMarks startGame + 1) false = true := by decide!

theorem start_drawCheck : drawCheck startGame 'X' 'O' 0 0 (0, 0) = true :=
  drawCheck_of start_posCheck (by decide) second_safe start_corner_safe (by decide)

theorem move_draw_value (fuel : Nat) (g : Game) (bot human : Char) (c : Fin 3 × Fin 3)
    (hwf : WF g bot human) (hfuel : emptyCount g ≤ fuel) (hs : check_status g = ' ')
    (hc : g.board.get c.1 c.2 = ' ')
    (h1 : safeFor (fuel + 1) human bot g false = true)
    (h2 : safeFor fuel bot human (g.mark c bot) false = true) :
    minimax fuel (g.mark c bot) bot human 0 (-1000) 1000 0 = some (0, g.mark c bot) := by
  obtain ⟨v, hv, hbf, _⟩ := move_value fuel g bot human hwf hfuel c hc
  have he := emptyCount_le g
  have hcc := emptyCount_mark g c bot hc hwf.bot_ne
  have hle : v ≤ 0 := (safeFor_human_iff fuel (g.mark c bot) bot human 0 false v
    (hwf.mark_bot c hc) hbf (le_refl _) (by omega)).2
    (safeFor_all fuel human bot g hwf.human_ne hwf.bot_ne hs h1 c hc)
  have hge : 0 ≤ v := (safeFor_bot_iff fuel (g.mark c bot) bot human 0 false v
    (hwf.mark_bot c hc) hbf (le_refl _) (by omega)).2 h2
  have : v = 0 := le_antisymm hle hge
  rw [this] at hv
  exact hv

set_option maxRecDepth 1000000 in
theorem centre_safe :
    fastSafe 10 (0 ||| cellBit (1, 1)) 0 (countMarks startGame + 1) false = true := by decide!

/-- On the empty board every move the search compares ties with the centre: the
moves at `(0, 0)` and at `(1, 1)` both have value 0, and `(0, 0)` is returned. -/
theorem best_move_start (fuel : Nat) (hfuel : 10 ≤ fuel) :
    best_move_minimax fuel startGame 'X' 'O' = some ((0, 0), startGame) ∧
    minimax fuel (startGame.mark (0, 0) 'X') 'X' 'O' 0 (-1000) 1000 0 =
      some (0, startGame.mark (0, 0) 'X') ∧
    minimax fuel (startGame.mark (1, 1) 'X') 'X' 'O' 0 (-1000) 1000 0 =
      some (0, startGame.mark (1, 1) 'X') := by
  obtain ⟨h1, h2⟩ := best_move_of_drawCheck start_drawCheck fuel hfuel
  refine ⟨h1, h2, ?_⟩
  obtain ⟨hwf, hB, hH, hs⟩ := posCheck_sound start_posCheck
  apply minimax_mono_le 10 fuel hfuel
  apply move_draw_value 10 startGame 'X' 'O' (1, 1) hwf (by have := emptyCount_le startGame; omega)
    hs (by decide)
  · exact safeFor_mono _ _ _ _ _ start_safe_second
  · rw [safeFor_child_eq_fast hwf hB hH hs 10 (1, 1) (by decide)]
    exact centre_safe

/-! ## The hard bot never loses -/

theorem reset_board_eq (g : Game) : reset_board g = startGame := rfl

theorem hard_bot_safe (fuel n : Nat) (bot human : Char) (g0 : Game)
    (typed : List (Option (Int × Int))) (rnds : List Nat) (hfuel : 10 ≤ fuel)
    (hsyms : (bot = 'X' ∧ human = 'O') ∨ (bot = 'O' ∧ human = 'X')) :
    ∃ g, playGame fuel ⟨1, human, bot, 1⟩ g0 n typed rnds = some g ∧
      check_status g ≠ human := by
  obtain ⟨hwf, _, _, hs⟩ := posCheck_sound start_posCheck
  have he := emptyCount_le startGame
  unfold playGame startOfGame
  simp only [reset_board_eq]
  rcases hsyms with ⟨rfl, rfl⟩ | ⟨rfl, rfl⟩
  · have hcond : (1 : Int) ≠ 0 ∧ 'X' = 'X' := ⟨by norm_num, rfl⟩
    rw [if_pos hcond]
    obtain ⟨rc, hbest, hrcb, hnext⟩ := best_move_safe fuel startGame 'X' 'O' hwf (by omega) hs
      (safeFor_mono_le 10 (fuel + 1) (by omega) _ _ _ _ start_safe_first)
    rw [bot_make_move_hard fuel startGame ⟨1, 'O', 'X', 1⟩ (rnds.headD 0) rc (by norm_num) hbest]
    simp only
    apply turnLoop_safe fuel 'X' 'O' (by omega) n _ typed rnds.tail
      (WF_current (hwf.mark_bot rc hrcb) _)
    right
    refine ⟨rfl, ?_⟩
    rw [safeFor_current]
    exact safeFor_mono _ _ _ _ _ hnext
  · have hcond : ¬ ((1 : Int) ≠ 0 ∧ 'O' = 'X') := by
      rintro ⟨_, h⟩
      exact absurd h (by decide)
    rw [if_neg hcond]
    simp only
    apply turnLoop_safe fuel 'O' 'X' (by omega) n _ typed rnds (WF_current hwf.swap _)
    right
    refine ⟨rfl, ?_⟩
    rw [safeFor_current]
    exact safeFor_mono_le 10 (fuel + 1) (by omega) _ _ _ _ start_safe_second

/-! ## Self-play -/

theorem selfPlay_step (fuel n : Nat) (g : Game) (c : Fin 3 × Fin 3)
    (hs : check_status g = ' ')
    (hbest : best_move_minimax fuel g g.current (swap_player g).current =
      some (cellCoords c, g)) :
    selfPlay fuel (n + 1) g = selfPlay fuel n (swap_player (g.mark c g.current)) := by
  conv_lhs => unfold selfPlay
  have hcond : ¬ check_status g ≠ ' ' := not_not.2 hs
  rw [if_neg hcond]
  rw [bot_make_move_hard fuel g ⟨1, (swap_player g).current, g.current, 1⟩ 0 c (by norm_num)
    hbest]

theorem selfPlay_done (fuel n : Nat) (g : Game) (hs : check_status g ≠ ' ') :
    selfPlay fuel (n + 1) g = some g := by
  conv_lhs => unfold selfPlay
  rw [if_pos hs]

set_option maxRecDepth 1000000 in
theorem self_check1 : drawCheck (selfPos 1) 'O' 'X' 0 1 (1, 1) = true := by decide!

set_option maxRecDepth 1000000 in
theorem self_check2 : drawCheck (selfPos 2) 'X' 'O' 1 16 (0, 1) = true := by decide!

set_option maxRecDepth 1000000 in
theorem self_check3 : drawCheck (selfPos 3) 'O' 'X' 16 3 (0, 2) = true := by decide!

set_option maxRecDepth 1000000 in
theorem self_check4 : drawCheck (selfPos 4) 'X' 'O' 3 20 (2, 0) = true := by decide!

set_option maxRecDepth 1000000 in
theorem self_check5 : drawCheck (selfPos 5) 'O' 'X' 20 67 (1, 0) = true := by decide!

set_option maxRecDepth 1000000 in
theorem self_check6 : drawCheck (selfPos 6) 'X' 'O' 67 28 (1, 2) = true := by decide!

set_option maxRecDepth 1000000 in
theorem self_check7 : drawCheck (selfPos 7) 'O' 'X' 28 99 (2, 1) = true := by decide!

set_option maxRecDepth 1000000 in
theorem self_check8 : drawCheck (selfPos 8) 'X' 'O' 99 156 (2, 2) = true := by decide!

theorem selfPlay_draw (fuel n : Nat) (hfuel : 10 ≤ fuel) (hn : 10 ≤ n) :
    selfPlay fuel n startGame = some (selfPos 9) := by
  obtain ⟨k, rfl⟩ : ∃ k, n = k + 10 := ⟨n - 10, by omega⟩
  have s0 : selfPlay fuel (k + 9 + 1) (selfPos 0) = selfPlay fuel (k + 9) (selfPos 1) :=
    selfPlay_step fuel (k + 9) (selfPos 0) (0, 0) (by decide)
      (best_move_of_drawCheck start_drawCheck fuel hfuel).1
  have s1 : selfPlay fuel (k + 8 + 1) (selfPos 1) = selfPlay fuel (k + 8) (selfPos 2) :=
    selfPlay_step fuel (k + 8) (selfPos 1) (1, 1) (by decide)
      (best_move_of_drawCheck self_check1 fuel hfuel).1
  have s2 : selfPlay fuel (k + 7 + 1) (selfPos 2) = selfPlay fuel (k + 7) (selfPos 3) :=
    selfPlay_step fuel (k + 7) (selfPos 2) (0, 1) (by decide)
      (best_move_of_drawCheck self_check2 fuel hfuel).1
  have s3 : selfPlay fuel (k + 6 + 1) (selfPos 3) = selfPlay fuel (k + 6) (selfPos 4) :=
    selfPlay_step fuel (k + 6) (selfPos 3) (0, 2) (by decide)
      (best_move_of_drawCheck self_check3 fuel hfuel).1
  have s4 : selfPlay fuel (k + 5 + 1) (selfPos 4) = selfPlay fuel (k + 5) (selfPos 5) :=
    selfPlay_step fuel (k + 5) (selfPos 4) (2, 0) (by decide)
      (best_move_of_drawCheck self_check4 fuel hfuel).1
  have s5 : selfPlay fuel (k + 4 + 1) (selfPos 5) = selfPlay fuel (k + 4) (selfPos 6) :=
    selfPlay_step fuel (k + 4) (selfPos 5) (1, 0) (by decide)
      (best_move_of_drawCheck self_check5 fuel hfuel).1
  have s6 : selfPlay fuel (k + 3 + 1) (selfPos 6) = selfPlay fuel (k + 3) (selfPos 7) :=
    selfPlay_step fuel (k + 3) (selfPos 6) (1, 2) (by decide)
      (best_move_of_drawCheck self_check6 fuel hfuel).1
  have s7 : selfPlay fuel (k + 2 + 1) (selfPos 7) = selfPlay fuel (k + 2) (selfPos 8) :=
    selfPlay_step fuel (k + 2) (selfPos 7) (2, 1) (by decide)
      (best_move_of_drawCheck self_check7 fuel hfuel).1
  have s8 : selfPlay fuel (k + 1 + 1) (selfPos 8) = selfPlay fuel (k + 1) (selfPos 9) :=
    selfPlay_step fuel (k + 1) (selfPos 8) (2, 2) (by decide)
      (best_move_of_drawCheck self_check8 fuel hfuel).1
  have s9 : selfPlay fuel (k + 1) (selfPos 9) = some (selfPos 9) :=
    selfPlay_done fuel k (selfPos 9) (by decide)
  show selfPlay fuel (k + 9 + 1) (selfPos 0) = _
  rw [s0, s1, s2, s3, s4, s5, s6, s7, s8, s9]

/-! ## The forced block, evaluated -/

set_option maxRecDepth 1000000 in
theorem block_eval :
    best_move_minimax 10 blockGame 'O' 'X' = some ((0, 2), blockGame) ∧
    minimax 10 (blockGame.mark (0, 2) 'O') 'O' 'X' 0 (-1000) 1000 0 =
      some (0, blockGame.mark (0, 2) 'O') ∧
    ∀ rc ∈ emptyCells blockGame, rc ≠ (0, 2) →
      minimax 10 (blockGame.mark rc 'O') 'O' 'X' 0 (-1000) 1000 0 =
        some (-9, blockGame.mark rc 'O') := by
  decide!

theorem validCells_of_list (g : Game)
    (h : ∀ rc ∈ cells, g.board.get rc.1 rc.2 = 'X' ∨ g.board.get rc.1 rc.2 = 'O' ∨
      g.board.get rc.1 rc.2 = ' ') : validCells g :=
  fun rc => h rc (mem_cells rc)

theorem full_iff_moves (g : Game) (hm : g.moves = (countMarks g : Int)) :
    g.moves ≥ 9 ↔ ∀ rc : Fin 3 × Fin 3, g.board.get rc.1 rc.2 ≠ ' ' := by
  have h9 := emptyCount_add_countMarks g
  constructor
  · intro h rc hrc
    have hpos : 0 < emptyCount g := by
      unfold emptyCount
      rw [List.countP_pos_iff]
      exact ⟨rc, mem_cells rc, by simpa using hrc⟩
    omega
  · intro h
    have h0 : emptyCount g = 0 := by
      unfold emptyCount
      rw [List.countP_eq_zero]
      intro rc _
      simpa using h rc
    omega

theorem place_if_empty_cases (g : Game) (row col : Int) :
    (place_if_empty g row col = (0, g) ∧
      ¬ ∃ rc : Fin 3 × Fin 3, row = (rc.1.val : Int) ∧ col = (rc.2.val : Int) ∧
        g.board.get rc.1 rc.2 = ' ') ∨
    (∃ rc : Fin 3 × Fin 3, row = (rc.1.val : Int) ∧ col = (rc.2.val : Int) ∧
      g.board.get rc.1 rc.2 = ' ' ∧
      place_if_empty g row col =
        (1, { g.mark rc g.current with moves := wrapInt (g.moves + 1) })) := by
  unfold place_if_empty
  by_cases hr : row < 0 ∨ row ≥ 3 ∨ col < 0 ∨ col ≥ 3
  · left
    rw [if_pos hr]
    refine ⟨rfl, ?_⟩
    rintro ⟨rc, h1, h2, _⟩
    have := rc.1.isLt
    have := rc.2.isLt
    omega
  · rw [if_neg hr]
    have e1 : row = ((toIdx row).val : Int) := by
      simp only [toIdx]
      omega
    have e2 : col = ((toIdx col).val : Int) := by
      simp only [toIdx]
      omega
    by_cases hocc : g.board.get (toIdx row) (toIdx col) ≠ ' '
    · left
      rw [if_pos hocc]
      refine ⟨rfl, ?_⟩
      rintro ⟨rc, h1, h2, h3⟩
      apply hocc
      have a1 : toIdx row = rc.1 := by rw [h1, toIdx_coe]
      have a2 : toIdx col = rc.2 := by rw [h2, toIdx_coe]
      rw [a1, a2]
      exact h3
    · right
      rw [if_neg hocc]
      exact ⟨(toIdx row, toIdx col), e1, e2, not_not.1 hocc, rfl⟩

/-- While `moves` is an `int` below `INT_MAX` the increment does not overflow, and a
placement is the trial placement of the search with the symbol of the player to
move. -/
theorem place_if_empty_inrange (g : Game) (row col : Int) (h1 : -2147483648 ≤ g.moves)
    (h2 : g.moves < 2147483647) :
    (place_if_empty g row col = (0, g) ∧
      ¬ ∃ rc : Fin 3 × Fin 3, row = (rc.1.val : Int) ∧ col = (rc.2.val : Int) ∧
        g.board.get rc.1 rc.2 = ' ') ∨
    (∃ rc : Fin 3 × Fin 3, row = (rc.1.val : Int) ∧ col = (rc.2.val : Int) ∧
      g.board.get rc.1 rc.2 = ' ' ∧ place_if_empty g row col = (1, g.mark rc g.current)) := by
  rcases place_if_empty_cases g row col with h | ⟨rc, e1, e2, hb, h⟩
  · exact Or.inl h
  · refine Or.inr ⟨rc, e1, e2, hb, ?_⟩
    rw [h, wrapInt_eq _ (by omega) (by omega)]
    rfl

theorem place_if_empty_counted (g : Game) (row col : Int)
    (hm : g.moves = (countMarks g : Int)) :
    (place_if_empty g row col = (0, g) ∧
      ¬ ∃ rc : Fin 3 × Fin 3, row = (rc.1.val : Int) ∧ col = (rc.2.val : Int) ∧
        g.board.get rc.1 rc.2 = ' ') ∨
    (∃ rc : Fin 3 × Fin 3, row = (rc.1.val : Int) ∧ col = (rc.2.val : Int) ∧
      g.board.get rc.1 rc.2 = ' ' ∧ place_if_empty g row col = (1, g.mark rc g.current)) := by
  have hc := emptyCount_add_countMarks g
  exact place_if_empty_inrange g row col (by omega) (by omega)

theorem place_fail (g : Game) (row col : Int) :
    ((place_if_empty g row col).1 = 0 ↔
      (row < 0 ∨ row ≥ 3 ∨ col < 0 ∨ col ≥ 3 ∨ g.board.get (toIdx row) (toIdx col) ≠ ' ')) ∧
    ((place_if_empty g row col).1 = 0 ↔
      ¬ ∃ rc : Fin 3 × Fin 3, row = (rc.1.val : Int) ∧ col = (rc.2.val : Int) ∧
        g.board.get rc.1 rc.2 = ' ') ∧
    ((place_if_empty g row col).1 = 0 → (place_if_empty g row col).2 = g) ∧
    ((place_if_empty g row col).1 = 0 ∨ (place_if_empty g row col).1 = 1) := by
  rcases place_if_empty_cases g row col with ⟨h, hn⟩ | ⟨rc, h1, h2, h3, h⟩
  · rw [h]
    refine ⟨⟨fun _ => ?_, fun _ => rfl⟩, ⟨fun _ => hn, fun _ => rfl⟩, fun _ => rfl, Or.inl rfl⟩
    by_contra hc
    apply hn
    have e1 : row = ((toIdx row).val : Int) := by
      simp only [toIdx]
      omega
    have e2 : col = ((toIdx col).val : Int) := by
      simp only [toIdx]
      omega
    refine ⟨(toIdx row, toIdx col), e1, e2, ?_⟩
    by_contra hb
    exact hc (Or.inr (Or.inr (Or.inr (Or.inr hb))))
  · rw [h]
    have a1 : toIdx row = rc.1 := by rw [h1, toIdx_coe]
    have a2 : toIdx col = rc.2 := by rw [h2, toIdx_coe]
    have r1 := rc.1.isLt
    have r2 := rc.2.isLt
    refine ⟨⟨fun h0 => absurd h0 (by norm_num), fun hc => ?_⟩,
      ⟨fun h0 => absurd h0 (by norm_num), fun hc => absurd ⟨rc, h1, h2, h3⟩ hc⟩,
      fun h0 => absurd h0 (by norm_num), Or.inr rfl⟩
    rw [a1, a2] at hc
    rcases hc with hc | hc | hc | hc | hc
    · omega
    · omega
    · omega
    · omega
    · exact absurd h3 hc

theorem place_ok (g : Game) (rc : Fin 3 × Fin 3) (hb : g.board.get rc.1 rc.2 = ' ') :
    ∃ g1, place_if_empty g (rc.1.val : Int) (rc.2.val : Int) = (1, g1) ∧
      g1.board.get rc.1 rc.2 = g.current ∧ g1.moves = wrapInt (g.moves + 1) ∧
      (-2147483648 ≤ g.moves → g.moves < 2147483647 → g1.moves = g.moves + 1) ∧
      g1.current = g.current ∧
      ∀ x : Fin 3 × Fin 3, x ≠ rc → g1.board.get x.1 x.2 = g.board.get x.1 x.2 := by
  rcases place_if_empty_cases g rc.1.val rc.2.val with ⟨_, hn⟩ | ⟨rc1, h1, h2, _, h⟩
  · exact absurd ⟨rc, rfl, rfl, hb⟩ hn
  · have e : rc1 = rc := by
      apply Prod.ext <;> apply Fin.ext <;> omega
    subst e
    refine ⟨_, h, ?_, rfl, ?_, rfl, ?_⟩
    · show (g.mark rc1 g.current).board.get rc1.1 rc1.2 = g.current
      rw [mark_get, if_pos rfl]
    · intro b1 b2
      exact wrapInt_eq _ (by omega) (by omega)
    · intro x hx
      show (g.mark rc1 g.current).board.get x.1 x.2 = g.board.get x.1 x.2
      rw [mark_get, if_neg (Ne.symm hx)]

/-! ## The random move -/

theorem emptyCells_length (g : Game) : (emptyCells g).length = emptyCount g := by
  unfold emptyCells emptyCount
  rw [List.countP_eq_length_filter]

theorem emptyCells_sorted (g : Game) :
    (emptyCells g).Pairwise (fun a b => cellIndex a < cellIndex b) :=
  List.Pairwise.sublist (List.filter_sublist _) cells_sorted

theorem random_move_spec (g : Game) (rnd : Nat) :
    (emptyCount g = 0 → random_move g rnd = (-1, -1)) ∧
    (1 ≤ emptyCount g →
      ∃ rc : Fin 3 × Fin 3, (emptyCells g).get? (rnd % emptyCount g) = some rc ∧
        random_move g rnd = ((rc.1.val : Int), (rc.2.val : Int)) ∧
        g.board.get rc.1 rc.2 = ' ') := by
  have hl := emptyCells_length g
  constructor
  · intro h0
    unfold random_move
    simp only [hl, h0, if_true]
  · intro h1
    have hlt : rnd % emptyCount g < (emptyCells g).length := by
      rw [hl]
      exact Nat.mod_lt _ (by omega)
    have hget : (emptyCells g).get? (rnd % emptyCount g) =
        some ((emptyCells g).get ⟨rnd % emptyCount g, hlt⟩) := List.get?_eq_get hlt
    refine ⟨(emptyCells g).get ⟨rnd % emptyCount g, hlt⟩, hget, ?_, ?_⟩
    · unfold random_move
      simp only [hl]
      rw [if_neg (by omega), hget]
    · exact (mem_emptyCells g _).1 (List.get_mem _ _ _)

/-! ## A search that never returns -/

theorem blank_status (m : Int) : check_status ⟨xRowGame.board, 'O', m⟩ = 'X' := rfl

theorem blank_mark (m : Int) :
    (⟨xRowGame.board, 'O', m⟩ : Game).mark (1, 2) ' ' = ⟨xRowGame.board, 'O', m + 1⟩ := rfl

theorem maxLoop_stuck (child : Game → Int → Option (Int × Game)) (bot : Char) (beta : Int)
    (g : Game) (rc : Fin 3 × Fin 3) (l2 : List (Fin 3 × Fin 3)) (best alpha : Int)
    (hb : g.board.get rc.1 rc.2 = ' ') (hc : child (g.mark rc bot) alpha = none) :
    ∀ l1 : List (Fin 3 × Fin 3), (∀ x ∈ l1, g.board.get x.1 x.2 ≠ ' ') →
      maxLoop child bot beta (l1 ++ rc :: l2) g best alpha = none := by
  intro l1
  induction l1 with
  | nil =>
    intro _
    show maxLoop child bot beta (rc :: l2) g best alpha = none
    unfold maxLoop
    rw [if_pos hb, hc]
  | cons x rest ih =>
    intro h
    show maxLoop child bot beta (x :: (rest ++ rc :: l2)) g best alpha = none
    unfold maxLoop
    rw [if_neg (h x (List.mem_cons_self _ _))]
    exact ih (fun y hy => h y (List.mem_cons_of_mem _ hy))

theorem minLoop_stuck (child : Game → Int → Option (Int × Game)) (human : Char) (alpha : Int)
    (g : Game) (rc : Fin 3 × Fin 3) (l2 : List (Fin 3 × Fin 3)) (best beta : Int)
    (hb : g.board.get rc.1 rc.2 = ' ') (hc : child (g.mark rc human) beta = none) :
    ∀ l1 : List (Fin 3 × Fin 3), (∀ x ∈ l1, g.board.get x.1 x.2 ≠ ' ') →
      minLoop child human alpha (l1 ++ rc :: l2) g best beta = none := by
  intro l1
  induction l1 with
  | nil =>
    intro _
    show minLoop child human alpha (rc :: l2) g best beta = none
    unfold minLoop
    rw [if_pos hb, hc]
  | cons x rest ih =>
    intro h
    show minLoop child human alpha (x :: (rest ++ rc :: l2)) g best beta = none
    unfold minLoop
    rw [if_neg (h x (List.mem_cons_self _ _))]
    exact ih (fun y hy => h y (List.mem_cons_of_mem _ hy))

theorem xRow_taken :
    ∀ x ∈ [((0, 0) : Fin 3 × Fin 3), (0, 1), (0, 2), (1, 0), (1, 1)],
      xRowGame.board.get x.1 x.2 ≠ ' ' := by decide

theorem cells_split :
    cells = [(0, 0), (0, 1), (0, 2), (1, 0), (1, 1)] ++ (1, 2) :: [(2, 0), (2, 1), (2, 2)] := rfl

/-- With `' '` as the symbol of both players the trial placements leave the board
as it is, a completed row of `'X'` is never a terminal status, and no amount of
fuel lets the search return. -/
theorem minimax_blank_loops : ∀ (fuel : Nat) (m depth alpha beta maximizing : Int),
    minimax fuel ⟨xRowGame.board, 'O', m⟩ ' ' ' ' depth alpha beta maximizing = none := by
  intro fuel
  induction fuel with
  | zero => intro m depth alpha beta maximizing; rfl
  | succ n ih =>
    intro m depth alpha beta maximizing
    unfold minimax
    simp only [blank_status]
    rw [if_neg (by decide), if_neg (by decide), if_neg (by decide), cells_split]
    by_cases h : maximizing ≠ 0
    · rw [if_pos h]
      apply maxLoop_stuck
      · rfl
      · rw [blank_mark]; exact ih _ _ _ _ _
      · exact xRow_taken
    · rw [if_neg h]
      apply minLoop_stuck
      · rfl
      · rw [blank_mark]; exact ih _ _ _ _ _
      · exact xRow_taken

/-! ## The window of the search -/

theorem minimax_window (fuel : Nat) (g : Game) (bot human : Char)
    (depth alpha beta maximizing : Int) (hwf : WF g bot human) (hfuel : emptyCount g < fuel)
    (ha : -1000 ≤ alpha) (hab : alpha < beta) (hb : beta ≤ 1000) :
    ∃ r v, minimax fuel g bot human depth alpha beta maximizing = some (r, g) ∧
      bruteForce fuel g bot human depth (decide (maximizing ≠ 0)) = some v ∧
      (alpha < v → v < beta → r = v) ∧ (v ≤ alpha → r ≤ alpha) ∧ (beta ≤ v → beta ≤ r) := by
  obtain ⟨r, v, h1, h2, h3, h4, h5⟩ := minimax_ab fuel g bot human depth alpha beta maximizing
    hwf hfuel ha hab hb
  refine ⟨r, v, h1, h2, ?_, ?_, ?_⟩
  · intro hv1 hv2
    by_cases c1 : r ≤ alpha
    · have := h3 c1; omega
    · by_cases c2 : beta ≤ r
      · have := h4 c2; omega
      · exact (h5 (by omega) (by omega)).symm
  · intro hv
    by_contra c1
    by_cases c2 : beta ≤ r
    · have := h4 c2; omega
    · have := h5 (by omega) (by omega); omega
  · intro hv
    by_contra c2
    by_cases c1 : r ≤ alpha
    · have := h3 c1; omega
    · have := h5 (by omega) (by omega); omega

/-! ## The cell returned on a full board -/

theorem bestLoop_full (fuel : Nat) (bot human : Char) (g : Game) :
    ∀ (l : List (Fin 3 × Fin 3)) (bv : Int) (best : Int × Int),
      (∀ rc ∈ l, g.board.get rc.1 rc.2 ≠ ' ') →
      bestLoop fuel bot human l g bv best = some (best, g) := by
  intro l
  induction l with
  | nil => intro bv best _; rfl
  | cons rc rest ih =>
    intro bv best h
    unfold bestLoop
    rw [if_neg (h rc (List.mem_cons_self _ _))]
    exact ih bv best (fun x hx => h x (List.mem_cons_of_mem _ hx))

theorem best_move_cell (fuel : Nat) (g : Game) (bot human : Char) (hwf : WF g bot human)
    (hfuel : emptyCount g ≤ fuel) :
    ∃ res : Int × Int, best_move_minimax fuel g bot human = some (res, g) ∧
      (res = (-1, -1) ↔ ∀ rc : Fin 3 × Fin 3, g.board.get rc.1 rc.2 ≠ ' ') ∧
      ((∃ rc : Fin 3 × Fin 3, g.board.get rc.1 rc.2 = ' ') →
        0 ≤ res.1 ∧ res.1 < 3 ∧ 0 ≤ res.2 ∧ res.2 < 3 ∧
        ∃ rc : Fin 3 × Fin 3, res = ((rc.1.val : Int), (rc.2.val : Int)) ∧
          g.board.get rc.1 rc.2 = ' ') := by
  by_cases hblank : ∃ rc : Fin 3 × Fin 3, g.board.get rc.1 rc.2 = ' '
  · obtain ⟨rc, val, h1, _, h3, _⟩ := best_move_spec fuel g bot human hwf hfuel hblank
    have r1 := rc.1.isLt
    have r2 := rc.2.isLt
    refine ⟨cellCoords rc, h1, ⟨fun h => ?_, fun h => absurd h3 (h rc)⟩, fun _ => ?_⟩
    · simp only [cellCoords, Prod.mk.injEq] at h
      omega
    · simp only [cellCoords]
      exact ⟨by omega, by omega, by omega, by omega, rc, rfl, h3⟩
  · have hfull : ∀ rc : Fin 3 × Fin 3, g.board.get rc.1 rc.2 ≠ ' ' :=
      fun rc h => hblank ⟨rc, h⟩
    refine ⟨(-1, -1), ?_, ⟨fun _ => hfull, fun _ => rfl⟩, fun h => absurd h hblank⟩
    unfold best_move_minimax
    have hc : g.board.get 1 1 ≠ ' ' := hfull (1, 1)
    simp only [if_neg hc]
    exact bestLoop_full fuel bot human g cells _ _ (fun rc _ => hfull rc)

/-! ## The range of the scores, for every window -/

theorem maxLoop_range (child : Game → Int → Option (Int × Game)) (bot : Char) (beta : Int)
    (g : Game)
    (hchild : ∀ rc a, g.board.get rc.1 rc.2 = ' ' →
      ∃ v, child (g.mark rc bot) a = some (v, g.mark rc bot) ∧ -10 ≤ v ∧ v ≤ 10) :
    ∀ (l : List (Fin 3 × Fin 3)) (best alpha : Int),
      (best = -1000 ∨ (-10 ≤ best ∧ best ≤ 10)) →
      ∃ r, maxLoop child bot beta l g best alpha = some (r, g) ∧
        ((-10 ≤ r ∧ r ≤ 10) ∨ (r = best ∧ ∀ rc ∈ l, g.board.get rc.1 rc.2 ≠ ' ')) := by
  intro l
  induction l with
  | nil =>
    intro best alpha _
    exact ⟨best, rfl, Or.inr ⟨rfl, fun rc h => absurd h (List.not_mem_nil rc)⟩⟩
  | cons rc rest ih =>
    intro best alpha hbest
    unfold maxLoop
    by_cases hb : g.board.get rc.1 rc.2 = ' '
    · rw [if_pos hb]
      obtain ⟨v, hv, hv1, hv2⟩ := hchild rc alpha hb
      rw [hv]
      simp only
      rw [Game.unmark_mark g rc bot hb]
      have hnew : -10 ≤ (if v > best then v else best) ∧ (if v > best then v else best) ≤ 10 := by
        by_cases hgt : v > best
        · rw [if_pos hgt]; exact ⟨hv1, hv2⟩
        · rw [if_neg hgt]
          rcases hbest with h | h
          · omega
          · exact h
      by_cases hcut : beta ≤ (if v > alpha then v else alpha)
      · rw [if_pos hcut]; exact ⟨_, rfl, Or.inl hnew⟩
      · rw [if_neg hcut]
        obtain ⟨r, hr, hr1⟩ := ih (if v > best then v else best) (if v > alpha then v else alpha)
          (Or.inr hnew)
        refine ⟨r, hr, Or.inl ?_⟩
        rcases hr1 with h | ⟨h, _⟩
        · exact h
        · rw [h]; exact hnew
    · rw [if_neg hb]
      obtain ⟨r, hr, hr1⟩ := ih best alpha hbest
      refine ⟨r, hr, ?_⟩
      rcases hr1 with h | ⟨h, hrest⟩
      · exact Or.inl h
      · refine Or.inr ⟨h, ?_⟩
        intro x hx
        rcases List.mem_cons.1 hx with rfl | hx
        · exact hb
        · exact hrest x hx

theorem minLoop_range (child : Game → Int → Option (Int × Game)) (human : Char) (alpha : Int)
    (g : Game)
    (hchild : ∀ rc b, g.board.get rc.1 rc.2 = ' ' →
      ∃ v, child (g.mark rc human) b = some (v, g.mark rc human) ∧ -10 ≤ v ∧ v ≤ 10) :
    ∀ (l : List (Fin 3 × Fin 3)) (best beta : Int),
      (best = 1000 ∨ (-10 ≤ best ∧ best ≤ 10)) →
      ∃ r, minLoop child human alpha l g best beta = some (r, g) ∧
        ((-10 ≤ r ∧ r ≤ 10) ∨ (r = best ∧ ∀ rc ∈ l, g.board.get rc.1 rc.2 ≠ ' ')) := by
  intro l
  induction l with
  | nil =>
    intro best beta _
    exact ⟨best, rfl, Or.inr ⟨rfl, fun rc h => absurd h (List.not_mem_nil rc)⟩⟩
  | cons rc rest ih =>
    intro best beta hbest
    unfold minLoop
    by_cases hb : g.board.get rc.1 rc.2 = ' '
    · rw [if_pos hb]
      obtain ⟨v, hv, hv1, hv2⟩ := hchild rc beta hb
      rw [hv]
      simp only
      rw [Game.unmark_mark g rc human hb]
      have hnew : -10 ≤ (if v < best then v else best) ∧ (if v < best then v else best) ≤ 10 := by
        by_cases hlt : v < best
        · rw [if_pos hlt]; exact ⟨hv1, hv2⟩
        · rw [if_neg hlt]
          rcases hbest with h | h
          · omega
          · exact h
      by_cases hcut : (if v < beta then v else beta) ≤ alpha
      · rw [if_pos hcut]; exact ⟨_, rfl, Or.inl hnew⟩
      · rw [if_neg hcut]
        obtain ⟨r, hr, hr1⟩ := ih (if v < best then v else best) (if v < beta then v else beta)
          (Or.inr hnew)
        refine ⟨r, hr, Or.inl ?_⟩
        rcases hr1 with h | ⟨h, _⟩
        · exact h
        · rw [h]; exact hnew
    · rw [if_neg hb]
      obtain ⟨r, hr, hr1⟩ := ih best beta hbest
      refine ⟨r, hr, ?_⟩
      rcases hr1 with h | ⟨h, hrest⟩
      · exact Or.inl h
      · refine Or.inr ⟨h, ?_⟩
        intro x hx
        rcases List.mem_cons.1 hx with rfl | hx
        · exact hb
        · exact hrest x hx

/-- Whatever the window, also an empty or inverted one, the score `minimax` returns
on a well-formed position is the score of a leaf or a maximum or minimum of such
scores: it lies in `[-10, 10]`, and the initial `best` of a loop is never returned. -/
theorem minimax_range : ∀ (fuel : Nat) (g : Game) (bot human : Char)
    (depth alpha beta maximizing : Int), WF g bot human → emptyCount g < fuel →
    0 ≤ depth → depth + emptyCount g ≤ 20 →
    ∃ v, minimax fuel g bot human depth alpha beta maximizing = some (v, g) ∧
      -10 ≤ v ∧ v ≤ 10 := by
  intro fuel
  induction fuel with
  | zero =>
    intro g bot human depth alpha beta maximizing _ h
    exact absurd h (Nat.not_lt_zero _)
  | succ n ih =>
    intro g bot human depth alpha beta maximizing hwf hfuel hd0 hd
    unfold minimax
    simp only
    by_cases h1 : check_status g = bot
    · rw [if_pos h1]; exact ⟨_, rfl, by omega, by omega⟩
    rw [if_neg h1]
    by_cases h2 : check_status g = human
    · rw [if_pos h2]; exact ⟨_, rfl, by omega, by omega⟩
    rw [if_neg h2]
    by_cases h3 : check_status g = 'D'
    · rw [if_pos h3]; exact ⟨_, rfl, by omega, by omega⟩
    rw [if_neg h3]
    obtain ⟨_, _, _, rc0, hrc0⟩ := hwf.nonterminal h1 h2 h3
    by_cases h4 : maximizing ≠ 0
    · rw [if_pos h4]
      obtain ⟨r, hr, hr1⟩ := maxLoop_range
        (fun g1 a => minimax n g1 bot human (depth + 1) a beta 0) bot beta g
        (by
          intro rc a hb
          have hc := emptyCount_mark g rc bot hb hwf.bot_ne
          exact ih _ _ _ _ _ _ _ (hwf.mark_bot rc hb) (by omega) (by omega) (by omega))
        cells (-1000) alpha (Or.inl rfl)
      refine ⟨r, hr, ?_⟩
      rcases hr1 with h | ⟨_, h⟩
      · exact h
      · exact absurd hrc0 (h rc0 (mem_cells rc0))
    · rw [if_neg h4]
      obtain ⟨r, hr, hr1⟩ := minLoop_range
        (fun g1 b => minimax n g1 bot human (depth + 1) alpha b 1) human alpha g
        (by
          intro rc b hb
          have hc := emptyCount_mark g rc human hb hwf.human_ne
          exact ih _ _ _ _ _ _ _ (hwf.mark_human rc hb) (by omega) (by omega) (by omega))
        cells 1000 beta (Or.inl rfl)
      refine ⟨r, hr, ?_⟩
      rcases hr1 with h | ⟨_, h⟩
      · exact h
      · exact absurd hrc0 (h rc0 (mem_cells rc0))

/-! ## The count of moves -/

theorem bestLoop_res (fuel : Nat) (bot human : Char) :
    ∀ (l : List (Fin 3 × Fin 3)) (g : Game) (bv : Int) (best : Int × Int)
      (r : (Int × Int) × Game),
      bestLoop fuel bot human l g bv best = some r →
      r.1 = best ∨ ∃ rc : Fin 3 × Fin 3, g.board.get rc.1 rc.2 = ' ' ∧ r.1 = cellCoords rc := by
  intro l
  induction l with
  | nil =>
    intro g bv best r h
    simp only [bestLoop, Option.some.injEq] at h
    left
    rw [← h]
  | cons rc rest ih =>
    intro g bv best r h
    unfold bestLoop at h
    by_cases hb : g.board.get rc.1 rc.2 = ' '
    · rw [if_pos hb] at h
      cases hc : minimax fuel (g.mark rc bot) bot human 0 (-1000) 1000 0 with
      | none => rw [hc] at h; exact absurd h (by simp)
      | some p =>
        obtain ⟨val, g1⟩ := p
        have hg1 : g1 = g.mark rc bot := minimax_frame _ _ _ _ _ _ _ _ _ hc
        rw [hc] at h
        simp only at h
        subst hg1
        rw [Game.unmark_mark g rc bot hb] at h
        by_cases hgt : val > bv
        · rw [if_pos hgt] at h
          rcases ih _ _ _ _ h with h1 | h1
          · exact Or.inr ⟨rc, hb, h1⟩
          · exact Or.inr h1
        · rw [if_neg hgt] at h
          exact ih _ _ _ _ h
    · rw [if_neg hb] at h
      exact ih _ _ _ _ h

theorem best_move_res (fuel : Nat) (g : Game) (bot human : Char) (r : (Int × Int) × Game)
    (h : best_move_minimax fuel g bot human = some r) :
    r.2 = g ∧ (r.1 = (-1, -1) ∨
      ∃ rc : Fin 3 × Fin 3, g.board.get rc.1 rc.2 = ' ' ∧ r.1 = cellCoords rc) := by
  refine ⟨bestLoop_frame _ _ _ _ _ _ _ _ h, ?_⟩
  unfold best_move_minimax at h
  by_cases hc : g.board.get 1 1 = ' '
  · simp only [if_pos hc] at h
    rcases bestLoop_res _ _ _ _ _ _ _ _ h with h1 | h1
    · exact Or.inr ⟨(1, 1), hc, h1⟩
    · exact Or.inr h1
  · simp only [if_neg hc] at h
    rcases bestLoop_res _ _ _ _ _ _ _ _ h with h1 | h1
    · exact Or.inl h1
    · exact Or.inr h1

theorem place_at (g : Game) (rc : Fin 3 × Fin 3) (s : Char) :
    ({ g with board := g.board.set (toIdx (cellCoords rc).1) (toIdx (cellCoords rc).2) s,
              moves := g.moves + 1 } : Game) = g.mark rc s := by
  simp only [cellCoords, toIdx_coe]
  rfl

/-- A move of the bot leaves the game as it is or writes the bot's symbol on an
empty cell and increments `moves`. -/
theorem bot_make_move_cases (fuel : Nat) (g : Game) (m : Mode) (rnd : Nat) (g1 : Game)
    (h : bot_make_move fuel g m rnd = some g1) :
    g1 = g ∨ ∃ rc : Fin 3 × Fin 3, g.board.get rc.1 rc.2 = ' ' ∧ g1 = g.mark rc m.bot_symbol := by
  unfold bot_make_move at h
  by_cases hh : m.bot_hard ≠ 0
  · simp only [if_pos hh] at h
    cases hbm : best_move_minimax fuel g m.bot_symbol m.human_symbol with
    | none => rw [hbm] at h; exact absurd h (by simp)
    | some r =>
      obtain ⟨hr2, hr1⟩ := best_move_res fuel g _ _ r hbm
      obtain ⟨⟨r0, c0⟩, g2⟩ := r
      simp only at hr2 hr1
      subst hr2
      rw [hbm] at h
      simp only at h
      rcases hr1 with h1 | ⟨rc, hb, h1⟩
      · simp only [Prod.mk.injEq] at h1
        rw [if_neg (by simp [h1.1])] at h
        left
        exact (Option.some.inj h).symm
      · right
        have r1 := rc.1.isLt
        simp only [cellCoords, Prod.mk.injEq] at h1
        obtain ⟨e1, e2⟩ := h1
        subst e1
        subst e2
        rw [if_pos (by omega)] at h
        refine ⟨rc, hb, ?_⟩
        rw [← Option.some.inj h]
        exact place_at g2 rc m.bot_symbol
  · simp only [if_neg hh] at h
    by_cases hk : emptyCount g = 0
    · have := (random_move_spec g rnd).1 hk
      rw [this] at h
      simp only at h
      rw [if_neg (by simp)] at h
      left
      exact (Option.some.inj h).symm
    · obtain ⟨rc, _, hrm, hb⟩ := (random_move_spec g rnd).2 (by omega)
      have r1 := rc.1.isLt
      rw [hrm] at h
      simp only at h
      rw [if_pos (by omega)] at h
      right
      refine ⟨rc, hb, ?_⟩
      rw [← Option.some.inj h]
      exact place_at g rc m.bot_symbol

theorem bot_make_move_total (fuel : Nat) (g : Game) (m : Mode) (rnd : Nat)
    (h : m.bot_hard = 0 ∨ (m.bot_symbol ≠ ' ' ∧ m.human_symbol ≠ ' ' ∧ emptyCount g ≤ fuel)) :
    ∃ g1, bot_make_move fuel g m rnd = some g1 := by
  unfold bot_make_move
  by_cases hh : m.bot_hard ≠ 0
  · rcases h with h | ⟨hb, hu, hf⟩
    · exact absurd h hh
    · obtain ⟨rc, hrc⟩ := bestLoop_total fuel m.bot_symbol m.human_symbol g hb hu hf cells
        (-1000) (if g.board.get 1 1 = ' ' then (1, 1) else (-1, -1))
      have hbm : best_move_minimax fuel g m.bot_symbol m.human_symbol = some (rc, g) := hrc
      simp only [if_pos hh, hbm]
      split
      · exact ⟨_, rfl⟩
      · exact ⟨_, rfl⟩
  · simp only [if_neg hh]
    split
    · exact ⟨_, rfl⟩
    · exact ⟨_, rfl⟩

theorem movesCounted_mark (g : Game) (rc : Fin 3 × Fin 3) (s : Char) (hm : movesCounted g)
    (hb : g.board.get rc.1 rc.2 = ' ') (hs : s ≠ ' ') : movesCounted (g.mark rc s) := by
  unfold movesCounted at hm ⊢
  rw [countMarks_mark g rc s hb hs]
  show g.moves + 1 = ((countMarks g + 1 : Nat) : Int)
  rw [hm]
  push_cast
  rfl

theorem movesCounted_reset (g : Game) : movesCounted (reset_board g) := by
  unfold movesCounted
  rw [reset_board_eq]
  decide

theorem moves_kept (fuel : Nat) (g : Game) (m : Mode) (row col : Int) (rnd : Nat)
    (bot human : Char) (depth alpha beta maximizing : Int) (hinv : movesCounted g) :
    movesCounted (reset_board g) ∧
    (g.current ≠ ' ' → movesCounted (place_if_empty g row col).2) ∧
    ((place_if_empty g row col).1 = 0 → movesCounted (place_if_empty g row col).2) ∧
    (∀ r, minimax fuel g bot human depth alpha beta maximizing = some r → movesCounted r.2) ∧
    (∀ r, best_move_minimax fuel g bot human = some r → movesCounted r.2) ∧
    (m.bot_symbol ≠ ' ' → ∀ g1, bot_make_move fuel g m rnd = some g1 → movesCounted g1) := by
  refine ⟨?_, ?_, ?_, ?_, ?_, ?_⟩
  · unfold movesCounted
    rw [reset_board_eq]
    decide
  · intro hc
    rcases place_if_empty_counted g row col hinv with ⟨h, _⟩ | ⟨rc, _, _, hb, h⟩
    · rw [h]; exact hinv
    · rw [h]; exact movesCounted_mark g rc _ hinv hb hc
  · intro h0
    rw [(place_fail g row col).2.2.1 h0]
    exact hinv
  · intro r h
    rw [minimax_frame _ _ _ _ _ _ _ _ _ h]
    exact hinv
  · intro r h
    rw [(best_move_res _ _ _ _ _ h).1]
    exact hinv
  · intro hs g1 h
    rcases bot_make_move_cases fuel g m rnd g1 h with h1 | ⟨rc, hb, h1⟩
    · rw [h1]; exact hinv
    · rw [h1]; exact movesCounted_mark g rc _ hinv hb hs

/-! ## Alternating turns -/

theorem countOf_mark_self (g : Game) (rc : Fin 3 × Fin 3) (p : Char)
    (hb : g.board.get rc.1 rc.2 = ' ') (hp : p ≠ ' ') :
    countOf (g.mark rc p) p = countOf g p + 1 := by
  unfold countOf
  apply countP_flip cells cells_nodup rc (mem_cells rc)
  · intro x hx
    rw [mark_get, if_neg (Ne.symm hx)]
  · rw [mark_get]; simp
  · rw [hb]; simpa using Ne.symm hp

theorem countOf_mark_other (g : Game) (rc : Fin 3 × Fin 3) (p q : Char)
    (hb : g.board.get rc.1 rc.2 = ' ') (hq : q ≠ ' ') (hpq : p ≠ q) :
    countOf (g.mark rc p) q = countOf g q := by
  unfold countOf
  apply List.countP_congr
  intro x _
  rw [mark_get]
  by_cases hx : rc = x
  · subst hx
    rw [if_pos rfl, hb]
    simp [hpq, Ne.symm hq]
  · rw [if_neg hx]

theorem Turn.start : Turn startGame :=
  ⟨⟨validCells_of_list _ (by decide), by decide, Or.inl ⟨rfl, rfl⟩⟩, Or.inl rfl, by decide,
    fun h => no_lines_of_status (by decide) 'X' (by decide) h.1⟩

/-- The step of a turn loop: on a game that continues, the player to move writes
their mark on an empty cell and the turn passes. -/
theorem Turn.step {g : Game} (h : Turn g) (hs : check_status g = ' ') (rc : Fin 3 × Fin 3)
    (hb : g.board.get rc.1 rc.2 = ' ') : Turn (swap_player (g.mark rc g.current)) := by
  have hd := h.diff
  rcases h.cur with hc | hc
  · have e : swap_player (g.mark rc g.current) = { g.mark rc 'X' with current := 'O' } := by
      simp [swap_player, Game.mark, hc]
    rw [e]
    rw [hc, if_pos rfl] at hd
    refine ⟨WF_current (h.wf.mark_bot rc hb) 'O', Or.inr rfl, ?_, ?_⟩
    · show ((countOf (g.mark rc 'X') 'X' : Nat) : Int) - (countOf (g.mark rc 'X') 'O' : Nat) =
        if 'O' = 'X' then 0 else 1
      rw [countOf_mark_self g rc 'X' hb (by decide),
        countOf_mark_other g rc 'X' 'O' hb (by decide) (by decide), if_neg (by decide)]
      push_cast
      omega
    · rintro ⟨_, l, hl, hlo⟩
      have h1 : lineOf (g.mark rc 'X') l 'O' := hlo
      exact no_lines_of_status hs 'O' (by decide)
        ⟨l, hl, lineOf_mark_other rc (by decide) h1⟩
  · have e : swap_player (g.mark rc g.current) = { g.mark rc 'O' with current := 'X' } := by
      simp [swap_player, Game.mark, hc]
    rw [e]
    rw [hc, if_neg (by decide)] at hd
    refine ⟨WF_current (h.wf.mark_human rc hb) 'X', Or.inl rfl, ?_, ?_⟩
    · show ((countOf (g.mark rc 'O') 'X' : Nat) : Int) - (countOf (g.mark rc 'O') 'O' : Nat) =
        if 'X' = 'X' then 0 else 1
      rw [countOf_mark_self g rc 'O' hb (by decide),
        countOf_mark_other g rc 'O' 'X' hb (by decide) (by decide), if_pos rfl]
      push_cast
      omega
    · rintro ⟨⟨l, hl, hlo⟩, _⟩
      have h1 : lineOf (g.mark rc 'O') l 'X' := hlo
      exact no_lines_of_status hs 'X' (by decide)
        ⟨l, hl, lineOf_mark_other rc (by decide) h1⟩

/-- The two properties of a reachable state, which depend on the board alone. -/
theorem Turn.fair {g g1 : Game} (h : Turn g) (hb : g1.board = g.board) :
    ¬ ((∃ l ∈ lines, lineOf g1 l 'X') ∧ (∃ l ∈ lines, lineOf g1 l 'O')) ∧
    ((countOf g1 'X' : Int) - (countOf g1 'O' : Int) = 0 ∨
      (countOf g1 'X' : Int) - (countOf g1 'O' : Int) = 1) := by
  have e1 : ∀ l p, lineOf g1 l p = lineOf g l p := by
    intro l p
    unfold lineOf
    rw [hb]
  have e2 : ∀ p, countOf g1 p = countOf g p := by
    intro p
    unfold countOf
    rw [hb]
  simp only [e1, e2]
  refine ⟨h.one, ?_⟩
  rw [h.diff]
  by_cases hc : g.current = 'X'
  · rw [if_pos hc]; exact Or.inl rfl
  · rw [if_neg hc]; exact Or.inr rfl

/-- When the game continues on a well-formed board, the bot places its symbol on
an empty cell, on both difficulties. -/
theorem bot_make_move_places (fuel : Nat) (g : Game) (m : Mode) (rnd : Nat)
    (hwf : WF g m.bot_symbol m.human_symbol) (hfuel : emptyCount g ≤ fuel)
    (hblank : ∃ rc : Fin 3 × Fin 3, g.board.get rc.1 rc.2 = ' ') :
    ∃ rc : Fin 3 × Fin 3, g.board.get rc.1 rc.2 = ' ' ∧
      bot_make_move fuel g m rnd = some (g.mark rc m.bot_symbol) := by
  obtain ⟨g1, hg1⟩ := bot_make_move_total fuel g m rnd
    (Or.inr ⟨hwf.bot_ne, hwf.human_ne, hfuel⟩)
  by_cases hh : m.bot_hard ≠ 0
  · obtain ⟨rc, _, h1, _, h3, _⟩ := best_move_spec fuel g _ _ hwf hfuel hblank
    exact ⟨rc, h3, bot_make_move_hard fuel g m rnd rc hh h1⟩
  · obtain ⟨rc0, hrc0⟩ := hblank
    have hpos : 1 ≤ emptyCount g := by
      have := emptyCount_mark g rc0 'X' hrc0 (by decide)
      omega
    obtain ⟨rc, _, hrm, hb⟩ := (random_move_spec g rnd).2 hpos
    have r1 := rc.1.isLt
    refine ⟨rc, hb, ?_⟩
    unfold bot_make_move
    simp only [if_neg hh, hrm]
    rw [if_pos (by omega)]
    exact congrArg some (place_at g rc m.bot_symbol)

theorem turnLoop_turn (fuel : Nat) (m : Mode) (hfuel : 9 ≤ fuel)
    (hmode : (m.human_symbol = 'X' ∧ m.bot_symbol = 'O') ∨
      (m.human_symbol = 'O' ∧ m.bot_symbol = 'X')) :
    ∀ (n : Nat) (g : Game) (typed : List (Option (Int × Int))) (rnds : List Nat),
      Turn g → ∃ g1, turnLoop fuel m n g typed rnds = some g1 ∧ Turn g1 := by
  intro n
  induction n with
  | zero => intro g typed rnds h; exact ⟨g, rfl, h⟩
  | succ n ih =>
    intro g typed rnds h
    rw [turnLoop_succ]
    by_cases h1 : check_status g = 'X' ∨ check_status g = 'O'
    · rw [if_pos h1]; exact ⟨g, rfl, h⟩
    rw [if_neg h1]
    by_cases h2 : check_status g = 'D'
    · rw [if_pos h2]; exact ⟨g, rfl, h⟩
    rw [if_neg h2]
    obtain ⟨hs, _, _, hblank⟩ := h.wf.nonterminal (fun e => h1 (Or.inl e))
      (fun e => h1 (Or.inr e)) h2
    by_cases h3 : m.vs_bot = 0 ∨ g.current = m.human_symbol
    · rw [if_pos h3]
      cases typed with
      | nil => exact ⟨g, rfl, h⟩
      | cons line rest =>
        cases line with
        | none => exact ih g rest rnds h
        | some p =>
          obtain ⟨row, col⟩ := p
          simp only
          rcases place_if_empty_counted g row col h.wf.moves with ⟨hp, _⟩ | ⟨rc, _, _, hb, hp⟩
          · rw [hp]
            simp only [if_true]
            exact ih g rest rnds h
          · rw [hp]
            simp only [one_ne_zero, if_false]
            exact ih _ rest rnds (h.step hs rc hb)
    · rw [if_neg h3]
      have hcur : g.current = m.bot_symbol := by
        have hne : g.current ≠ m.human_symbol := fun e => h3 (Or.inr e)
        rcases hmode with ⟨e1, e2⟩ | ⟨e1, e2⟩ <;> rcases h.cur with hc | hc
        · rw [e1] at hne; exact absurd hc hne
        · rw [hc, e2]
        · rw [hc, e2]
        · rw [e1] at hne; exact absurd hc hne
      have hwf : WF g m.bot_symbol m.human_symbol := by
        rcases hmode with ⟨e1, e2⟩ | ⟨e1, e2⟩
        · rw [e1, e2]; exact h.wf.swap
        · rw [e1, e2]; exact h.wf
      have he := emptyCount_le g
      obtain ⟨rc, hb, hbm⟩ := bot_make_move_places fuel g m (rnds.headD 0) hwf (by omega) hblank
      rw [hbm]
      simp only
      rw [← hcur]
      exact ih _ typed rnds.tail (h.step hs rc hb)

theorem playGame_turn (fuel n : Nat) (m : Mode) (g0 : Game)
    (typed : List (Option (Int × Int))) (rnds : List Nat) (hfuel : 9 ≤ fuel)
    (hmode : (m.human_symbol = 'X' ∧ m.bot_symbol = 'O') ∨
      (m.human_symbol = 'O' ∧ m.bot_symbol = 'X')) :
    ∃ g, playGame fuel m g0 n typed rnds = some g ∧ Turn g := by
  unfold playGame startOfGame
  simp only [reset_board_eq]
  by_cases hc : m.vs_bot ≠ 0 ∧ m.bot_symbol = 'X'
  · rw [if_pos hc]
    have hwf : WF startGame m.bot_symbol m.human_symbol := by
      rcases hmode with ⟨e1, e2⟩ | ⟨e1, e2⟩
      · rw [e1, e2]; exact Turn.start.wf.swap
      · rw [e1, e2]; exact Turn.start.wf
    have he := emptyCount_le startGame
    obtain ⟨rc, hb, hbm⟩ := bot_make_move_places fuel startGame m (rnds.headD 0) hwf
      (by omega) ⟨(0, 0), by decide⟩
    rw [hbm]
    simp only
    have e : ({ startGame.mark rc m.bot_symbol with current := 'O' } : Game) =
        swap_player (startGame.mark rc startGame.current) := by
      rw [hc.2]
      rfl
    rw [e]
    exact turnLoop_turn fuel m hfuel hmode n _ typed rnds.tail
      (Turn.start.step (by decide) rc hb)
  · rw [if_neg hc]
    simp only
    exact turnLoop_turn fuel m hfuel hmode n _ typed rnds Turn.start

theorem plainLoop_turn : ∀ (n : Nat) (g : Game) (typed : List (Option (Int × Int))),
    Turn g → check_status g = ' ' →
    ∃ g1, (g1.board = (plainLoop n g typed).board) ∧ Turn g1 := by
  intro n
  induction n with
  | zero => intro g typed h _; exact ⟨g, rfl, h⟩
  | succ n ih =>
    intro g typed h hs
    cases typed with
    | nil => exact ⟨g, rfl, h⟩
    | cons line rest =>
      cases line with
      | none => exact ih g rest h hs
      | some p =>
        obtain ⟨row, col⟩ := p
        show ∃ g1, g1.board = (match place_if_empty g row col with
          | (ok, g1) =>
            if ok = 0 then plainLoop n g1 rest
            else
              if check_status g1 = 'X' ∨ check_status g1 = 'O' then g1
              else if check_status g1 = 'D' then g1
              else plainLoop n (swap_player g1) rest).board ∧ Turn g1
        rcases place_if_empty_counted g row col h.wf.moves with
          ⟨hp, _⟩ | ⟨rc, _, _, hb, hp⟩
        · rw [hp]
          simp only [if_true]
          exact ih g rest h hs
        · rw [hp]
          simp only [one_ne_zero, if_false]
          have hnext := h.step hs rc hb
          by_cases h1 : check_status (g.mark rc g.current) = 'X' ∨
              check_status (g.mark rc g.current) = 'O'
          · rw [if_pos h1]; exact ⟨swap_player (g.mark rc g.current), rfl, hnext⟩
          rw [if_neg h1]
          by_cases h2 : check_status (g.mark rc g.current) = 'D'
          · rw [if_pos h2]; exact ⟨swap_player (g.mark rc g.current), rfl, hnext⟩
          rw [if_neg h2]
          have hs1 : check_status (swap_player (g.mark rc g.current)) = ' ' :=
            (hnext.wf.nonterminal (fun e => h1 (Or.inl e)) (fun e => h1 (Or.inr e)) h2).1
          exact ih _ rest hnext hs1

/-! ## The claims -/

/-- C1. In human-vs-bot play on Hard difficulty (the start of a game and the turn loop
of `tic_tac_toe2.c`), for every sequence of lines typed by the human, legal or not,
for both symbol assignments and after any number of iterations of the loop, the bot's
search returns and the game is in a state in which `check_status` does not return
the human's symbol. -/
theorem C1_hard_bot_never_loses (fuel n : Nat) (bot human : Char) (g0 : Game)
    (typed : List (Option (Int × Int))) (rnds : List Nat) (hfuel : 10 ≤ fuel)
    (hsyms : (bot = 'X' ∧ human = 'O') ∨ (bot = 'O' ∧ human = 'X')) :
    ∃ g, playGame fuel ⟨1, human, bot, 1⟩ g0 n typed rnds = some g ∧
      check_status g ≠ human :=
  hard_bot_safe fuel n bot human g0 typed rnds hfuel hsyms

/-- Witness of C1: the human plays `'X'` and types the centre, then a corner. -/
theorem C1_witness :
    ∃ g, playGame 10 ⟨1, 'X', 'O', 1⟩ startGame 4 [some (1, 1), some (0, 0)] [] = some g ∧
      check_status g ≠ 'X' :=
  C1_hard_bot_never_loses 10 4 'O' 'X' startGame [some (1, 1), some (0, 0)] [] (by decide)
    (by decide)

/-- C2. For every game whose cells are in `{'X','O',' '}` and whose `moves` equals
the number of marks, every pair of distinct symbols `bot`, `human` in `{'X','O'}`,
every depth in `0..9` and every value of `maximizing`, `minimax` with the window
`(-1000, 1000)` returns (given fuel for ten nested calls) the value of the
brute-force full-tree minimax, and leaves the game unchanged. -/
theorem C2_minimax_eq_bruteForce (fuel : Nat) (g : Game) (bot human : Char)
    (depth maximizing : Int) (hfuel : 10 ≤ fuel) (hcells : validCells g)
    (hmoves : g.moves = (countMarks g : Int))
    (hsyms : (bot = 'X' ∧ human = 'O') ∨ (bot = 'O' ∧ human = 'X'))
    (hd0 : 0 ≤ depth) (hd9 : depth ≤ 9) :
    ∃ v, minimax fuel g bot human depth (-1000) 1000 maximizing = some (v, g) ∧
      bruteForce fuel g bot human depth (decide (maximizing ≠ 0)) = some v := by
  have he := emptyCount_le g
  obtain ⟨v, h1, h2, _⟩ := minimax_full_window fuel g bot human depth maximizing
    ⟨hcells, hmoves, hsyms⟩ (by omega) hd0 (by omega)
  exact ⟨v, h1, h2⟩

/-- Witness of C2: the forced-block board, `'O'` searching, maximizing. -/
theorem C2_witness :
    ∃ v, minimax 10 blockGame 'O' 'X' 0 (-1000) 1000 1 = some (v, blockGame) ∧
      bruteForce 10 blockGame 'O' 'X' 0 (decide ((1 : Int) ≠ 0)) = some v :=
  C2_minimax_eq_bruteForce 10 blockGame 'O' 'X' 0 1 (by decide)
    (validCells_of_list _ (by decide)) (by decide) (by decide) (by decide) (by decide)

/-- C4. For every game in which no row, column or diagonal holds three identical
marks other than `' '` and whose `moves` equals the number of marks, `check_status`
returns `'D'` if all nine cells hold a mark and `' '` otherwise. -/
theorem C4_check_status_no_line (g : Game) (hno : ¬ hasLine g)
    (hmoves : g.moves = (countMarks g : Int)) :
    ((∀ rc : Fin 3 × Fin 3, g.board.get rc.1 rc.2 ≠ ' ') → check_status g = 'D') ∧
    ((∃ rc : Fin 3 × Fin 3, g.board.get rc.1 rc.2 = ' ') → check_status g = ' ') := by
  have hs := check_status_noLine g hno
  have hfull := full_iff_moves g hmoves
  constructor
  · intro h
    rw [hs, if_pos (hfull.2 h)]
  · rintro ⟨rc, hrc⟩
    rw [hs, if_neg (fun h => (hfull.1 h) rc hrc)]

/-- Witness of C4: the full board on which the self-played game ends. -/
theorem C4_witness :
    ((∀ rc : Fin 3 × Fin 3, (selfPos 9).board.get rc.1 rc.2 ≠ ' ') →
      check_status (selfPos 9) = 'D') ∧
    ((∃ rc : Fin 3 × Fin 3, (selfPos 9).board.get rc.1 rc.2 = ' ') →
      check_status (selfPos 9) = ' ') :=
  C4_check_status_no_line (selfPos 9)
    (by
      intro h
      obtain ⟨l, _, hc, he⟩ := check_status_hasLine _ h
      have hD : check_status (selfPos 9) = 'D' := by decide
      rw [hD] at he
      rcases lineComplete_player (validCells_of_list _ (by decide)) l hc with h1 | h1
      · rw [← he] at h1; exact absurd h1 (by decide)
      · rw [← he] at h1; exact absurd h1 (by decide))
    (by decide)

/-- C5. For every game with cells in `{'X','O',' '}`, `moves` equal to the number of
marks and `check_status g = ' '`, and distinct symbols `bot`, `human`: if placing
`bot` on some empty cell makes `check_status` return `bot`, then `best_move_minimax`
returns an empty cell on which placing `bot` makes `check_status` return `bot`. -/
theorem C5_best_move_takes_win (fuel : Nat) (g : Game) (bot human : Char)
    (hfuel : 9 ≤ fuel) (hcells : validCells g) (hmoves : g.moves = (countMarks g : Int))
    (hsyms : (bot = 'X' ∧ human = 'O') ∨ (bot = 'O' ∧ human = 'X'))
    (_hstatus : check_status g = ' ')
    (hwin : ∃ rc : Fin 3 × Fin 3, g.board.get rc.1 rc.2 = ' ' ∧
      check_status (g.mark rc bot) = bot) :
    ∃ rc : Fin 3 × Fin 3,
      best_move_minimax fuel g bot human = some (((rc.1.val : Int), (rc.2.val : Int)), g) ∧
      g.board.get rc.1 rc.2 = ' ' ∧ check_status (g.mark rc bot) = bot := by
  have he := emptyCount_le g
  exact best_move_wins fuel g bot human ⟨hcells, hmoves, hsyms⟩ (by omega) hwin

/-- Witness of C5: `'X'` to move with two in the top row. -/
theorem C5_witness :
    ∃ rc : Fin 3 × Fin 3,
      best_move_minimax 10 winGame 'X' 'O' =
        some (((rc.1.val : Int), (rc.2.val : Int)), winGame) ∧
      winGame.board.get rc.1 rc.2 = ' ' ∧ check_status (winGame.mark rc 'X') = 'X' :=
  C5_best_move_takes_win 10 winGame 'X' 'O' (by decide) (validCells_of_list _ (by decide))
    (by decide) (by decide) (by decide) ⟨(0, 2), by decide, by decide⟩

/-- C6. On the board with rows `X X _`, `_ O _`, `_ _ _` and `moves = 3`,
`best_move_minimax` for `bot = 'O'`, `human = 'X'` returns the blocking cell `(0, 2)`;
the value of that move is 0, and every other empty cell has the strictly smaller
value -9. -/
theorem C6_forced_block (fuel : Nat) (hfuel : 10 ≤ fuel) :
    best_move_minimax fuel blockGame 'O' 'X' = some ((0, 2), blockGame) ∧
    minimax fuel (blockGame.mark (0, 2) 'O') 'O' 'X' 0 (-1000) 1000 0 =
      some (0, blockGame.mark (0, 2) 'O') ∧
    ∀ rc ∈ emptyCells blockGame, rc ≠ (0, 2) →
      ∃ v, minimax fuel (blockGame.mark rc 'O') 'O' 'X' 0 (-1000) 1000 0 =
        some (v, blockGame.mark rc 'O') ∧ v < 0 := by
  obtain ⟨h1, h2, h3⟩ := block_eval
  refine ⟨best_move_mono 10 fuel hfuel _ _ _ _ h1,
    minimax_mono_le 10 fuel hfuel _ _ _ _ _ _ _ _ h2, ?_⟩
  intro rc hrc hne
  exact ⟨-9, minimax_mono_le 10 fuel hfuel _ _ _ _ _ _ _ _ (h3 rc hrc hne), by norm_num⟩

/-- Witness of C6, with fuel for ten nested calls. -/
theorem C6_witness :
    best_move_minimax 10 blockGame 'O' 'X' = some ((0, 2), blockGame) ∧
    minimax 10 (blockGame.mark (0, 2) 'O') 'O' 'X' 0 (-1000) 1000 0 =
      some (0, blockGame.mark (0, 2) 'O') ∧
    ∀ rc ∈ emptyCells blockGame, rc ≠ (0, 2) →
      ∃ v, minimax 10 (blockGame.mark rc 'O') 'O' 'X' 0 (-1000) 1000 0 =
        some (v, blockGame.mark rc 'O') ∧ v < 0 :=
  C6_forced_block 10 (le_refl _)

/-- C7, amended. On the empty board (`moves = 0`) `best_move_minimax` for the first
mover (`bot = 'X'`, `human = 'O'`) returns the corner `(0, 0)`, not the centre: the
moves at `(0, 0)` and at the centre `(1, 1)` both have value 0, the loop keeps the
first cell of maximal value in row-major order, and the centre pre-selection is
overwritten. -/
theorem C7_empty_board_best_move (fuel : Nat) (hfuel : 10 ≤ fuel) :
    best_move_minimax fuel startGame 'X' 'O' = some ((0, 0), startGame) ∧
    minimax fuel (startGame.mark (0, 0) 'X') 'X' 'O' 0 (-1000) 1000 0 =
      some (0, startGame.mark (0, 0) 'X') ∧
    minimax fuel (startGame.mark (1, 1) 'X') 'X' 'O' 0 (-1000) 1000 0 =
      some (0, startGame.mark (1, 1) 'X') :=
  best_move_start fuel hfuel

/-- Witness of C7, with fuel for ten nested calls. -/
theorem C7_witness :
    best_move_minimax 10 startGame 'X' 'O' = some ((0, 0), startGame) ∧
    minimax 10 (startGame.mark (0, 0) 'X') 'X' 'O' 0 (-1000) 1000 0 =
      some (0, startGame.mark (0, 0) 'X') ∧
    minimax 10 (startGame.mark (1, 1) 'X') 'X' 'O' 0 (-1000) 1000 0 =
      some (0, startGame.mark (1, 1) 'X') :=
  C7_empty_board_best_move 10 (le_refl _)

/-- Counterexample to C7 as stated: on the empty board `best_move_minimax` does not
return the centre `(1, 1)`. -/
theorem C7_counterexample :
    best_move_minimax 10 startGame 'X' 'O' ≠ some ((1, 1), startGame) := by
  rw [(best_move_start 10 (le_refl _)).1]
  decide

/-- C8. For every game with cells in `{'X','O',' '}`, `moves` equal to the number of
marks and at least one empty cell, and distinct symbols `bot`, `human`,
`best_move_minimax` returns the first cell in row-major order among the empty cells
whose move value (`minimax` of the game with `bot` placed there, depth 0, window
`(-1000, 1000)`, minimizing) is maximal; the loop started without the centre
pre-selection returns the same. -/
theorem C8_first_maximal_cell (fuel : Nat) (g : Game) (bot human : Char)
    (hfuel : 9 ≤ fuel) (hcells : validCells g) (hmoves : g.moves = (countMarks g : Int))
    (hsyms : (bot = 'X' ∧ human = 'O') ∨ (bot = 'O' ∧ human = 'X'))
    (hblank : ∃ rc : Fin 3 × Fin 3, g.board.get rc.1 rc.2 = ' ') :
    ∃ (rc : Fin 3 × Fin 3) (val : Fin 3 × Fin 3 → Int),
      best_move_minimax fuel g bot human = some (((rc.1.val : Int), (rc.2.val : Int)), g) ∧
      best_move_unseeded fuel g bot human = best_move_minimax fuel g bot human ∧
      g.board.get rc.1 rc.2 = ' ' ∧
      ∀ x : Fin 3 × Fin 3, g.board.get x.1 x.2 = ' ' →
        minimax fuel (g.mark x bot) bot human 0 (-1000) 1000 0 = some (val x, g.mark x bot) ∧
        val x ≤ val rc ∧
        (3 * x.1.val + x.2.val < 3 * rc.1.val + rc.2.val → val x < val rc) := by
  have he := emptyCount_le g
  obtain ⟨rc, val, h1, h2, h3, h4⟩ := best_move_spec fuel g bot human
    ⟨hcells, hmoves, hsyms⟩ (by omega) hblank
  refine ⟨rc, val, h1, by rw [h1, h2], h3, ?_⟩
  intro x hx
  exact ⟨(h4 x hx).1, (h4 x hx).2.2.1, (h4 x hx).2.2.2⟩

/-- Witness of C8: the forced-block board, whose centre is taken. -/
theorem C8_witness :
    ∃ (rc : Fin 3 × Fin 3) (val : Fin 3 × Fin 3 → Int),
      best_move_minimax 10 blockGame 'O' 'X' =
        some (((rc.1.val : Int), (rc.2.val : Int)), blockGame) ∧
      best_move_unseeded 10 blockGame 'O' 'X' = best_move_minimax 10 blockGame 'O' 'X' ∧
      blockGame.board.get rc.1 rc.2 = ' ' ∧
      ∀ x : Fin 3 × Fin 3, blockGame.board.get x.1 x.2 = ' ' →
        minimax 10 (blockGame.mark x 'O') 'O' 'X' 0 (-1000) 1000 0 =
          some (val x, blockGame.mark x 'O') ∧
        val x ≤ val rc ∧
        (3 * x.1.val + x.2.val < 3 * rc.1.val + rc.2.val → val x < val rc) :=
  C8_first_maximal_cell 10 blockGame 'O' 'X' (by decide) (validCells_of_list _ (by decide))
    (by decide) (by decide) ⟨(0, 2), by decide⟩

/-- C9. Starting from the empty board and letting `best_move_minimax` choose every
move for both sides in strict alternation, `'X'` first, play proceeds until
`check_status` is not `' '`, and the final status is `'D'`. -/
theorem C9_self_play_draw (fuel n : Nat) (hfuel : 10 ≤ fuel) (hn : 10 ≤ n) :
    ∃ g, selfPlay fuel n startGame = some g ∧ check_status g = 'D' ∧
      g.board = ⟨⟨'X', 'X', 'O'⟩, ⟨'O', 'O', 'X'⟩, ⟨'X', 'O', 'X'⟩⟩ ∧ g.moves = 9 :=
  ⟨selfPos 9, selfPlay_draw fuel n hfuel hn, by decide, rfl, rfl⟩

/-- Witness of C9: ten rounds, fuel for ten nested calls. -/
theorem C9_witness :
    ∃ g, selfPlay 10 10 startGame = some g ∧ check_status g = 'D' ∧
      g.board = ⟨⟨'X', 'X', 'O'⟩, ⟨'O', 'O', 'X'⟩, ⟨'X', 'O', 'X'⟩⟩ ∧ g.moves = 9 :=
  C9_self_play_draw 10 10 (le_refl _) (le_refl _)

/-- C10. For every game and all arguments, the game `minimax` leaves behind when it
returns equals the game before the call in every field, also when a cutoff ends a
loop early, and the same holds for `best_move_minimax`; and when `bot` and `human`
are not `' '`, both calls do return, given fuel for ten nested calls. -/
theorem C10_search_restores_game (fuel : Nat) (g : Game) (bot human : Char)
    (depth alpha beta maximizing : Int) :
    (∀ r, minimax fuel g bot human depth alpha beta maximizing = some r → r.2 = g) ∧
    (∀ r, best_move_minimax fuel g bot human = some r → r.2 = g) ∧
    (bot ≠ ' ' → human ≠ ' ' → 10 ≤ fuel →
      (∃ v, minimax fuel g bot human depth alpha beta maximizing = some (v, g)) ∧
      ∃ rc, best_move_minimax fuel g bot human = some (rc, g)) := by
  refine ⟨fun r h => minimax_frame _ _ _ _ _ _ _ _ _ h,
    fun r h => bestLoop_frame _ _ _ _ _ _ _ _ h, ?_⟩
  intro hb hh hf
  have he := emptyCount_le g
  exact ⟨minimax_total fuel g bot human depth alpha beta maximizing hb hh (by omega),
    bestLoop_total fuel bot human g hb hh (by omega) _ _ _⟩

/-- Witness of C10: a search of the forced-block board with the narrow window
`(-1, 1)`, in which cutoffs occur. -/
theorem C10_witness :
    (∀ r, minimax 10 blockGame 'O' 'X' 0 (-1) 1 1 = some r → r.2 = blockGame) ∧
    (∀ r, best_move_minimax 10 blockGame 'O' 'X' = some r → r.2 = blockGame) ∧
    (('O' : Char) ≠ ' ' → ('X' : Char) ≠ ' ' → 10 ≤ 10 →
      (∃ v, minimax 10 blockGame 'O' 'X' 0 (-1) 1 1 = some (v, blockGame)) ∧
      ∃ rc, best_move_minimax 10 blockGame 'O' 'X' = some (rc, blockGame)) :=
  C10_search_restores_game 10 blockGame 'O' 'X' 0 (-1) 1 1

/-- C11. For every game with cells in `{'X','O',' '}` and `moves` equal to the number
of marks, and distinct symbols `bot`, `human`, `best_move_minimax` returns (given fuel
for nine nested calls) and leaves the game unchanged; the pair it returns is the
"no cell" value `(-1, -1)` if and only if the board has no empty cell; otherwise it
is the pair of coordinates, both in `0..2`, of a cell that is empty. -/
theorem C11_best_move_returns_empty_cell (fuel : Nat) (g : Game) (bot human : Char)
    (hfuel : 9 ≤ fuel) (hcells : validCells g) (hmoves : g.moves = (countMarks g : Int))
    (hsyms : (bot = 'X' ∧ human = 'O') ∨ (bot = 'O' ∧ human = 'X')) :
    ∃ res : Int × Int, best_move_minimax fuel g bot human = some (res, g) ∧
      (res = (-1, -1) ↔ ∀ rc : Fin 3 × Fin 3, g.board.get rc.1 rc.2 ≠ ' ') ∧
      ((∃ rc : Fin 3 × Fin 3, g.board.get rc.1 rc.2 = ' ') →
        0 ≤ res.1 ∧ res.1 < 3 ∧ 0 ≤ res.2 ∧ res.2 < 3 ∧
        ∃ rc : Fin 3 × Fin 3, res = ((rc.1.val : Int), (rc.2.val : Int)) ∧
          g.board.get rc.1 rc.2 = ' ') := by
  have he := emptyCount_le g
  exact best_move_cell fuel g bot human ⟨hcells, hmoves, hsyms⟩ (by omega)

/-- Witness of C11: the forced-block board, `'O'` searching. -/
theorem C11_witness :
    ∃ res : Int × Int, best_move_minimax 10 blockGame 'O' 'X' = some (res, blockGame) ∧
      (res = (-1, -1) ↔ ∀ rc : Fin 3 × Fin 3, blockGame.board.get rc.1 rc.2 ≠ ' ') ∧
      ((∃ rc : Fin 3 × Fin 3, blockGame.board.get rc.1 rc.2 = ' ') →
        0 ≤ res.1 ∧ res.1 < 3 ∧ 0 ≤ res.2 ∧ res.2 < 3 ∧
        ∃ rc : Fin 3 × Fin 3, res = ((rc.1.val : Int), (rc.2.val : Int)) ∧
          blockGame.board.get rc.1 rc.2 = ' ') :=
  C11_best_move_returns_empty_cell 10 blockGame 'O' 'X' (by decide)
    (validCells_of_list _ (by decide)) (by decide) (by decide)

/-- C12. For every game and all integers `row`, `col`, `place_if_empty` returns 0 or 1;
it returns 0 if and only if `row` or `col` is outside `0..2` or the target cell is
not `' '` (equivalently: `(row, col)` is not an empty cell of the board), and then
the game after the call equals the game before it in every field. -/
theorem C12_place_if_empty_failure (g : Game) (row col : Int) :
    ((place_if_empty g row col).1 = 0 ↔
      (row < 0 ∨ row ≥ 3 ∨ col < 0 ∨ col ≥ 3 ∨ g.board.get (toIdx row) (toIdx col) ≠ ' ')) ∧
    ((place_if_empty g row col).1 = 0 ↔
      ¬ ∃ rc : Fin 3 × Fin 3, row = (rc.1.val : Int) ∧ col = (rc.2.val : Int) ∧
        g.board.get rc.1 rc.2 = ' ') ∧
    ((place_if_empty g row col).1 = 0 → (place_if_empty g row col).2 = g) ∧
    ((place_if_empty g row col).1 = 0 ∨ (place_if_empty g row col).1 = 1) :=
  place_fail g row col

/-- C13, amended. For every game and every cell `(row, col)` of the grid that holds
`' '`, `place_if_empty` returns 1, the cell then holds `g.current`, and the other
eight cells and the field `current` are unchanged; `moves` is larger by exactly 1
provided it was an `int` below `INT_MAX = 2147483647` (in general it is `moves + 1`
reduced to the range of a 32-bit `int`). -/
theorem C13_place_if_empty_success (g : Game) (rc : Fin 3 × Fin 3)
    (hblank : g.board.get rc.1 rc.2 = ' ') :
    ∃ g1, place_if_empty g (rc.1.val : Int) (rc.2.val : Int) = (1, g1) ∧
      g1.board.get rc.1 rc.2 = g.current ∧ g1.moves = wrapInt (g.moves + 1) ∧
      (-2147483648 ≤ g.moves → g.moves < 2147483647 → g1.moves = g.moves + 1) ∧
      g1.current = g.current ∧
      ∀ x : Fin 3 × Fin 3, x ≠ rc → g1.board.get x.1 x.2 = g.board.get x.1 x.2 :=
  place_ok g rc hblank

/-- Witness of C13: the centre of the forced-block board is taken, its corner
`(2, 2)` is empty, and `moves` is 3. -/
theorem C13_witness :
    ∃ g1, place_if_empty blockGame (((2, 2) : Fin 3 × Fin 3).1.val : Int)
        (((2, 2) : Fin 3 × Fin 3).2.val : Int) = (1, g1) ∧
      g1.board.get ((2, 2) : Fin 3 × Fin 3).1 ((2, 2) : Fin 3 × Fin 3).2 = blockGame.current ∧
      g1.moves = wrapInt (blockGame.moves + 1) ∧
      (-2147483648 ≤ blockGame.moves → blockGame.moves < 2147483647 →
        g1.moves = blockGame.moves + 1) ∧
      g1.current = blockGame.current ∧
      ∀ x : Fin 3 × Fin 3, x ≠ (2, 2) → g1.board.get x.1 x.2 = blockGame.board.get x.1 x.2 :=
  C13_place_if_empty_success blockGame (2, 2) (by decide)

/-- Counterexample to C13 as stated for every game: on the empty board with
`moves = 2147483647` (`INT_MAX`), `place_if_empty` at `(0, 0)` returns 1 and writes
the mark, but `g->moves++` overflows: `moves` is then `-2147483648`, not larger
by 1. -/
theorem C13_counterexample :
    maxMovesGame.board.get 0 0 = ' ' ∧
    (place_if_empty maxMovesGame 0 0).1 = 1 ∧
    (place_if_empty maxMovesGame 0 0).2.moves = -2147483648 ∧
    (place_if_empty maxMovesGame 0 0).2.moves ≠ maxMovesGame.moves + 1 := by
  decide

/-- C14, evaluated on the code. On the documented input `1 3` (row 1, column 3), with
or without the newline `fgets` leaves at its end, `parse_move` returns 1 with
`(row, col) = (0, 0)`, not `(0, 2)`: the call `sscanf(line, "%d", &n)` made first reads
the `1` and the line is taken as the cell number 1. In general a line `r c` with `r`,
`c` in `1..3` yields `(0, r - 1)`, the cell of number `r`. -/
theorem C14_parse_move_row_col :
    parse_move ['1', ' ', '3'] = some (0, 0) ∧
    parse_move ['1', ' ', '3', Char.ofNat 10] = some (0, 0) ∧
    parse_move ['1', ' ', '3'] ≠ some (0, 2) ∧
    ∀ r c : Fin 3, parse_move [Char.ofNat (49 + r.val), ' ', Char.ofNat (49 + c.val)] =
      some (0, (r.val : Int)) := by
  decide

/-- C15, amended. For every game (with any `moves` value), every depth, window and
`maximizing` flag, and symbols `bot`, `human` other than `' '`: every trial placement
is made on a board with one fewer empty cell, the board has at most 9 empty cells,
and `minimax` returns as soon as the number of nested calls allowed exceeds the
number of empty cells: the nesting depth of the recursive calls is at most the number
of empty cells of the starting board, hence at most 9. -/
theorem C15_minimax_terminates (g : Game) (bot human : Char)
    (depth alpha beta maximizing : Int) (hbot : bot ≠ ' ') (hhuman : human ≠ ' ') :
    (∀ rc : Fin 3 × Fin 3, g.board.get rc.1 rc.2 = ' ' →
      emptyCount (g.mark rc bot) + 1 = emptyCount g ∧
      emptyCount (g.mark rc human) + 1 = emptyCount g) ∧
    emptyCount g ≤ 9 ∧
    ∀ fuel : Nat, emptyCount g < fuel →
      ∃ v, minimax fuel g bot human depth alpha beta maximizing = some (v, g) :=
  ⟨fun rc hb => ⟨(emptyCount_mark g rc bot hb hbot).symm,
      (emptyCount_mark g rc human hb hhuman).symm⟩,
    emptyCount_le g,
    fun fuel hf => minimax_total fuel g bot human depth alpha beta maximizing hbot hhuman hf⟩

/-- Witness of C15: the forced-block board, which has six empty cells. -/
theorem C15_witness :
    (∀ rc : Fin 3 × Fin 3, blockGame.board.get rc.1 rc.2 = ' ' →
      emptyCount (blockGame.mark rc 'O') + 1 = emptyCount blockGame ∧
      emptyCount (blockGame.mark rc 'X') + 1 = emptyCount blockGame) ∧
    emptyCount blockGame ≤ 9 ∧
    ∀ fuel : Nat, emptyCount blockGame < fuel →
      ∃ v, minimax fuel blockGame 'O' 'X' 0 (-1000) 1000 1 = some (v, blockGame) :=
  C15_minimax_terminates blockGame 'O' 'X' 0 (-1000) 1000 1 (by decide) (by decide)

/-- Counterexample to C15 as stated for any symbols: with `' '` as the symbol of both
players, on a board with a completed row of `'X'` and an empty cell, a trial
placement writes `' '` on the empty cell, the number of empty cells does not
decrease, and the call never returns, however many nested calls are allowed. -/
theorem C15_counterexample :
    ¬ ∃ (fuel : Nat) (r : Int × Game),
      minimax fuel xRowGame ' ' ' ' 0 (-1000) 1000 1 = some r := by
  rintro ⟨fuel, r, h⟩
  have h0 : minimax fuel xRowGame ' ' ' ' 0 (-1000) 1000 1 = none :=
    minimax_blank_loops fuel 5 0 (-1000) 1000 1
  rw [h0] at h
  exact absurd h (by simp)

/-- C16, amended. The predicate "`moves` equals the number of cells other than `' '`"
holds after `reset_board`, and from a game in which it holds it is kept by
`place_if_empty` when it refuses the move, and when it places a mark provided
`g.current` is not `' '`; by `minimax` and `best_move_minimax` when they return; and
by `bot_make_move` on both difficulties, for any value of `rand()`, provided the
bot's symbol is not `' '`. `bot_make_move` returns on Easy, and on Hard when neither
symbol is `' '` (given fuel for nine nested calls). -/
theorem C16_moves_counted (fuel : Nat) (g : Game) (m : Mode) (row col : Int) (rnd : Nat)
    (bot human : Char) (depth alpha beta maximizing : Int) (hinv : movesCounted g) :
    (∀ g0 : Game, movesCounted (reset_board g0)) ∧
    (g.current ≠ ' ' → movesCounted (place_if_empty g row col).2) ∧
    ((place_if_empty g row col).1 = 0 → movesCounted (place_if_empty g row col).2) ∧
    (∀ r, minimax fuel g bot human depth alpha beta maximizing = some r → movesCounted r.2) ∧
    (∀ r, best_move_minimax fuel g bot human = some r → movesCounted r.2) ∧
    (m.bot_symbol ≠ ' ' → ∀ g1, bot_make_move fuel g m rnd = some g1 → movesCounted g1) ∧
    (m.bot_hard = 0 ∨ (m.bot_symbol ≠ ' ' ∧ m.human_symbol ≠ ' ' ∧ 9 ≤ fuel) →
      ∃ g1, bot_make_move fuel g m rnd = some g1) := by
  obtain ⟨_, h2, h3, h4, h5, h6⟩ :=
    moves_kept fuel g m row col rnd bot human depth alpha beta maximizing hinv
  refine ⟨movesCounted_reset, h2, h3, h4, h5, h6, ?_⟩
  intro h
  have he := emptyCount_le g
  apply bot_make_move_total
  rcases h with h | ⟨a, b, c⟩
  · exact Or.inl h
  · exact Or.inr ⟨a, b, by omega⟩

/-- Witness of C16: the forced-block board, a human move at `(2, 2)` and the bot on
Easy. -/
theorem C16_witness :
    (∀ g0 : Game, movesCounted (reset_board g0)) ∧
    (blockGame.current ≠ ' ' → movesCounted (place_if_empty blockGame 2 2).2) ∧
    ((place_if_empty blockGame 2 2).1 = 0 → movesCounted (place_if_empty blockGame 2 2).2) ∧
    (∀ r, minimax 10 blockGame 'O' 'X' 0 (-1000) 1000 1 = some r → movesCounted r.2) ∧
    (∀ r, best_move_minimax 10 blockGame 'O' 'X' = some r → movesCounted r.2) ∧
    ((⟨1, 'X', 'O', 0⟩ : Mode).bot_symbol ≠ ' ' →
      ∀ g1, bot_make_move 10 blockGame ⟨1, 'X', 'O', 0⟩ 7 = some g1 → movesCounted g1) ∧
    ((⟨1, 'X', 'O', 0⟩ : Mode).bot_hard = 0 ∨
      ((⟨1, 'X', 'O', 0⟩ : Mode).bot_symbol ≠ ' ' ∧
        (⟨1, 'X', 'O', 0⟩ : Mode).human_symbol ≠ ' ' ∧ 9 ≤ 10) →
      ∃ g1, bot_make_move 10 blockGame ⟨1, 'X', 'O', 0⟩ 7 = some g1) :=
  C16_moves_counted 10 blockGame ⟨1, 'X', 'O', 0⟩ 2 2 7 'O' 'X' 0 (-1000) 1000 1
    (by unfold movesCounted; decide)

/-- Counterexample to C16 as stated for every game: on the empty board with `' '` in
the field `current` (and `moves = 0`, the number of marks), `place_if_empty` at
`(0, 0)` succeeds, writes `' '` and increments `moves`: afterwards `moves` is 1 and
the board still holds no mark. -/
theorem C16_counterexample :
    blankTurnGame.moves = (countMarks blankTurnGame : Int) ∧
    (place_if_empty blankTurnGame 0 0).1 = 1 ∧
    (place_if_empty blankTurnGame 0 0).2.moves ≠
      (countMarks (place_if_empty blankTurnGame 0 0).2 : Int) := by
  decide

/-- C17. For every game and every value `rnd` returned by `rand()`: the empty cells
collected by `random_move` are the cells holding `' '`, in row-major order, and their
number is `k = emptyCount g`; if `k = 0`, `random_move` returns `(-1, -1)`; if `k ≥ 1`
it returns the coordinates, both in `0..2`, of the `(rnd mod k)`-th of them (counted
from 0), a cell that is empty. `random_move` stores nothing through `g`: the game is
an input of the embedding only. -/
theorem C17_random_move (g : Game) (rnd : Nat) :
    (emptyCells g).Pairwise (fun a b => cellIndex a < cellIndex b) ∧
    (∀ rc : Fin 3 × Fin 3, rc ∈ emptyCells g ↔ g.board.get rc.1 rc.2 = ' ') ∧
    (emptyCells g).length = emptyCount g ∧
    (emptyCount g = 0 → random_move g rnd = (-1, -1)) ∧
    (1 ≤ emptyCount g →
      ∃ rc : Fin 3 × Fin 3, (emptyCells g).get? (rnd % emptyCount g) = some rc ∧
        random_move g rnd = ((rc.1.val : Int), (rc.2.val : Int)) ∧
        g.board.get rc.1 rc.2 = ' ') :=
  ⟨emptyCells_sorted g, mem_emptyCells g, emptyCells_length g, (random_move_spec g rnd).1,
    (random_move_spec g rnd).2⟩

/-- C18. For every game with cells in `{'X','O',' '}` and `moves` equal to the number
of marks, distinct symbols `bot`, `human`, every depth in `0..9`, every `alpha` and
`beta` (also an empty or inverted window) and both values of `maximizing`, `minimax`
returns (given fuel for ten nested calls) a value in `[-10, 10]`; in particular it
never returns the sentinels `-1000` and `1000`. -/
theorem C18_minimax_range (fuel : Nat) (g : Game) (bot human : Char)
    (depth alpha beta maximizing : Int) (hfuel : 10 ≤ fuel) (hcells : validCells g)
    (hmoves : g.moves = (countMarks g : Int))
    (hsyms : (bot = 'X' ∧ human = 'O') ∨ (bot = 'O' ∧ human = 'X'))
    (hd0 : 0 ≤ depth) (hd9 : depth ≤ 9) :
    ∃ v, minimax fuel g bot human depth alpha beta maximizing = some (v, g) ∧
      -10 ≤ v ∧ v ≤ 10 ∧ v ≠ -1000 ∧ v ≠ 1000 := by
  have he := emptyCount_le g
  obtain ⟨v, h1, h2, h3⟩ := minimax_range fuel g bot human depth alpha beta maximizing
    ⟨hcells, hmoves, hsyms⟩ (by omega) hd0 (by omega)
  exact ⟨v, h1, h2, h3, by omega, by omega⟩

/-- Witness of C18: the forced-block board searched with the inverted window
`(3, -3)`. -/
theorem C18_witness :
    ∃ v, minimax 10 blockGame 'O' 'X' 0 3 (-3) 1 = some (v, blockGame) ∧
      -10 ≤ v ∧ v ≤ 10 ∧ v ≠ -1000 ∧ v ≠ 1000 :=
  C18_minimax_range 10 blockGame 'O' 'X' 0 3 (-3) 1 (by decide)
    (validCells_of_list _ (by decide)) (by decide) (by decide) (by decide) (by decide)

/-- C19. In the state the game loop of either program has reached after any number of
iterations from `reset_board` (in `tic_tac_toe2.c` for every play mode, symbol
assignment and difficulty, for all typed lines and all values of `rand()`; in
`tic_tac_toe.c` for all typed lines), the two players do not both hold a completed
row, column or diagonal, and the number of `'X'` marks minus the number of `'O'`
marks is 0 or 1. The loops place a mark only when `check_status` is `' '` and pass
the turn after each placement. -/
theorem C19_alternating_turns (fuel n : Nat) (m : Mode) (g0 : Game)
    (typed : List (Option (Int × Int))) (rnds : List Nat) (hfuel : 10 ≤ fuel)
    (hmode : (m.human_symbol = 'X' ∧ m.bot_symbol = 'O') ∨
      (m.human_symbol = 'O' ∧ m.bot_symbol = 'X')) :
    (∃ g, playGame fuel m g0 n typed rnds = some g ∧
      ¬ ((∃ l ∈ lines, lineOf g l 'X') ∧ (∃ l ∈ lines, lineOf g l 'O')) ∧
      ((countOf g 'X' : Int) - (countOf g 'O' : Int) = 0 ∨
        (countOf g 'X' : Int) - (countOf g 'O' : Int) = 1)) ∧
    ¬ ((∃ l ∈ lines, lineOf (plainGame g0 n typed) l 'X') ∧
        (∃ l ∈ lines, lineOf (plainGame g0 n typed) l 'O')) ∧
    ((countOf (plainGame g0 n typed) 'X' : Int) - (countOf (plainGame g0 n typed) 'O' : Int) = 0 ∨
      (countOf (plainGame g0 n typed) 'X' : Int) -
        (countOf (plainGame g0 n typed) 'O' : Int) = 1) := by
  constructor
  · obtain ⟨g, h1, h2⟩ := playGame_turn fuel n m g0 typed rnds (by omega) hmode
    exact ⟨g, h1, h2.fair rfl⟩
  · obtain ⟨g1, h1, h2⟩ := plainLoop_turn n startGame typed Turn.start (by decide)
    exact h2.fair h1.symm

/-- Witness of C19: the human plays `'X'` against the bot on Easy, types the centre,
an unreadable line and a cell outside the grid. -/
theorem C19_witness :
    (∃ g, playGame 10 ⟨1, 'X', 'O', 0⟩ startGame 6 [some (1, 1), none, some (7, 7)] [3, 8] =
        some g ∧
      ¬ ((∃ l ∈ lines, lineOf g l 'X') ∧ (∃ l ∈ lines, lineOf g l 'O')) ∧
      ((countOf g 'X' : Int) - (countOf g 'O' : Int) = 0 ∨
        (countOf g 'X' : Int) - (countOf g 'O' : Int) = 1)) ∧
    ¬ ((∃ l ∈ lines, lineOf (plainGame startGame 6 [some (1, 1), none, some (7, 7)]) l 'X') ∧
        (∃ l ∈ lines, lineOf (plainGame startGame 6 [some (1, 1), none, some (7, 7)]) l 'O')) ∧
    ((countOf (plainGame startGame 6 [some (1, 1), none, some (7, 7)]) 'X' : Int) -
        (countOf (plainGame startGame 6 [some (1, 1), none, some (7, 7)]) 'O' : Int) = 0 ∨
      (countOf (plainGame startGame 6 [some (1, 1), none, some (7, 7)]) 'X' : Int) -
        (countOf (plainGame startGame 6 [some (1, 1), none, some (7, 7)]) 'O' : Int) = 1) :=
  C19_alternating_turns 10 6 ⟨1, 'X', 'O', 0⟩ startGame [some (1, 1), none, some (7, 7)] [3, 8]
    (by decide) (by decide)

/-- C20. For every game with cells in `{'X','O',' '}` and `moves` equal to the number
of marks, distinct symbols `bot`, `human`, every depth and every window with
`-1000 ≤ alpha < beta ≤ 1000`: `minimax` returns (given fuel for ten nested calls) a
value `r` and leaves the game unchanged, and with `v` the value of the brute-force
minimax of the node, `r = v` if `alpha < v < beta`, `r ≤ alpha` if `v ≤ alpha`, and
`r ≥ beta` if `v ≥ beta`. -/
theorem C20_alpha_beta_window (fuel : Nat) (g : Game) (bot human : Char)
    (depth alpha beta maximizing : Int) (hfuel : 10 ≤ fuel) (hcells : validCells g)
    (hmoves : g.moves = (countMarks g : Int))
    (hsyms : (bot = 'X' ∧ human = 'O') ∨ (bot = 'O' ∧ human = 'X'))
    (ha : -1000 ≤ alpha) (hab : alpha < beta) (hb : beta ≤ 1000) :
    ∃ r v, minimax fuel g bot human depth alpha beta maximizing = some (r, g) ∧
      bruteForce fuel g bot human depth (decide (maximizing ≠ 0)) = some v ∧
      (alpha < v → v < beta → r = v) ∧ (v ≤ alpha → r ≤ alpha) ∧ (beta ≤ v → beta ≤ r) := by
  have he := emptyCount_le g
  exact minimax_window fuel g bot human depth alpha beta maximizing ⟨hcells, hmoves, hsyms⟩
    (by omega) ha hab hb

/-- Witness of C20: the forced-block board searched with the narrow window
`(-1, 1)`. -/
theorem C20_witness :
    ∃ r v, minimax 10 blockGame 'O' 'X' 0 (-1) 1 1 = some (r, blockGame) ∧
      bruteForce 10 blockGame 'O' 'X' 0 (decide ((1 : Int) ≠ 0)) = some v ∧
      ((-1 : Int) < v → v < 1 → r = v) ∧ (v ≤ -1 → r ≤ -1) ∧ (1 ≤ v → 1 ≤ r) :=
  C20_alpha_beta_window 10 blockGame 'O' 'X' 0 (-1) 1 1 (by decide)
    (validCells_of_list _ (by decide)) (by decide) (by decide) (by decide) (by decide)
    (by decide)

end TicTacToe
